import Mathlib

/-!
# Verification of the RAINBOHz audio-rendering core

A shallow embedding, in Lean 4, of the envelope → cycle-accumulator → paxel
pipeline of the RAINBOHz additive-synthesis engine, together with theorems
settling the specification claims about it.

Modelling conventions:
* C++ `double` values are modelled as exact real numbers (`ℝ`); the spec's
  floating-point tolerances become exact equalities in this model.
* C++ `uint32_t` sample counts are modelled as `ℕ`.  `uint32_t` subtraction
  wraps on underflow while `ℕ` subtraction truncates; every theorem below
  carries hypotheses under which no subtraction underflows, so the two agree.
* `std::fmod` and the `double → uint32_t` / `double → int32_t` casts truncate
  toward zero; `rtrunc` below is that truncation.
* C++ `while` loops are embedded as fuel-indexed recursion; the termination
  theorems state that the supplied fuel suffices.
-/

namespace RAINBOHz

/-- `constexpr double PI` from audio_types.h (the double literal denotes π in
this exact-real model). -/
noncomputable def PI : ℝ := Real.pi

/-- `constexpr double TWO_PI = 2.0 * PI;` from audio_types.h. -/
noncomputable def TWO_PI : ℝ := 2.0 * PI

/-- `constexpr double ZERO_PI = 0.0;` from audio_types.h. -/
def ZERO_PI : ℝ := 0.0

/-- `constexpr uint32_t kSampleRate = 96000;` from audio_types.h. -/
def kSampleRate : ℕ := 96000

/-- `constexpr uint32_t kSamplesPerPaxel = kSampleRate;` from paxel_types.h. -/
def kSamplesPerPaxel : ℕ := kSampleRate

/-- `constexpr int32_t kMaxSamplePaxelInt = 0x7FFFFF;` from audio_types.h. -/
def kMaxSamplePaxelInt : ℤ := 0x7FFFFF

/-- Truncation toward zero, the semantics of C++ `double → integer` casts and
of the quotient implicit in `std::fmod`. -/
noncomputable def rtrunc (x : ℝ) : ℤ := if x < 0 then -⌊-x⌋ else ⌊x⌋

/-- `std::fmod(x, y)` in the exact-real model: `x - y * trunc(x / y)`. -/
noncomputable def fmod (x y : ℝ) : ℝ := x - y * (rtrunc (x / y) : ℝ)

/-- `phaseMod` from audio_helpers.h: reduce a phase into [0, 2π) with a
positive representative. -/
noncomputable def phaseMod (phase : ℝ) : ℝ :=
  if fmod phase TWO_PI < 0 then fmod phase TWO_PI + TWO_PI
  else fmod phase TWO_PI

/-- `coherenceCompensation` from audio_helpers.h: the compensation to add to
`sourcePhase` to reach phase coherence with `targetPhase`. -/
noncomputable def coherenceCompensation (sourcePhase targetPhase : ℝ) : ℝ :=
  if sourcePhase = targetPhase then 0.0
  else if phaseMod targetPhase - phaseMod sourcePhase > PI then
    phaseMod targetPhase - phaseMod sourcePhase - TWO_PI
  else if phaseMod targetPhase - phaseMod sourcePhase < -PI then
    phaseMod targetPhase - phaseMod sourcePhase + TWO_PI
  else phaseMod targetPhase - phaseMod sourcePhase

/-- `secondsToSamples` from audio_helpers.h:
`static_cast<uint32_t>(t * kSampleRate)` (truncating; the callers only supply
non-negative times). -/
noncomputable def secondsToSamples (timesSeconds : ℝ) : ℕ :=
  (rtrunc (timesSeconds * (kSampleRate : ℝ))).toNat

/-- `normalizeFrequency` from audio_helpers.h. -/
noncomputable def normalizeFrequency (frequencyHz : ℝ) : ℝ :=
  (frequencyHz * TWO_PI) / (kSampleRate : ℝ)

/-- `computeCycleAccumulator` from audio_helpers.h:
`½·rate·n² + f₀·n + c₀`. -/
noncomputable def computeCycleAccumulator (startCycleAccumulator startFrequency
    startFrequencyRate : ℝ) (samplesSinceStart : ℕ) : ℝ :=
  0.5 * startFrequencyRate * (samplesSinceStart : ℝ) * (samplesSinceStart : ℝ) +
    startFrequency * (samplesSinceStart : ℝ) + startCycleAccumulator

/-- `computeCycleAccumulatorToExactEnd` from audio_helpers.h. -/
noncomputable def computeCycleAccumulatorToExactEnd (startCycleAccumulator startFrequency
    endFrequency : ℝ) (samplesBetween : ℕ) : ℝ :=
  startCycleAccumulator + startFrequency * (samplesBetween : ℝ) +
    (endFrequency - startFrequency) * (samplesBetween : ℝ) / 2.0

/-- `computeFrequencyRate` from audio_helpers.h. -/
noncomputable def computeFrequencyRate (startCycleAccumulator startFrequency
    endCycleAccumulator : ℝ) (samplesSinceStart : ℕ) : ℝ :=
  2.0 * (endCycleAccumulator - startCycleAccumulator -
      startFrequency * (samplesSinceStart : ℝ)) /
    ((samplesSinceStart : ℝ) * (samplesSinceStart : ℝ))

/-! ## Basic facts about `phaseMod` -/

theorem TWO_PI_pos : (0 : ℝ) < TWO_PI := by
  have := Real.pi_pos
  unfold TWO_PI PI
  linarith

theorem PI_pos : (0 : ℝ) < PI := Real.pi_pos

theorem rtrunc_of_nonneg {x : ℝ} (h : 0 ≤ x) : rtrunc x = ⌊x⌋ := by
  unfold rtrunc
  rw [if_neg (not_lt.mpr h)]

/-- The key arithmetic fact about truncation toward zero: the defect
`q - rtrunc q` is `fract q` for `q ≥ 0` and `fract q - 1` (or `0` at integers)
for `q < 0`. -/
theorem sub_rtrunc_cases (q : ℝ) :
    q - (rtrunc q : ℝ) = Int.fract q ∨
    (q - (rtrunc q : ℝ) = Int.fract q - 1 ∧ Int.fract q ≠ 0) := by
  have hfract : Int.fract q = q - (⌊q⌋ : ℝ) := rfl
  by_cases hneg : q < 0
  · have hrt : rtrunc q = -⌊-q⌋ := if_pos hneg
    by_cases hint : Int.fract q = 0
    · left
      have hq_int : q = (⌊q⌋ : ℝ) := by
        rw [hfract] at hint
        linarith
      have hfloorneg : ⌊-q⌋ = -⌊q⌋ := by
        conv_lhs => rw [hq_int]
        rw [← Int.cast_neg, Int.floor_intCast]
      rw [hrt, hfloorneg, hint]
      push_cast
      linarith [hq_int]
    · right
      refine ⟨?_, hint⟩
      have hlt : (⌊q⌋ : ℝ) < q := by
        rcases lt_or_eq_of_le (Int.floor_le q) with h | h
        · exact h
        · exact absurd (by rw [hfract]; linarith) hint
      have hle : q < (⌊q⌋ : ℝ) + 1 := Int.lt_floor_add_one q
      have hfloorneg : ⌊-q⌋ = -⌊q⌋ - 1 := by
        rw [Int.floor_eq_iff]
        constructor
        · push_cast; linarith
        · push_cast; linarith
      rw [hrt, hfloorneg, hfract]
      push_cast
      ring
  · left
    have hrt : rtrunc q = ⌊q⌋ := if_neg hneg
    rw [hrt, hfract]

/-- `phaseMod` agrees with the canonical representative `2π · fract(x / 2π)`. -/
theorem phaseMod_eq_fract (x : ℝ) :
    phaseMod x = TWO_PI * Int.fract (x / TWO_PI) := by
  have hTP := TWO_PI_pos
  have hTP' : TWO_PI ≠ 0 := ne_of_gt hTP
  have hfr0 : (0 : ℝ) ≤ Int.fract (x / TWO_PI) := Int.fract_nonneg _
  have hfr1 : Int.fract (x / TWO_PI) < 1 := Int.fract_lt_one _
  have hfmod : fmod x TWO_PI =
      TWO_PI * (x / TWO_PI - (rtrunc (x / TWO_PI) : ℝ)) := by
    unfold fmod
    field_simp
  rcases sub_rtrunc_cases (x / TWO_PI) with hcase | ⟨hcase, hne⟩
  · have hval : fmod x TWO_PI = TWO_PI * Int.fract (x / TWO_PI) := by
      rw [hfmod, hcase]
    unfold phaseMod
    rw [hval, if_neg (by nlinarith)]
  · have hval : fmod x TWO_PI = TWO_PI * (Int.fract (x / TWO_PI) - 1) := by
      rw [hfmod, hcase]
    have hfrpos : 0 < Int.fract (x / TWO_PI) :=
      lt_of_le_of_ne hfr0 (Ne.symm hne)
    unfold phaseMod
    rw [hval, if_pos (by nlinarith)]
    ring

theorem phaseMod_nonneg (x : ℝ) : 0 ≤ phaseMod x := by
  rw [phaseMod_eq_fract]
  exact mul_nonneg TWO_PI_pos.le (Int.fract_nonneg _)

theorem phaseMod_lt_two_pi (x : ℝ) : phaseMod x < TWO_PI := by
  rw [phaseMod_eq_fract]
  have := Int.fract_lt_one (x / TWO_PI)
  nlinarith [TWO_PI_pos]

/-- `phaseMod` is invariant under shifts by integer multiples of 2π. -/
theorem phaseMod_add_int_mul (x : ℝ) (k : ℤ) :
    phaseMod (x + TWO_PI * k) = phaseMod x := by
  have hTP' : TWO_PI ≠ 0 := ne_of_gt TWO_PI_pos
  rw [phaseMod_eq_fract, phaseMod_eq_fract]
  congr 1
  have : (x + TWO_PI * k) / TWO_PI = x / TWO_PI + k := by
    field_simp
    ring
  rw [this, Int.fract_add_int]

theorem phaseMod_eq_self {x : ℝ} (h0 : 0 ≤ x) (h1 : x < TWO_PI) :
    phaseMod x = x := by
  have hTP := TWO_PI_pos
  rw [phaseMod_eq_fract]
  have hq0 : 0 ≤ x / TWO_PI := div_nonneg h0 hTP.le
  have hq1 : x / TWO_PI < 1 := (div_lt_one hTP).mpr h1
  rw [Int.fract_eq_self.mpr ⟨hq0, hq1⟩]
  field_simp

theorem phaseMod_idem (x : ℝ) : phaseMod (phaseMod x) = phaseMod x :=
  phaseMod_eq_self (phaseMod_nonneg x) (phaseMod_lt_two_pi x)

/-- Two reals have the same `phaseMod` iff they differ by an integer multiple
of 2π. -/
theorem phaseMod_eq_iff (x y : ℝ) :
    phaseMod x = phaseMod y ↔ ∃ k : ℤ, x - y = TWO_PI * k := by
  have hTP := TWO_PI_pos
  have hTP' : TWO_PI ≠ 0 := ne_of_gt hTP
  constructor
  · intro h
    rw [phaseMod_eq_fract, phaseMod_eq_fract] at h
    have hfr : Int.fract (x / TWO_PI) = Int.fract (y / TWO_PI) :=
      mul_left_cancel₀ hTP' h
    refine ⟨⌊x / TWO_PI⌋ - ⌊y / TWO_PI⌋, ?_⟩
    have hx : Int.fract (x / TWO_PI) = x / TWO_PI - ⌊x / TWO_PI⌋ := rfl
    have hy : Int.fract (y / TWO_PI) = y / TWO_PI - ⌊y / TWO_PI⌋ := rfl
    rw [hx, hy] at hfr
    have : x / TWO_PI - y / TWO_PI =
        ((⌊x / TWO_PI⌋ : ℝ) - (⌊y / TWO_PI⌋ : ℝ)) := by linarith
    push_cast
    field_simp at this ⊢
    linarith
  · rintro ⟨k, hk⟩
    have hxy : x = y + TWO_PI * k := by linarith
    rw [hxy, phaseMod_add_int_mul]

/-- `phaseMod (phaseMod x + d) = phaseMod (x + d)`: reduction before a shift
does not change the reduced result. -/
theorem phaseMod_phaseMod_add (x d : ℝ) :
    phaseMod (phaseMod x + d) = phaseMod (x + d) := by
  rw [phaseMod_eq_iff]
  refine ⟨-⌊x / TWO_PI⌋, ?_⟩
  rw [phaseMod_eq_fract]
  have hx : Int.fract (x / TWO_PI) = x / TWO_PI - ⌊x / TWO_PI⌋ := rfl
  rw [hx]
  have hTP' : TWO_PI ≠ 0 := ne_of_gt TWO_PI_pos
  push_cast
  field_simp

/-! ## Claim C2: the coherence-compensation laws -/

theorem coherenceCompensation_self (x : ℝ) : coherenceCompensation x x = 0 := by
  unfold coherenceCompensation
  rw [if_pos rfl]
  norm_num

theorem coherenceCompensation_mem (x y : ℝ) :
    coherenceCompensation x y ∈ Set.Icc (-PI) PI := by
  have hpi := PI_pos
  have h2 : TWO_PI = 2 * PI := by unfold TWO_PI; norm_num
  unfold coherenceCompensation
  by_cases heq : x = y
  · rw [if_pos heq]
    constructor <;> [linarith; linarith]
  · rw [if_neg heq]
    have hs0 := phaseMod_nonneg x
    have hs1 := phaseMod_lt_two_pi x
    have ht0 := phaseMod_nonneg y
    have ht1 := phaseMod_lt_two_pi y
    by_cases hgt : phaseMod y - phaseMod x > PI
    · rw [if_pos hgt]
      constructor <;> [linarith; linarith]
    · rw [if_neg hgt]
      by_cases hlt : phaseMod y - phaseMod x < -PI
      · rw [if_pos hlt]
        constructor <;> [linarith; linarith]
      · rw [if_neg hlt]
        constructor <;> [linarith; linarith]

/-- The round-trip law: adding the compensation to the source phase makes it
coherent with the target phase. -/
theorem phaseMod_add_coherenceCompensation (x y : ℝ) :
    phaseMod (x + coherenceCompensation x y) = phaseMod y := by
  unfold coherenceCompensation
  by_cases heq : x = y
  · rw [if_pos heq, heq]
    norm_num
  · rw [if_neg heq]
    have key : ∀ k : ℤ, phaseMod (x + (phaseMod y - phaseMod x + TWO_PI * k)) =
        phaseMod y := by
      intro k
      have h1 : x + (phaseMod y - phaseMod x + TWO_PI * k) =
          (phaseMod y + (x - phaseMod x)) + TWO_PI * k := by ring
      rw [h1, phaseMod_add_int_mul]
      have h2 : phaseMod y + (x - phaseMod x) = phaseMod y + x - phaseMod x := by
        ring
      have h3 : phaseMod (phaseMod x + (phaseMod y + x - x - phaseMod x)) =
          phaseMod (x + (phaseMod y + x - x - phaseMod x)) :=
        phaseMod_phaseMod_add x (phaseMod y + x - x - phaseMod x)
      have h4 : phaseMod x + (phaseMod y + x - x - phaseMod x) = phaseMod y := by
        ring
      have h5 : x + (phaseMod y + x - x - phaseMod x) =
          phaseMod y + (x - phaseMod x) := by ring
      rw [h4, h5] at h3
      rw [h2]
      have h6 : phaseMod y + x - phaseMod x = phaseMod y + (x - phaseMod x) := by
        ring
      rw [h6, ← h3, phaseMod_idem]
    by_cases hgt : phaseMod y - phaseMod x > PI
    · rw [if_pos hgt]
      have := key (-1)
      push_cast at this
      convert this using 2
      ring
    · rw [if_neg hgt]
      by_cases hlt : phaseMod y - phaseMod x < -PI
      · rw [if_pos hlt]
        have := key 1
        push_cast at this
        convert this using 2
        ring
      · rw [if_neg hlt]
        have := key 0
        push_cast at this
        convert this using 2
        ring

/-- Minimality in absolute value: any other shift achieving coherence is at
least as large in magnitude. -/
theorem coherenceCompensation_abs_min (x y δ : ℝ)
    (h : phaseMod (x + δ) = phaseMod y) :
    |coherenceCompensation x y| ≤ |δ| := by
  have hpi := PI_pos
  have h2 : TWO_PI = 2 * PI := by unfold TWO_PI; norm_num
  have hcc := phaseMod_add_coherenceCompensation x y
  have hsame : phaseMod (x + δ) = phaseMod (x + coherenceCompensation x y) := by
    rw [h, hcc]
  rw [phaseMod_eq_iff] at hsame
  obtain ⟨k, hk⟩ := hsame
  have hδ : δ = coherenceCompensation x y + TWO_PI * k := by linarith
  have hmem := coherenceCompensation_mem x y
  obtain ⟨hlo, hhi⟩ := hmem
  have habs : |coherenceCompensation x y| ≤ PI := abs_le.mpr ⟨hlo, hhi⟩
  rcases eq_or_ne k 0 with hk0 | hk0
  · rw [hδ, hk0]
    push_cast
    norm_num
  · have hk1 : (1 : ℝ) ≤ |(k : ℝ)| := by
      have : (1 : ℤ) ≤ |k| := Int.one_le_abs hk0
      calc (1 : ℝ) = ((1 : ℤ) : ℝ) := by norm_num
        _ ≤ ((|k| : ℤ) : ℝ) := by exact_mod_cast this
        _ = |(k : ℝ)| := by push_cast; ring
    have htpk : TWO_PI ≤ |TWO_PI * k| := by
      rw [abs_mul, abs_of_pos TWO_PI_pos]
      nlinarith [TWO_PI_pos]
    calc |coherenceCompensation x y| ≤ PI := habs
      _ ≤ TWO_PI - PI := by linarith
      _ ≤ |TWO_PI * k| - |coherenceCompensation x y| := by linarith
      _ ≤ |coherenceCompensation x y + TWO_PI * k| := by
          have := abs_add (coherenceCompensation x y + TWO_PI * k)
            (-(coherenceCompensation x y))
          have h3 : coherenceCompensation x y + TWO_PI * k +
              -(coherenceCompensation x y) = TWO_PI * k := by ring
          rw [h3] at this
          have h4 : |(-(coherenceCompensation x y))| =
              |coherenceCompensation x y| := abs_neg _
          linarith
      _ = |δ| := by rw [hδ]

/-- C2 (counterexample): `coherenceCompensation(0, π)` is `π`, yet `−π` also
lies in `[−π, π]` and satisfies the coherence equation, and `−π < π`.  So the
compensation is *not* the least such δ. -/
theorem coherenceCompensation_not_least :
    ¬ IsLeast {δ : ℝ | δ ∈ Set.Icc (-PI) PI ∧
        phaseMod ((0 : ℝ) + δ) = phaseMod PI} (coherenceCompensation 0 PI) := by
  have hpi := PI_pos
  have h2 : TWO_PI = 2 * PI := by unfold TWO_PI; norm_num
  have hpm0 : phaseMod 0 = 0 := phaseMod_eq_self le_rfl TWO_PI_pos
  have hpmpi : phaseMod PI = PI := phaseMod_eq_self hpi.le (by linarith)
  have hcc : coherenceCompensation 0 PI = PI := by
    unfold coherenceCompensation
    rw [if_neg (by intro h; exact absurd h.symm (ne_of_gt hpi))]
    rw [hpm0, hpmpi]
    rw [if_neg (by simp), if_neg (by intro h; linarith)]
    ring
  have hnegpi_mem : -PI ∈ {δ : ℝ | δ ∈ Set.Icc (-PI) PI ∧
      phaseMod ((0 : ℝ) + δ) = phaseMod PI} := by
    constructor
    · exact ⟨le_rfl, by linarith⟩
    · have : (0 : ℝ) + -PI = PI + TWO_PI * (-1 : ℤ) := by push_cast; linarith
      rw [this, phaseMod_add_int_mul]
  intro hleast
  have := hleast.2 hnegpi_mem
  rw [hcc] at this
  linarith

/-- C2 (amended): `coherenceCompensation(x, x) = 0`; the result always lies in
`[−π, π]`; `phaseMod (x + coherenceCompensation x y) = phaseMod y`; and the
compensation is of *minimal absolute value* among all shifts achieving
coherence (rather than being the least such shift). -/
theorem coherenceCompensation_laws (x y : ℝ) :
    coherenceCompensation x x = 0 ∧
    coherenceCompensation x y ∈ Set.Icc (-PI) PI ∧
    phaseMod (x + coherenceCompensation x y) = phaseMod y ∧
    (∀ δ : ℝ, phaseMod (x + δ) = phaseMod y →
      |coherenceCompensation x y| ≤ |δ|) :=
  ⟨coherenceCompensation_self x, coherenceCompensation_mem x y,
    phaseMod_add_coherenceCompensation x y,
    fun δ h => coherenceCompensation_abs_min x y δ h⟩

/-- Witness for C2 at the concrete input x = 0, y = 0. -/
theorem coherenceCompensation_laws_witness :
    coherenceCompensation 0 0 = 0 ∧
    coherenceCompensation 0 0 ∈ Set.Icc (-PI) PI ∧
    phaseMod (0 + coherenceCompensation 0 0) = phaseMod 0 ∧
    (∀ δ : ℝ, phaseMod (0 + δ) = phaseMod 0 →
      |coherenceCompensation 0 0| ≤ |δ|) :=
  coherenceCompensation_laws 0 0

/-! ## The envelope trimmer (`PhysicalEnvelopeGenerator::trimPartialEnvelope`)

The C++ routine mutates `levels`/`times` in place; here it is a function
returning the final pair.  Its three phases are embedded as separate
functions: the two clean-up `while` loops, the tail-shrinking `while` loop of
the "envelope too long" branch, and the final branch logic. -/

/-- `while (times.size() >= levels.size()) times.pop_back();`
(physical_envelope_generator.cpp:71-73).  The `times ≠ []` guard only rules
out the `pop_back` on an empty vector that is undefined behaviour in C++. -/
noncomputable def trimDropTimes (levelsCount : ℕ) (times : List ℝ) : List ℝ :=
  if times.length ≥ levelsCount ∧ times ≠ [] then
    trimDropTimes levelsCount times.dropLast
  else times
termination_by times.length
decreasing_by
  exact (List.length_dropLast _) ▸
    Nat.sub_lt (List.length_pos.mpr (by tauto)) Nat.one_pos

/-- `while (levels.size() > (times.size() + 1)) levels.pop_back();`
(physical_envelope_generator.cpp:77-79). -/
noncomputable def trimDropLevels (timesCount : ℕ) (levels : List ℝ) : List ℝ :=
  if levels.length > timesCount + 1 ∧ levels ≠ [] then
    trimDropLevels timesCount levels.dropLast
  else levels
termination_by levels.length
decreasing_by
  exact (List.length_dropLast _) ▸
    Nat.sub_lt (List.length_pos.mpr (by tauto)) Nat.one_pos

/-- The tail-dropping loop of the "envelope longer than the phase-defined
duration" branch (physical_envelope_generator.cpp:102-109):
`while ((envelopeTotalTime - times.back()) > endTimeSeconds_) { ... }`.
Returns the final `(levels, times, envelopeTotalTime)`. -/
noncomputable def trimShrink (levels times : List ℝ)
    (envelopeTotalTime endTimeSeconds : ℝ) : List ℝ × List ℝ × ℝ :=
  if times ≠ [] ∧ envelopeTotalTime - times.getLastD 0 > endTimeSeconds then
    trimShrink levels.dropLast times.dropLast
      (envelopeTotalTime - times.getLastD 0) endTimeSeconds
  else (levels, times, envelopeTotalTime)
termination_by times.length
decreasing_by
  exact (List.length_dropLast _) ▸
    Nat.sub_lt (List.length_pos.mpr (by tauto)) Nat.one_pos

/-- The fractional-segment replacement after the shrink loop
(physical_envelope_generator.cpp:111-125): replace the last segment's time by
`endT - timeEnvelopeBeforeEnd` and its terminal level by the linear
interpolation of the original segment at that fractional time. -/
noncomputable def trimShrinkFinish :
    List ℝ × List ℝ × ℝ → ℝ → List ℝ × List ℝ
  | (levels, times, total), endT =>
    (levels.dropLast ++ [levels.dropLast.getLastD 0 +
        (levels.getLastD 0 - levels.dropLast.getLastD 0) *
          ((endT - (total - times.getLastD 0)) / times.getLastD 0)],
     times.dropLast ++ [endT - (total - times.getLastD 0)])

/-- The three-way comparison of the envelope's total time against the
phase-defined end time (physical_envelope_generator.cpp:96-127). -/
noncomputable def trimFinal (levels times : List ℝ) (endT : ℝ) :
    List ℝ × List ℝ :=
  if times.sum ≠ endT then
    if times.sum < endT then
      (levels ++ [levels.getLastD 0], times ++ [endT - times.sum])
    else trimShrinkFinish (trimShrink levels times times.sum endT) endT
  else (levels, times)

/-- `PhysicalEnvelopeGenerator::trimPartialEnvelope`
(physical_envelope_generator.cpp:64-133), as a function from the incoming
`(levels, times)` and the phase-defined end time to the trimmed pair. -/
noncomputable def trimPartialEnvelope (levels times : List ℝ)
    (endTimeSeconds : ℝ) : List ℝ × List ℝ :=
  trimFinal (trimDropLevels (trimDropTimes levels.length times).length levels)
    (trimDropTimes levels.length times) endTimeSeconds

/-! ### Facts about the clean-up loops -/

theorem trimDropTimes_of_lt {levelsCount : ℕ} {times : List ℝ}
    (h : times.length < levelsCount) :
    trimDropTimes levelsCount times = times := by
  rw [trimDropTimes]
  rw [if_neg (by rintro ⟨h1, -⟩; exact absurd h1 (not_le.mpr h))]

theorem trimDropTimes_length_lt {levelsCount : ℕ} (times : List ℝ)
    (h : 1 ≤ levelsCount) :
    (trimDropTimes levelsCount times).length < levelsCount := by
  induction times using List.reverseRecOn with
  | nil =>
    rw [trimDropTimes]
    rw [if_neg (by rintro ⟨-, h2⟩; exact h2 rfl)]
    simpa using h
  | append_singleton ts t ih =>
    rw [trimDropTimes]
    by_cases hcond : (ts ++ [t]).length ≥ levelsCount ∧ ts ++ [t] ≠ []
    · rw [if_pos hcond]
      simpa using ih
    · rw [if_neg hcond]
      push_neg at hcond
      exact not_le.mp (fun hge => absurd (hcond hge) (by simp))

theorem trimDropLevels_of_le {timesCount : ℕ} {levels : List ℝ}
    (h : levels.length ≤ timesCount + 1) :
    trimDropLevels timesCount levels = levels := by
  rw [trimDropLevels]
  rw [if_neg (by rintro ⟨h1, -⟩; exact absurd h1 (not_lt.mpr h))]

theorem trimDropLevels_length {timesCount : ℕ} (levels : List ℝ)
    (h : timesCount + 1 ≤ levels.length) :
    (trimDropLevels timesCount levels).length = timesCount + 1 := by
  induction levels using List.reverseRecOn with
  | nil => simp at h
  | append_singleton ls l ih =>
    rw [trimDropLevels]
    by_cases hgt : (ls ++ [l]).length > timesCount + 1
    · rw [if_pos ⟨hgt, by simp⟩]
      have hlen : (ls ++ [l]).dropLast = ls := by simp
      rw [hlen]
      exact ih (by simp at hgt ⊢; omega)
    · rw [if_neg (by rintro ⟨h1, -⟩; exact hgt h1)]
      omega

/-- After both clean-up loops, `|levels| = |times| + 1` (the mid-function
assertions of `trimPartialEnvelope`). -/
theorem trimDrop_lengths (levels times : List ℝ) (hl : levels ≠ []) :
    (trimDropLevels (trimDropTimes levels.length times).length levels).length =
      (trimDropTimes levels.length times).length + 1 := by
  have h1 : 1 ≤ levels.length := List.length_pos.mpr hl
  have h2 := @trimDropTimes_length_lt levels.length times h1
  exact trimDropLevels_length levels (by omega)

/-! ### Facts about the shrink loop -/

/-- `l.dropLast.sum + l.getLastD 0 = l.sum` for non-empty `l`. -/
theorem sum_dropLast_add_getLastD {l : List ℝ} (h : l ≠ []) :
    l.dropLast.sum + l.getLastD 0 = l.sum := by
  induction l using List.reverseRecOn with
  | nil => exact absurd rfl h
  | append_singleton ls x _ => simp

/-- Correctness of the shrink loop: starting from `total = times.sum > endT`
with `0 < endT`, it ends with a non-empty `times` whose sum is the running
total and whose before-last prefix sums to at most `endT`, in lock-step with
`levels`. -/
theorem trimShrink_spec (times : List ℝ) : ∀ levels : List ℝ, ∀ endT : ℝ,
    0 < endT → times.sum > endT → levels.length = times.length + 1 →
    (trimShrink levels times times.sum endT).2.1 ≠ [] ∧
    (trimShrink levels times times.sum endT).2.2 =
      (trimShrink levels times times.sum endT).2.1.sum ∧
    (trimShrink levels times times.sum endT).2.2 -
      (trimShrink levels times times.sum endT).2.1.getLastD 0 ≤ endT ∧
    (trimShrink levels times times.sum endT).1.length =
      (trimShrink levels times times.sum endT).2.1.length + 1 := by
  induction times using List.reverseRecOn with
  | nil =>
    intro levels endT hT hsum hlen
    simp at hsum
    linarith
  | append_singleton ts t ih =>
    intro levels endT hT hsum hlen
    rw [trimShrink]
    by_cases hcond : (ts ++ [t] : List ℝ) ≠ [] ∧
        (ts ++ [t] : List ℝ).sum - (ts ++ [t] : List ℝ).getLastD 0 > endT
    · rw [if_pos hcond]
      have hdl : (ts ++ [t] : List ℝ).dropLast = ts := by simp
      have hsub : (ts ++ [t] : List ℝ).sum - (ts ++ [t] : List ℝ).getLastD 0 =
          ts.sum := by simp
      rw [hdl, hsub]
      have hlev : levels.dropLast.length = levels.length - 1 :=
        List.length_dropLast _
      refine ih levels.dropLast endT hT (by rw [← hsub]; exact hcond.2) ?_
      simp at hlen
      omega
    · rw [if_neg hcond]
      push_neg at hcond
      have hne : (ts ++ [t] : List ℝ) ≠ [] := by simp
      refine ⟨hne, rfl, hcond hne, by simpa using hlen⟩

/-- C4: after the envelope trimmer runs on a non-empty `levels` vector with
non-negative `times` and a positive end time `T`, the result satisfies
`|levels| = |times| + 1 ≥ 1` and `sum(times) = T` (exactly, in this
exact-real model of the floating-point input). -/
theorem trimPartialEnvelope_post (levels times : List ℝ) (endT : ℝ)
    (hl : levels ≠ []) (ht : ∀ t ∈ times, 0 ≤ t) (hT : 0 < endT) :
    (trimPartialEnvelope levels times endT).1.length =
      (trimPartialEnvelope levels times endT).2.length + 1 ∧
    1 ≤ (trimPartialEnvelope levels times endT).1.length ∧
    (trimPartialEnvelope levels times endT).2.sum = endT := by
  have hlen := trimDrop_lengths levels times hl
  set times1 := trimDropTimes levels.length times with htimes1
  set levels1 := trimDropLevels times1.length levels with hlevels1
  unfold trimPartialEnvelope
  rw [← htimes1, ← hlevels1]
  unfold trimFinal
  by_cases heq : times1.sum = endT
  · rw [if_neg (by simpa using heq)]
    exact ⟨hlen, by show 1 ≤ levels1.length; omega, heq⟩
  · rw [if_pos heq]
    by_cases hlt : times1.sum < endT
    · rw [if_pos hlt]
      refine ⟨by simp; omega, by simp, by simp⟩
    · rw [if_neg hlt]
      have hgt : times1.sum > endT := lt_of_le_of_ne (not_lt.mp hlt) (Ne.symm heq)
      obtain ⟨hne, hsum, hle, hlk⟩ := trimShrink_spec times1 levels1 endT hT hgt hlen
      set r := trimShrink levels1 times1 times1.sum endT with hr
      obtain ⟨rl, rt, rtot⟩ := r
      simp only at hne hsum hle hlk
      unfold trimShrinkFinish
      have hrl : rl ≠ [] := by
        intro h
        rw [h] at hlk
        simp at hlk
      have h1 : (rl.dropLast ++ [rl.dropLast.getLastD 0 +
          (rl.getLastD 0 - rl.dropLast.getLastD 0) *
            ((endT - (rtot - rt.getLastD 0)) / rt.getLastD 0)]).length =
          rl.dropLast.length + 1 := by simp
      have h2 : (rt.dropLast ++ [endT - (rtot - rt.getLastD 0)]).length =
          rt.dropLast.length + 1 := by simp
      have hrl' : rl.dropLast.length = rl.length - 1 := List.length_dropLast _
      have hrt' : rt.dropLast.length = rt.length - 1 := List.length_dropLast _
      have hrtpos : 1 ≤ rt.length := List.length_pos.mpr hne
      refine ⟨?_, ?_, ?_⟩
      · simp only [h1, h2]
        omega
      · simp only [h1]
        omega
      · rw [List.sum_append]
        have := sum_dropLast_add_getLastD hne
        simp only [List.sum_cons, List.sum_nil]
        rw [hsum]
        linarith

/-- C5: the envelope trimmer is idempotent — running it a second time on its
own output (for the same end time) returns that output unchanged. -/
theorem trimPartialEnvelope_idem (levels times : List ℝ) (endT : ℝ)
    (hl : levels ≠ []) (ht : ∀ t ∈ times, 0 ≤ t) (hT : 0 < endT) :
    trimPartialEnvelope (trimPartialEnvelope levels times endT).1
      (trimPartialEnvelope levels times endT).2 endT =
    trimPartialEnvelope levels times endT := by
  obtain ⟨hlen, hpos, hsum⟩ := trimPartialEnvelope_post levels times endT hl ht hT
  set p := trimPartialEnvelope levels times endT with hp
  have hdt : trimDropTimes p.1.length p.2 = p.2 :=
    trimDropTimes_of_lt (by omega)
  have hdl : trimDropLevels p.2.length p.1 = p.1 :=
    trimDropLevels_of_le (by omega)
  unfold trimPartialEnvelope
  rw [hdt, hdl]
  unfold trimFinal
  rw [if_neg (by simpa using hsum)]

/-- Witness for C4 at a concrete ragged input. -/
theorem trimPartialEnvelope_post_witness :
    ([(1 : ℝ), 0.5] ≠ []) ∧ (∀ t ∈ [(0.25 : ℝ), 2], 0 ≤ t) ∧ ((0 : ℝ) < 1) ∧
    ((trimPartialEnvelope [(1 : ℝ), 0.5] [0.25, 2] 1).1.length =
      (trimPartialEnvelope [(1 : ℝ), 0.5] [0.25, 2] 1).2.length + 1 ∧
    1 ≤ (trimPartialEnvelope [(1 : ℝ), 0.5] [0.25, 2] 1).1.length ∧
    (trimPartialEnvelope [(1 : ℝ), 0.5] [0.25, 2] 1).2.sum = 1) :=
  ⟨by simp, by norm_num, by norm_num,
    trimPartialEnvelope_post [1, 0.5] [0.25, 2] 1 (by simp) (by norm_num)
      (by norm_num)⟩

/-- Witness for C5 at a concrete ragged input. -/
theorem trimPartialEnvelope_idem_witness :
    ([(0.4 : ℝ)] ≠ []) ∧ (∀ t ∈ ([] : List ℝ), 0 ≤ t) ∧ ((0 : ℝ) < 2) ∧
    trimPartialEnvelope (trimPartialEnvelope [(0.4 : ℝ)] [] 2).1
      (trimPartialEnvelope [(0.4 : ℝ)] [] 2).2 2 =
    trimPartialEnvelope [(0.4 : ℝ)] [] 2 :=
  ⟨by simp, by simp, by norm_num,
    trimPartialEnvelope_idem [0.4] [] 2 (by simp) (by simp) (by norm_num)⟩

/-! ## Physical coordinate types (envelope_types.h) -/

/-- `PhysicalFrequencyCoordinate` (normalised frequency + sample time). -/
structure PhysicalFrequencyCoordinate where
  frequency : ℝ
  timeSamples : ℕ

/-- `PhysicalAmplitudeCoordinate`. -/
structure PhysicalAmplitudeCoordinate where
  amplitude : ℝ
  timeSamples : ℕ

/-- `PhysicalPhaseCoordinate`. -/
structure PhysicalPhaseCoordinate where
  phase : ℝ
  natural : Bool
  timeSamples : ℕ

/-- `PhysicalEnvelopePoint` — the fused envelope point. -/
structure PhysicalEnvelopePoint where
  timeSamples : ℕ
  cycleAccumulator : ℝ
  frequency : ℝ
  frequencyRate : ℝ
  amplitude : ℝ
  amplitudeRate : ℝ

instance : Inhabited PhysicalEnvelopePoint := ⟨⟨0, 0, 0, 0, 0, 0⟩⟩

instance : Inhabited PhysicalPhaseCoordinate := ⟨⟨0, false, 0⟩⟩

/-- `frequencyRate` from envelope_types.h.  The `uint32_t` time distance is
modelled with truncated `ℕ` subtraction; callers only use `coord1` earlier
than `coord2`. -/
noncomputable def frequencyRate (coord1 coord2 : PhysicalFrequencyCoordinate) : ℝ :=
  (coord2.frequency - coord1.frequency) /
    ((coord2.timeSamples - coord1.timeSamples : ℕ) : ℝ)

/-- `amplitudeRate` from envelope_types.h. -/
noncomputable def amplitudeRate (coord1 coord2 : PhysicalAmplitudeCoordinate) : ℝ :=
  (coord2.amplitude - coord1.amplitude) /
    ((coord2.timeSamples - coord1.timeSamples : ℕ) : ℝ)

/-- Logical `PhaseCoordinate` (envelope_types.h): time is stored in seconds
and samples, with a phase value and the natural flag. -/
structure PhaseCoordinate where
  timeSeconds : ℝ
  timeSamples : ℕ
  value : ℝ
  natural : Bool

/-! ## Conversion to per-parameter coordinate lists
(`populatePhysical*Coords`, physical_envelope_generator.cpp:135-212) -/

/-- The walking loop of `populatePhysicalAmplitudeCoords`: each level paired
with the cumulative time (converted to samples) while times remain, the final
level(s) pinned to `finalSample`. -/
noncomputable def populateAmpGo : List ℝ → List ℝ → ℝ → ℕ →
    List PhysicalAmplitudeCoordinate
  | [], _, _, _ => []
  | l :: ls, t :: ts, timeAccumulator, finalSample =>
    ⟨l, secondsToSamples timeAccumulator⟩ ::
      populateAmpGo ls ts (timeAccumulator + t) finalSample
  | l :: ls, [], timeAccumulator, finalSample =>
    ⟨l, finalSample⟩ :: populateAmpGo ls [] timeAccumulator finalSample

/-- `PhysicalEnvelopeGenerator::populatePhysicalAmplitudeCoords`. -/
noncomputable def populatePhysicalAmplitudeCoords (amplitudeLevels
    amplitudeTimes : List ℝ) (finalSample : ℕ) :
    List PhysicalAmplitudeCoordinate :=
  populateAmpGo amplitudeLevels amplitudeTimes 0 finalSample

/-- The walking loop of `populatePhysicalFrequencyCoords`; the first branch
normalises via the `(frequencyHz, timeSeconds)` constructor, the second is
normalised explicitly at the call site. -/
noncomputable def populateFreqGo : List ℝ → List ℝ → ℝ → ℕ →
    List PhysicalFrequencyCoordinate
  | [], _, _, _ => []
  | l :: ls, t :: ts, timeAccumulator, finalSample =>
    ⟨normalizeFrequency l, secondsToSamples timeAccumulator⟩ ::
      populateFreqGo ls ts (timeAccumulator + t) finalSample
  | l :: ls, [], timeAccumulator, finalSample =>
    ⟨normalizeFrequency l, finalSample⟩ :: populateFreqGo ls [] timeAccumulator finalSample

/-- `PhysicalEnvelopeGenerator::populatePhysicalFrequencyCoords`. -/
noncomputable def populatePhysicalFrequencyCoords (frequencyLevels
    frequencyTimes : List ℝ) (finalSample : ℕ) :
    List PhysicalFrequencyCoordinate :=
  populateFreqGo frequencyLevels frequencyTimes 0 finalSample

/-- `PhysicalEnvelopeGenerator::populatePhysicalPhaseCoords`: one physical
phase coordinate per logical `PhaseCoordinate`. -/
noncomputable def populatePhysicalPhaseCoords
    (coordinates : List PhaseCoordinate) : List PhysicalPhaseCoordinate :=
  coordinates.map fun c => ⟨c.value, c.natural, secondsToSamples c.timeSeconds⟩

/-! ## The fused sweep (`PhysicalEnvelopeGenerator::populateEnvelope`,
physical_envelope_generator.cpp:214-317)

The C++ loop walks three coordinate lists with current/next iterators.  The
state below captures exactly the loop variables; iterator dereference past the
end (undefined behaviour in C++) is modelled with `headD` defaults, and the
theorems' hypotheses rule those cases out. -/

structure SweepState where
  curFreq : PhysicalFrequencyCoordinate
  nextFreq : PhysicalFrequencyCoordinate
  restFreq : List PhysicalFrequencyCoordinate
  curAmp : PhysicalAmplitudeCoordinate
  nextAmp : PhysicalAmplitudeCoordinate
  restAmp : List PhysicalAmplitudeCoordinate
  curPhase : PhysicalPhaseCoordinate
  restPhase : List PhysicalPhaseCoordinate
  currentTimeSamples : ℕ
  lastFreqPointCycleAccumulator : ℝ
  currentFrequencyRate : ℝ
  currentAmplitudeRate : ℝ
  coords : List PhysicalEnvelopePoint
  controlledPhaseIterators : List ℕ

/-- One iteration of the `while (currentTimeSamples < endTimeSamples)` loop of
`populateEnvelope`. -/
noncomputable def sweepStep (endTimeSamples : ℕ) (s : SweepState) : SweepState :=
  let nextTimeSamples :=
    min s.nextFreq.timeSamples (min s.nextAmp.timeSamples s.curPhase.timeSamples)
  let elapsedFrequencyTimeSamples := nextTimeSamples - s.curFreq.timeSamples
  let elapsedAmplitudeTimeSamples := nextTimeSamples - s.curAmp.timeSamples
  -- frequency value / accumulator, with the exact-end recomputation when the
  -- next frequency breakpoint is reached
  let currentFrequency :=
    if nextTimeSamples = s.nextFreq.timeSamples then s.nextFreq.frequency
    else s.curFreq.frequency +
      s.currentFrequencyRate * (elapsedFrequencyTimeSamples : ℝ)
  let cycleAccumulator :=
    if nextTimeSamples = s.nextFreq.timeSamples then
      computeCycleAccumulatorToExactEnd s.lastFreqPointCycleAccumulator
        s.curFreq.frequency s.nextFreq.frequency elapsedFrequencyTimeSamples
    else
      computeCycleAccumulator s.lastFreqPointCycleAccumulator
        s.curFreq.frequency s.currentFrequencyRate elapsedFrequencyTimeSamples
  let lastFreqPointCycleAccumulator' :=
    if nextTimeSamples = s.nextFreq.timeSamples then cycleAccumulator
    else s.lastFreqPointCycleAccumulator
  -- advance of the frequency iterators (guarded at the end sample)
  let advFreq := nextTimeSamples = s.nextFreq.timeSamples ∧
    nextTimeSamples ≠ endTimeSamples
  let curFreq' := if advFreq then s.nextFreq else s.curFreq
  let nextFreq' := if advFreq then s.restFreq.headD s.nextFreq else s.nextFreq
  let restFreq' := if advFreq then s.restFreq.tail else s.restFreq
  let currentFrequencyRate' :=
    if advFreq then frequencyRate s.nextFreq (s.restFreq.headD s.nextFreq)
    else s.currentFrequencyRate
  -- amplitude value, with snapping at a breakpoint
  let currentAmplitude :=
    if nextTimeSamples = s.nextAmp.timeSamples then s.nextAmp.amplitude
    else s.curAmp.amplitude +
      s.currentAmplitudeRate * (elapsedAmplitudeTimeSamples : ℝ)
  let advAmp := nextTimeSamples = s.nextAmp.timeSamples ∧
    nextTimeSamples ≠ endTimeSamples
  let curAmp' := if advAmp then s.nextAmp else s.curAmp
  let nextAmp' := if advAmp then s.restAmp.headD s.nextAmp else s.nextAmp
  let restAmp' := if advAmp then s.restAmp.tail else s.restAmp
  let currentAmplitudeRate' :=
    if advAmp then amplitudeRate s.nextAmp (s.restAmp.headD s.nextAmp)
    else s.currentAmplitudeRate
  -- emit the fused point
  let coords' := s.coords ++ [⟨nextTimeSamples, cycleAccumulator,
    currentFrequency, currentFrequencyRate', currentAmplitude,
    currentAmplitudeRate'⟩]
  -- phase-anchor bookkeeping
  let phaseHit := nextTimeSamples = s.curPhase.timeSamples
  let controlledPhaseIterators' :=
    if phaseHit then s.controlledPhaseIterators ++ [coords'.length - 1]
    else s.controlledPhaseIterators
  let advPhase := phaseHit ∧ nextTimeSamples ≠ endTimeSamples
  let curPhase' := if advPhase then s.restPhase.headD s.curPhase else s.curPhase
  let restPhase' := if advPhase then s.restPhase.tail else s.restPhase
  { curFreq := curFreq', nextFreq := nextFreq', restFreq := restFreq',
    curAmp := curAmp', nextAmp := nextAmp', restAmp := restAmp',
    curPhase := curPhase', restPhase := restPhase',
    currentTimeSamples := nextTimeSamples,
    lastFreqPointCycleAccumulator := lastFreqPointCycleAccumulator',
    currentFrequencyRate := currentFrequencyRate',
    currentAmplitudeRate := currentAmplitudeRate',
    coords := coords',
    controlledPhaseIterators := controlledPhaseIterators' }

/-- The fused-sweep loop with explicit fuel. -/
noncomputable def sweepLoop (endTimeSamples : ℕ) : ℕ → SweepState → SweepState
  | 0, s => s
  | fuel + 1, s =>
    if s.currentTimeSamples < endTimeSamples then
      sweepLoop endTimeSamples fuel (sweepStep endTimeSamples s)
    else s

/-- `PhysicalEnvelopeGenerator::populateEnvelope`: initialise the iterators
and rates, emit the initial fused point with its anchor, and run the sweep.
Returns the fused point list and the anchor list (as indices into it).  The
fuel provided strictly dominates the iteration count whenever the loop
terminates in C++. -/
noncomputable def populateEnvelope
    (physicalFrequencyCoords : List PhysicalFrequencyCoordinate)
    (physicalAmplitudeCoords : List PhysicalAmplitudeCoordinate)
    (physicalPhaseCoords : List PhysicalPhaseCoordinate) :
    List PhysicalEnvelopePoint × List ℕ :=
  match physicalFrequencyCoords, physicalAmplitudeCoords, physicalPhaseCoords with
  | f0 :: f1 :: fr, a0 :: a1 :: ar, p0 :: p1 :: pr =>
    let endTimeSamples := ((p0 :: p1 :: pr).getLastD default).timeSamples
    let currentFrequencyRate := frequencyRate f0 f1
    let currentAmplitudeRate := amplitudeRate a0 a1
    let s0 : SweepState :=
      { curFreq := f0, nextFreq := f1, restFreq := fr,
        curAmp := a0, nextAmp := a1, restAmp := ar,
        curPhase := p1, restPhase := pr,
        currentTimeSamples := 0,
        lastFreqPointCycleAccumulator := 0,
        currentFrequencyRate := currentFrequencyRate,
        currentAmplitudeRate := currentAmplitudeRate,
        coords := [⟨0, 0, f0.frequency, currentFrequencyRate, a0.amplitude,
          currentAmplitudeRate⟩],
        controlledPhaseIterators := [0] }
    let sFinal := sweepLoop endTimeSamples
      (endTimeSamples + fr.length + ar.length + pr.length + 1) s0
    (sFinal.coords, sFinal.controlledPhaseIterators)
  | _, _, _ => ([], [])

/-! ## The phase-compensation pass
(`PhysicalEnvelopeGenerator::interpolateControlledPhasePoints`,
physical_envelope_generator.cpp:319-402)

The C++ routine walks the anchor list (iterators into the fused list) in
lock-step with the physical phase coordinates, distributing each controlled
coordinate's coherence compensation over the points of the preceding
interval.  Anchors are modelled as indices into the fused point list. -/

/-- Write a point's `cycleAccumulator` (out-of-range writes are the C++
undefined behaviour and are modelled as no-ops). -/
noncomputable def setCycleAccumulator (coords : List PhysicalEnvelopePoint)
    (i : ℕ) (v : ℝ) : List PhysicalEnvelopePoint :=
  coords.set i { coords.getD i default with cycleAccumulator := v }

/-- Write a point's `frequencyRate`. -/
noncomputable def setFrequencyRate (coords : List PhysicalEnvelopePoint)
    (i : ℕ) (v : ℝ) : List PhysicalEnvelopePoint :=
  coords.set i { coords.getD i default with frequencyRate := v }

/-- The inner `do { ... } while (interpolationIterator != ...)` loop
(physical_envelope_generator.cpp:382-392): starting with the iterator at
index `j`, shift the accumulator of point `j+1` and recompute the frequency
rate of point `j`, until the current anchor `aCurr` has been processed. -/
noncomputable def interpolateShiftLoop : ℕ → List PhysicalEnvelopePoint →
    ℕ → ℕ → ℕ → ℝ → ℝ → List PhysicalEnvelopePoint
  | 0, coords, _, _, _, _, _ => coords
  | fuel + 1, coords, j, aCurr, timePrevious, phaseShiftPerSample,
      cumulativePhaseShift =>
    let next := j + 1
    let timeDeltaInner := (coords.getD next default).timeSamples - timePrevious
    let coords1 := setCycleAccumulator coords next
      ((coords.getD next default).cycleAccumulator +
        ((timeDeltaInner : ℝ) * phaseShiftPerSample + cumulativePhaseShift))
    let coords2 := setFrequencyRate coords1 j
      (computeFrequencyRate (coords1.getD j default).cycleAccumulator
        (coords1.getD j default).frequency
        (coords1.getD next default).cycleAccumulator
        ((coords1.getD next default).timeSamples -
          (coords1.getD j default).timeSamples))
    if next = aCurr then coords2
    else interpolateShiftLoop fuel coords2 next aCurr timePrevious
      phaseShiftPerSample cumulativePhaseShift

/-- The outer `while (controlledPhaseIterIterator != ...end())` loop
(physical_envelope_generator.cpp:353-401), walking consecutive anchor pairs
in lock-step with the phase coordinates. -/
noncomputable def interpolatePairsLoop : List ℕ → ℕ →
    List PhysicalPhaseCoordinate → List PhysicalEnvelopePoint → ℝ →
    List PhysicalEnvelopePoint
  | [], _, _, coords, _ => coords
  | _ :: _, _, [], coords, _ => coords
  | aCurr :: arest, aPrev, pc :: prest, coords, cumulativePhaseShift =>
    let proportionalShift :=
      if pc.natural = false then
        coherenceCompensation
          ((coords.getD aCurr default).cycleAccumulator + cumulativePhaseShift)
          pc.phase
      else 0
    if cumulativePhaseShift ≠ 0 ∨ proportionalShift ≠ 0 then
      let timePrevious := (coords.getD aPrev default).timeSamples
      let timeDelta := pc.timeSamples - timePrevious
      let phaseShiftPerSample := proportionalShift / (timeDelta : ℝ)
      interpolatePairsLoop arest aCurr prest
        (interpolateShiftLoop coords.length coords aPrev aCurr timePrevious
          phaseShiftPerSample cumulativePhaseShift)
        (cumulativePhaseShift + proportionalShift)
    else interpolatePairsLoop arest aCurr prest coords cumulativePhaseShift

/-- `PhysicalEnvelopeGenerator::interpolateControlledPhasePoints`: the
first-anchor special case followed by the pair loop. -/
noncomputable def interpolateControlledPhasePoints
    (coords : List PhysicalEnvelopePoint) :
    List ℕ → List PhysicalPhaseCoordinate → List PhysicalEnvelopePoint
  | [], _ => coords
  | _ :: _, [] => coords
  | a0 :: arest, p0 :: prest =>
    interpolatePairsLoop arest a0 prest
      (if p0.natural = false then
        setCycleAccumulator coords a0 (if p0.natural = false then p0.phase else 0)
      else coords)
      (if p0.natural = false then p0.phase else 0)

/-! ### Frame reasoning for the compensation pass (claim C8) -/

theorem getD_set_self {α : Type _} (l : List α) (i : ℕ) (a d : α)
    (h : i < l.length) : (l.set i a).getD i d = a := by
  rw [List.getD_eq_getElem?_getD, List.getElem?_set_self]
  · simp
  · exact h

theorem getD_set_ne {α : Type _} (l : List α) {i k : ℕ} (a d : α)
    (h : i ≠ k) : (l.set i a).getD k d = l.getD k d := by
  rw [List.getD_eq_getElem?_getD, List.getElem?_set_ne h,
    ← List.getD_eq_getElem?_getD]

/-- The four fields that the compensation pass never touches. -/
def UntouchedFields (c c' : List PhysicalEnvelopePoint) : Prop :=
  c'.length = c.length ∧ ∀ i : ℕ,
    (c'.getD i default).timeSamples = (c.getD i default).timeSamples ∧
    (c'.getD i default).frequency = (c.getD i default).frequency ∧
    (c'.getD i default).amplitude = (c.getD i default).amplitude ∧
    (c'.getD i default).amplitudeRate = (c.getD i default).amplitudeRate

theorem untouchedFields_refl (c : List PhysicalEnvelopePoint) :
    UntouchedFields c c :=
  ⟨rfl, fun _ => ⟨rfl, rfl, rfl, rfl⟩⟩

theorem untouchedFields_trans {a b c : List PhysicalEnvelopePoint}
    (h1 : UntouchedFields a b) (h2 : UntouchedFields b c) :
    UntouchedFields a c := by
  obtain ⟨hl1, hf1⟩ := h1
  obtain ⟨hl2, hf2⟩ := h2
  refine ⟨hl2.trans hl1, fun i => ?_⟩
  obtain ⟨t1, f1, a1, r1⟩ := hf1 i
  obtain ⟨t2, f2, a2, r2⟩ := hf2 i
  exact ⟨t2.trans t1, f2.trans f1, a2.trans a1, r2.trans r1⟩

theorem untouchedFields_setCycleAccumulator
    (c : List PhysicalEnvelopePoint) (i : ℕ) (v : ℝ) :
    UntouchedFields c (setCycleAccumulator c i v) := by
  unfold setCycleAccumulator
  refine ⟨List.length_set _ _ _, fun k => ?_⟩
  by_cases hik : i = k
  · subst hik
    by_cases hlt : i < c.length
    · rw [getD_set_self c i _ default hlt]
      exact ⟨rfl, rfl, rfl, rfl⟩
    · rw [List.set_eq_of_length_le (le_of_not_lt hlt)]
      exact ⟨rfl, rfl, rfl, rfl⟩
  · rw [getD_set_ne c _ default hik]
    exact ⟨rfl, rfl, rfl, rfl⟩

theorem untouchedFields_setFrequencyRate
    (c : List PhysicalEnvelopePoint) (i : ℕ) (v : ℝ) :
    UntouchedFields c (setFrequencyRate c i v) := by
  unfold setFrequencyRate
  refine ⟨List.length_set _ _ _, fun k => ?_⟩
  by_cases hik : i = k
  · subst hik
    by_cases hlt : i < c.length
    · rw [getD_set_self c i _ default hlt]
      exact ⟨rfl, rfl, rfl, rfl⟩
    · rw [List.set_eq_of_length_le (le_of_not_lt hlt)]
      exact ⟨rfl, rfl, rfl, rfl⟩
  · rw [getD_set_ne c _ default hik]
    exact ⟨rfl, rfl, rfl, rfl⟩

theorem untouchedFields_interpolateShiftLoop (fuel : ℕ) :
    ∀ (c : List PhysicalEnvelopePoint) (j aCurr timePrevious : ℕ)
      (perSample cum : ℝ),
    UntouchedFields c
      (interpolateShiftLoop fuel c j aCurr timePrevious perSample cum) := by
  induction fuel with
  | zero => intro c j aCurr tp per cum; exact untouchedFields_refl c
  | succ fuel ih =>
    intro c j aCurr tp per cum
    rw [interpolateShiftLoop]
    have h1 := untouchedFields_setCycleAccumulator c (j + 1)
      ((c.getD (j + 1) default).cycleAccumulator +
        ((((c.getD (j + 1) default).timeSamples - tp : ℕ) : ℝ) * per + cum))
    set c1 := setCycleAccumulator c (j + 1)
      ((c.getD (j + 1) default).cycleAccumulator +
        ((((c.getD (j + 1) default).timeSamples - tp : ℕ) : ℝ) * per + cum))
      with hc1
    have h2 := untouchedFields_setFrequencyRate c1 j
      (computeFrequencyRate (c1.getD j default).cycleAccumulator
        (c1.getD j default).frequency
        (c1.getD (j + 1) default).cycleAccumulator
        ((c1.getD (j + 1) default).timeSamples -
          (c1.getD j default).timeSamples))
    set c2 := setFrequencyRate c1 j
      (computeFrequencyRate (c1.getD j default).cycleAccumulator
        (c1.getD j default).frequency
        (c1.getD (j + 1) default).cycleAccumulator
        ((c1.getD (j + 1) default).timeSamples -
          (c1.getD j default).timeSamples)) with hc2
    have h12 := untouchedFields_trans h1 h2
    by_cases hstop : j + 1 = aCurr
    · rw [if_pos hstop]
      exact h12
    · rw [if_neg hstop]
      exact untouchedFields_trans h12 (ih c2 (j + 1) aCurr tp per cum)

theorem untouchedFields_interpolatePairsLoop :
    ∀ (anchors : List ℕ) (pcs : List PhysicalPhaseCoordinate)
      (c : List PhysicalEnvelopePoint) (aPrev : ℕ) (cum : ℝ),
    UntouchedFields c (interpolatePairsLoop anchors aPrev pcs c cum) := by
  intro anchors
  induction anchors with
  | nil =>
    intro pcs c aPrev cum
    simp only [interpolatePairsLoop]
    exact untouchedFields_refl c
  | cons aCurr arest ih =>
    intro pcs c aPrev cum
    match pcs with
    | [] =>
      simp only [interpolatePairsLoop]
      exact untouchedFields_refl c
    | pc :: prest =>
      simp only [interpolatePairsLoop]
      by_cases hbr : cum ≠ 0 ∨
          (if pc.natural = false then
            coherenceCompensation
              ((c.getD aCurr default).cycleAccumulator + cum) pc.phase
          else 0) ≠ 0
      · rw [if_pos hbr]
        exact untouchedFields_trans
          (untouchedFields_interpolateShiftLoop c.length c aPrev aCurr _ _ _)
          (ih prest _ aCurr _)
      · rw [if_neg hbr]
        exact ih prest c aCurr cum

/-- C8: the phase-compensation pass modifies only the `cycleAccumulator` and
`frequencyRate` fields — the length of the fused list and every point's
`timeSamples`, `frequency`, `amplitude` and `amplitudeRate` are identical
before and after `interpolateControlledPhasePoints`. -/
theorem interpolateControlledPhasePoints_frame
    (coords : List PhysicalEnvelopePoint) (anchors : List ℕ)
    (physicalPhaseCoords : List PhysicalPhaseCoordinate) :
    (interpolateControlledPhasePoints coords anchors physicalPhaseCoords).length =
      coords.length ∧
    ∀ i : ℕ,
      ((interpolateControlledPhasePoints coords anchors
          physicalPhaseCoords).getD i default).timeSamples =
        (coords.getD i default).timeSamples ∧
      ((interpolateControlledPhasePoints coords anchors
          physicalPhaseCoords).getD i default).frequency =
        (coords.getD i default).frequency ∧
      ((interpolateControlledPhasePoints coords anchors
          physicalPhaseCoords).getD i default).amplitude =
        (coords.getD i default).amplitude ∧
      ((interpolateControlledPhasePoints coords anchors
          physicalPhaseCoords).getD i default).amplitudeRate =
        (coords.getD i default).amplitudeRate := by
  have huf : UntouchedFields coords
      (interpolateControlledPhasePoints coords anchors physicalPhaseCoords) := by
    match anchors, physicalPhaseCoords with
    | [], _ =>
      simp only [interpolateControlledPhasePoints]
      exact untouchedFields_refl coords
    | a0 :: arest, [] =>
      simp only [interpolateControlledPhasePoints]
      exact untouchedFields_refl coords
    | a0 :: arest, p0 :: prest =>
      simp only [interpolateControlledPhasePoints]
      by_cases hnat : p0.natural = false
      · rw [if_pos hnat, if_pos hnat]
        exact untouchedFields_trans
          (untouchedFields_setCycleAccumulator coords a0 _)
          (untouchedFields_interpolatePairsLoop arest prest _ a0 _)
      · rw [if_neg hnat]
        exact untouchedFields_interpolatePairsLoop arest prest coords a0 _
  exact ⟨huf.1, huf.2⟩

/-! ### Accumulator tracking through the compensation pass (claim C1) -/

theorem acc_setFrequencyRate (c : List PhysicalEnvelopePoint) (i : ℕ) (v : ℝ)
    (k : ℕ) :
    ((setFrequencyRate c i v).getD k default).cycleAccumulator =
      (c.getD k default).cycleAccumulator := by
  unfold setFrequencyRate
  by_cases hik : i = k
  · subst hik
    by_cases hlt : i < c.length
    · rw [getD_set_self c i _ default hlt]
    · rw [List.set_eq_of_length_le (le_of_not_lt hlt)]
  · rw [getD_set_ne c _ default hik]

theorem acc_setCycleAccumulator_ne (c : List PhysicalEnvelopePoint)
    {i k : ℕ} (v : ℝ) (h : i ≠ k) :
    ((setCycleAccumulator c i v).getD k default).cycleAccumulator =
      (c.getD k default).cycleAccumulator := by
  unfold setCycleAccumulator
  rw [getD_set_ne c _ default h]

theorem acc_setCycleAccumulator_self (c : List PhysicalEnvelopePoint)
    {i : ℕ} (v : ℝ) (h : i < c.length) :
    ((setCycleAccumulator c i v).getD i default).cycleAccumulator = v := by
  unfold setCycleAccumulator
  rw [getD_set_self c i _ default h]

theorem time_setCycleAccumulator (c : List PhysicalEnvelopePoint) (i : ℕ)
    (v : ℝ) (k : ℕ) :
    ((setCycleAccumulator c i v).getD k default).timeSamples =
      (c.getD k default).timeSamples :=
  ((untouchedFields_setCycleAccumulator c i v).2 k).1

theorem time_setFrequencyRate (c : List PhysicalEnvelopePoint) (i : ℕ)
    (v : ℝ) (k : ℕ) :
    ((setFrequencyRate c i v).getD k default).timeSamples =
      (c.getD k default).timeSamples :=
  ((untouchedFields_setFrequencyRate c i v).2 k).1

/-- The inner shift loop never modifies the accumulator of points at or
before its starting index. -/
theorem interpolateShiftLoop_acc_lower (fuel : ℕ) :
    ∀ (c : List PhysicalEnvelopePoint) (j aCurr timePrevious : ℕ)
      (perSample cum : ℝ) (i : ℕ), i ≤ j →
    ((interpolateShiftLoop fuel c j aCurr timePrevious perSample cum).getD i
      default).cycleAccumulator = (c.getD i default).cycleAccumulator := by
  induction fuel with
  | zero => intro c j aCurr tp per cum i hij; rfl
  | succ fuel ih =>
    intro c j aCurr tp per cum i hij
    rw [interpolateShiftLoop]
    have hne : j + 1 ≠ i := by omega
    by_cases hstop : j + 1 = aCurr
    · rw [if_pos hstop]
      rw [acc_setFrequencyRate, acc_setCycleAccumulator_ne c _ hne]
    · rw [if_neg hstop]
      rw [ih _ (j + 1) aCurr tp per cum i (by omega)]
      rw [acc_setFrequencyRate, acc_setCycleAccumulator_ne c _ hne]

/-- The exact effect of the inner shift loop on the accumulators: every point
with index in `(j, aCurr]` gains `(time − timePrevious) · perSample + cum`;
all other accumulators are untouched. -/
theorem interpolateShiftLoop_acc (fuel : ℕ) :
    ∀ (c : List PhysicalEnvelopePoint) (j aCurr timePrevious : ℕ)
      (perSample cum : ℝ),
    j < aCurr → aCurr < c.length → aCurr - j ≤ fuel →
    ∀ i : ℕ,
    ((interpolateShiftLoop fuel c j aCurr timePrevious perSample cum).getD i
      default).cycleAccumulator =
    if j < i ∧ i ≤ aCurr then
      (c.getD i default).cycleAccumulator +
        ((((c.getD i default).timeSamples - timePrevious : ℕ) : ℝ) * perSample +
          cum)
    else (c.getD i default).cycleAccumulator := by
  induction fuel with
  | zero => intro c j aCurr tp per cum hj hlen hfuel; omega
  | succ fuel ih =>
    intro c j aCurr tp per cum hj hlen hfuel i
    rw [interpolateShiftLoop]
    have hnextlen : j + 1 < c.length := by omega
    -- names for the two intermediate lists
    set c1 := setCycleAccumulator c (j + 1)
      ((c.getD (j + 1) default).cycleAccumulator +
        ((((c.getD (j + 1) default).timeSamples - tp : ℕ) : ℝ) * per + cum))
      with hc1
    set c2 := setFrequencyRate c1 j
      (computeFrequencyRate (c1.getD j default).cycleAccumulator
        (c1.getD j default).frequency
        (c1.getD (j + 1) default).cycleAccumulator
        ((c1.getD (j + 1) default).timeSamples -
          (c1.getD j default).timeSamples)) with hc2
    have hacc2 : ∀ m : ℕ, (c2.getD m default).cycleAccumulator =
        (c1.getD m default).cycleAccumulator := fun m => acc_setFrequencyRate ..
    have hacc1self : (c1.getD (j + 1) default).cycleAccumulator =
        (c.getD (j + 1) default).cycleAccumulator +
        ((((c.getD (j + 1) default).timeSamples - tp : ℕ) : ℝ) * per + cum) := by
      rw [hc1, acc_setCycleAccumulator_self c _ hnextlen]
    have hacc1ne : ∀ m : ℕ, j + 1 ≠ m →
        (c1.getD m default).cycleAccumulator =
        (c.getD m default).cycleAccumulator := fun m hm => by
      rw [hc1, acc_setCycleAccumulator_ne c _ hm]
    have htime2 : ∀ m : ℕ, (c2.getD m default).timeSamples =
        (c.getD m default).timeSamples := fun m => by
      rw [hc2, time_setFrequencyRate, hc1, time_setCycleAccumulator]
    by_cases hstop : j + 1 = aCurr
    · rw [if_pos hstop]
      by_cases hi : i = aCurr
      · subst hi
        rw [if_pos ⟨by omega, le_rfl⟩, hacc2, ← hstop, hacc1self]
      · rw [if_neg (by omega), hacc2, hacc1ne i (by omega)]
    · rw [if_neg hstop]
      have hlen2 : aCurr < c2.length := by
        rw [hc2]
        unfold setFrequencyRate
        rw [List.length_set]
        rw [hc1]
        unfold setCycleAccumulator
        rw [List.length_set]
        exact hlen
      rw [ih c2 (j + 1) aCurr tp per cum (by omega) hlen2 (by omega) i]
      by_cases hin : j + 1 < i ∧ i ≤ aCurr
      · rw [if_pos hin, if_pos (by omega), htime2, hacc2,
          hacc1ne i (by omega)]
      · rw [if_neg hin]
        by_cases hi : i = j + 1
        · subst hi
          rw [if_pos ⟨by omega, by omega⟩, hacc2, hacc1self]
        · rw [if_neg (by omega), hacc2, hacc1ne i (by omega)]

/-- The pair loop never modifies the accumulator of points at or before the
previous anchor. -/
theorem interpolatePairsLoop_acc_frame :
    ∀ (anchors : List ℕ) (pcs : List PhysicalPhaseCoordinate)
      (c : List PhysicalEnvelopePoint) (aPrev : ℕ) (cum : ℝ) (i : ℕ),
    List.Chain' (· < ·) (aPrev :: anchors) → i ≤ aPrev →
    ((interpolatePairsLoop anchors aPrev pcs c cum).getD i
      default).cycleAccumulator = (c.getD i default).cycleAccumulator := by
  intro anchors
  induction anchors with
  | nil =>
    intro pcs c aPrev cum i hch hi
    simp only [interpolatePairsLoop]
  | cons aCurr arest ih =>
    intro pcs c aPrev cum i hch hi
    have hpa : aPrev < aCurr := (List.chain'_cons.mp hch).1
    have hch' : List.Chain' (· < ·) (aCurr :: arest) :=
      (List.chain'_cons.mp hch).2
    match pcs with
    | [] => simp only [interpolatePairsLoop]
    | pc :: prest =>
      simp only [interpolatePairsLoop]
      by_cases hbr : cum ≠ 0 ∨
          (if pc.natural = false then
            coherenceCompensation
              ((c.getD aCurr default).cycleAccumulator + cum) pc.phase
          else 0) ≠ 0
      · rw [if_pos hbr]
        rw [ih prest _ aCurr _ i hch' (by omega)]
        exact interpolateShiftLoop_acc_lower c.length c aPrev aCurr _ _ _ i hi
      · rw [if_neg hbr]
        exact ih prest c aCurr cum i hch' (by omega)

/-- `coherenceCompensation s t = 0` forces the two phases to be already
coherent. -/
theorem coherenceCompensation_eq_zero {s t : ℝ}
    (h : coherenceCompensation s t = 0) : phaseMod s = phaseMod t := by
  have := phaseMod_add_coherenceCompensation s t
  rw [h, add_zero] at this
  exact this

/-- Main induction for the compensation pass: after `interpolatePairsLoop`,
every controlled phase coordinate's anchor point carries an accumulator whose
`phaseMod` equals the `phaseMod` of its target phase. -/
theorem interpolatePairsLoop_controlled :
    ∀ (anchors : List ℕ) (pcs : List PhysicalPhaseCoordinate)
      (c : List PhysicalEnvelopePoint) (aPrev : ℕ) (cum : ℝ),
    anchors.length = pcs.length →
    List.Chain' (· < ·) (aPrev :: anchors) →
    (∀ a ∈ anchors, a < c.length) →
    (∀ k, k < anchors.length →
      (c.getD (anchors.getD k 0) default).timeSamples =
        (pcs.getD k default).timeSamples) →
    List.Chain' (· < ·) ((c.getD aPrev default).timeSamples ::
      pcs.map (fun p => p.timeSamples)) →
    ∀ k, k < pcs.length → (pcs.getD k default).natural = false →
      phaseMod (((interpolatePairsLoop anchors aPrev pcs c cum).getD
        (anchors.getD k 0) default).cycleAccumulator) =
      phaseMod ((pcs.getD k default).phase) := by
  intro anchors
  induction anchors with
  | nil =>
    intro pcs c aPrev cum hlen _ _ _ _ k hk _
    simp at hlen
    omega
  | cons aCurr arest ih =>
    intro pcs c aPrev cum hlen hch hbound halign hasc k hk hctrl
    match pcs, hlen with
    | pc :: prest, hlen =>
      have hpa : aPrev < aCurr := (List.chain'_cons.mp hch).1
      have hch' : List.Chain' (· < ·) (aCurr :: arest) :=
        (List.chain'_cons.mp hch).2
      have hlenc : aCurr < c.length := hbound aCurr (List.mem_cons_self aCurr arest)
      have htimeaC : (c.getD aCurr default).timeSamples = pc.timeSamples := by
        have := halign 0 (by simp)
        simpa using this
      have htprev : (c.getD aPrev default).timeSamples < pc.timeSamples := by
        have := List.chain'_cons.mp hasc
        simpa using this.1
      simp only [interpolatePairsLoop]
      by_cases hbr : cum ≠ 0 ∨
          (if pc.natural = false then
            coherenceCompensation
              ((c.getD aCurr default).cycleAccumulator + cum) pc.phase
          else 0) ≠ 0
      · rw [if_pos hbr]
        -- the shifted list and its properties
        set δ := (if pc.natural = false then
          coherenceCompensation
            ((c.getD aCurr default).cycleAccumulator + cum) pc.phase
          else 0) with hδ
        set tp := (c.getD aPrev default).timeSamples with htp
        set c' := interpolateShiftLoop c.length c aPrev aCurr tp
          (δ / ((pc.timeSamples - tp : ℕ) : ℝ)) cum with hc'
        have hcf := untouchedFields_interpolateShiftLoop c.length c aPrev aCurr
          tp (δ / ((pc.timeSamples - tp : ℕ) : ℝ)) cum
        have hlen' : c'.length = c.length := hcf.1
        have htime' : ∀ m : ℕ, (c'.getD m default).timeSamples =
            (c.getD m default).timeSamples := fun m => (hcf.2 m).1
        have haccaC : (c'.getD aCurr default).cycleAccumulator =
            (c.getD aCurr default).cycleAccumulator + cum + δ := by
          rw [hc', interpolateShiftLoop_acc c.length c aPrev aCurr tp
            (δ / ((pc.timeSamples - tp : ℕ) : ℝ)) cum hpa hlenc (by omega)
            aCurr]
          rw [if_pos ⟨hpa, le_rfl⟩, htimeaC]
          have hne : ((pc.timeSamples - tp : ℕ) : ℝ) ≠ 0 := by
            have : 0 < pc.timeSamples - tp := by omega
            positivity
          field_simp
          ring
        rcases Nat.eq_zero_or_pos k with hk0 | hkpos
        · -- the current anchor
          subst hk0
          have hgetD : (aCurr :: arest).getD 0 0 = aCurr := rfl
          rw [hgetD]
          have hframe := interpolatePairsLoop_acc_frame arest prest c' aCurr
            (cum + δ) aCurr hch' le_rfl
          rw [hframe, haccaC]
          have hctrl' : pc.natural = false := by simpa using hctrl
          rw [hδ, if_pos hctrl'] at *
          have := phaseMod_add_coherenceCompensation
            ((c.getD aCurr default).cycleAccumulator + cum) pc.phase
          simpa [add_assoc] using this
        · -- later anchors, via the induction hypothesis
          obtain ⟨k', rfl⟩ : ∃ k', k = k' + 1 := ⟨k - 1, by omega⟩
          have hbound' : ∀ a ∈ arest, a < c'.length := by
            intro a ha
            rw [hlen']
            exact hbound a (List.mem_cons_of_mem _ ha)
          have halign' : ∀ m, m < arest.length →
              (c'.getD (arest.getD m 0) default).timeSamples =
                (prest.getD m default).timeSamples := by
            intro m hm
            rw [htime']
            have := halign (m + 1) (by simpa using Nat.succ_lt_succ hm)
            simpa using this
          have hasc' : List.Chain' (· < ·)
              ((c'.getD aCurr default).timeSamples ::
                prest.map (fun p => p.timeSamples)) := by
            rw [htime', htimeaC]
            exact (List.chain'_cons.mp (by simpa using hasc)).2
          have := ih prest c' aCurr (cum + δ) (by simpa using hlen) hch'
            hbound' halign' hasc' k' (by simpa using hk)
            (by simpa using hctrl)
          simpa using this
      · rw [if_neg hbr]
        push_neg at hbr
        obtain ⟨hcum0, hδ0⟩ := hbr
        rcases Nat.eq_zero_or_pos k with hk0 | hkpos
        · subst hk0
          have hgetD : (aCurr :: arest).getD 0 0 = aCurr := rfl
          rw [hgetD]
          have hframe := interpolatePairsLoop_acc_frame arest prest c aCurr
            cum aCurr hch' le_rfl
          rw [hframe]
          have hctrl' : pc.natural = false := by simpa using hctrl
          rw [if_pos hctrl'] at hδ0
          have := coherenceCompensation_eq_zero hδ0
          rw [hcum0, add_zero] at this
          simpa using this
        · obtain ⟨k', rfl⟩ : ∃ k', k = k' + 1 := ⟨k - 1, by omega⟩
          have hbound' : ∀ a ∈ arest, a < c.length := fun a ha =>
            hbound a (List.mem_cons_of_mem _ ha)
          have halign' : ∀ m, m < arest.length →
              (c.getD (arest.getD m 0) default).timeSamples =
                (prest.getD m default).timeSamples := by
            intro m hm
            have := halign (m + 1) (by simpa using Nat.succ_lt_succ hm)
            simpa using this
          have hasc' : List.Chain' (· < ·)
              ((c.getD aCurr default).timeSamples ::
                prest.map (fun p => p.timeSamples)) := by
            rw [htimeaC]
            exact (List.chain'_cons.mp (by simpa using hasc)).2
          have := ih prest c aCurr cum (by simpa using hlen) hch'
            hbound' halign' hasc' k' (by simpa using hk)
            (by simpa using hctrl)
          simpa using this

/-- C1 (amended): after `interpolateControlledPhasePoints`, for every
controlled phase coordinate `P`, the fused point at `P`'s anchor satisfies
`phaseMod (cycleAccumulator) = phaseMod (P.phase)` — exactly, in this
exact-real model.  (When `P.phase < 2π` this equals `P.phase` itself; at the
admitted boundary value `P.phase = 2π`, `phaseMod` returns `0`.) -/
theorem interpolateControlledPhasePoints_phase_coherence
    (coords : List PhysicalEnvelopePoint) (anchors : List ℕ)
    (pcs : List PhysicalPhaseCoordinate)
    (hlen : anchors.length = pcs.length)
    (hch : List.Chain' (· < ·) anchors)
    (hbound : ∀ a ∈ anchors, a < coords.length)
    (halign : ∀ k, k < anchors.length →
      (coords.getD (anchors.getD k 0) default).timeSamples =
        (pcs.getD k default).timeSamples)
    (hasc : List.Chain' (· < ·) (pcs.map (fun p => p.timeSamples))) :
    ∀ k, k < pcs.length → (pcs.getD k default).natural = false →
      phaseMod (((interpolateControlledPhasePoints coords anchors pcs).getD
        (anchors.getD k 0) default).cycleAccumulator) =
      phaseMod ((pcs.getD k default).phase) := by
  match anchors, pcs with
  | [], pcs =>
    intro k hk _
    simp at hlen
    omega
  | a0 :: arest, [] =>
    intro k hk _
    simp at hk
  | a0 :: arest, p0 :: prest =>
    intro k hk hctrl
    simp only [interpolateControlledPhasePoints]
    have hlena0 : a0 < coords.length := hbound a0 (List.mem_cons_self a0 arest)
    have htimea0 : (coords.getD a0 default).timeSamples = p0.timeSamples := by
      have := halign 0 (by simp)
      simpa using this
    set cum0 := (if p0.natural = false then p0.phase else 0) with hcum0
    set c0 := (if p0.natural = false then
      setCycleAccumulator coords a0 cum0 else coords) with hc0
    have hlenc0 : c0.length = coords.length := by
      rw [hc0]
      by_cases hnat : p0.natural = false
      · rw [if_pos hnat]
        exact (untouchedFields_setCycleAccumulator coords a0 cum0).1
      · rw [if_neg hnat]
    have htimec0 : ∀ m : ℕ, (c0.getD m default).timeSamples =
        (coords.getD m default).timeSamples := by
      intro m
      rw [hc0]
      by_cases hnat : p0.natural = false
      · rw [if_pos hnat]
        exact time_setCycleAccumulator coords a0 cum0 m
      · rw [if_neg hnat]
    rcases Nat.eq_zero_or_pos k with hk0 | hkpos
    · subst hk0
      have hctrl' : p0.natural = false := by simpa using hctrl
      have hgetD : (a0 :: arest).getD 0 0 = a0 := rfl
      rw [hgetD]
      have hframe := interpolatePairsLoop_acc_frame arest prest c0 a0 cum0 a0
        hch le_rfl
      rw [hframe]
      have hacc0 : (c0.getD a0 default).cycleAccumulator = p0.phase := by
        rw [hc0, if_pos hctrl', hcum0, if_pos hctrl']
        exact acc_setCycleAccumulator_self coords p0.phase hlena0
      rw [hacc0]
      simp
    · obtain ⟨k', rfl⟩ : ∃ k', k = k' + 1 := ⟨k - 1, by omega⟩
      have hbound' : ∀ a ∈ arest, a < c0.length := by
        intro a ha
        rw [hlenc0]
        exact hbound a (List.mem_cons_of_mem _ ha)
      have halign' : ∀ m, m < arest.length →
          (c0.getD (arest.getD m 0) default).timeSamples =
            (prest.getD m default).timeSamples := by
        intro m hm
        rw [htimec0]
        have := halign (m + 1) (by simpa using Nat.succ_lt_succ hm)
        simpa using this
      have hasc' : List.Chain' (· < ·) ((c0.getD a0 default).timeSamples ::
          prest.map (fun p => p.timeSamples)) := by
        rw [htimec0, htimea0]
        simpa using hasc
      have := interpolatePairsLoop_controlled arest prest c0 a0 cum0
        (by simpa using hlen) hch hbound' halign' hasc' k'
        (by simpa using hk) (by simpa using hctrl)
      simpa using this

/-- Witness for C1 at a concrete two-point fused list with a controlled
start coordinate and a natural end coordinate. -/
theorem interpolateControlledPhasePoints_phase_coherence_witness :
    ([0, 1] : List ℕ).length =
      ([⟨0, false, 0⟩, ⟨0, true, 96000⟩] : List PhysicalPhaseCoordinate).length ∧
    List.Chain' (· < ·) ([0, 1] : List ℕ) ∧
    (0 : ℕ) <
      ([⟨0, 0, 1, 0, 1, 0⟩, ⟨96000, 100, 1, 0, 1, 0⟩] :
        List PhysicalEnvelopePoint).length ∧
    phaseMod (((interpolateControlledPhasePoints
        [⟨0, 0, 1, 0, 1, 0⟩, ⟨96000, 100, 1, 0, 1, 0⟩] [0, 1]
        [⟨0, false, 0⟩, ⟨0, true, 96000⟩]).getD
        (([0, 1] : List ℕ).getD 0 0) default).cycleAccumulator) =
      phaseMod ((([⟨0, false, 0⟩, ⟨0, true, 96000⟩] :
        List PhysicalPhaseCoordinate).getD 0 default).phase) := by
  refine ⟨rfl, ?_, ?_, ?_⟩
  · simp
  · simp
  · exact interpolateControlledPhasePoints_phase_coherence
      [⟨0, 0, 1, 0, 1, 0⟩, ⟨96000, 100, 1, 0, 1, 0⟩] [0, 1]
      [⟨0, false, 0⟩, ⟨0, true, 96000⟩] rfl (by simp)
      (by intro a ha; fin_cases ha <;> simp)
      (by intro k hk
          simp at hk
          match k, hk with
          | 0, _ => rfl
          | 1, _ => rfl)
      (by simp) 0 (by simp) rfl

/-! ### Concrete evaluation lemmas and the C1 counterexample -/

theorem sweepLoop_succ (e fuel : ℕ) (s : SweepState) :
    sweepLoop e (fuel + 1) s =
    if s.currentTimeSamples < e then sweepLoop e fuel (sweepStep e s) else s := rfl

theorem sweepLoop_zero (e : ℕ) (s : SweepState) : sweepLoop e 0 s = s := rfl

theorem trim_const_1000_example : trimPartialEnvelope [1000] [] 1 = ([1000, 1000], [1]) := by
  unfold trimPartialEnvelope
  rw [trimDropTimes]
  norm_num
  rw [trimDropLevels]
  norm_num
  unfold trimFinal
  norm_num

theorem secondsToSamples_zero : secondsToSamples 0 = 0 := by
  unfold secondsToSamples rtrunc
  norm_num

theorem secondsToSamples_one : secondsToSamples 1 = 96000 := by
  unfold secondsToSamples rtrunc kSampleRate
  norm_num
  rfl

theorem populateFreq_const1000_example : populatePhysicalFrequencyCoords [1000, 1000] [1] 96000 =
    [⟨normalizeFrequency 1000, 0⟩, ⟨normalizeFrequency 1000, 96000⟩] := by
  unfold populatePhysicalFrequencyCoords
  rw [populateFreqGo, populateFreqGo, populateFreqGo, secondsToSamples_zero]


theorem trim_const_1_example : trimPartialEnvelope [1] [] 1 = ([1, 1], [1]) := by
  unfold trimPartialEnvelope
  rw [trimDropTimes]
  norm_num
  rw [trimDropLevels]
  norm_num
  unfold trimFinal
  norm_num

theorem populateAmp_const1_example : populatePhysicalAmplitudeCoords [1, 1] [1] 96000 =
    [⟨1, 0⟩, ⟨1, 96000⟩] := by
  unfold populatePhysicalAmplitudeCoords
  rw [populateAmpGo, populateAmpGo, populateAmpGo, secondsToSamples_zero]

theorem populatePhase_twoPi_example : populatePhysicalPhaseCoords
    [⟨0, 0, TWO_PI, false⟩, ⟨1, 96000, 0, true⟩] =
    [⟨TWO_PI, false, 0⟩, ⟨0, true, 96000⟩] := by
  unfold populatePhysicalPhaseCoords
  simp only [List.map]
  rw [secondsToSamples_zero, secondsToSamples_one]

theorem populateEnvelope_example_length :
    (populateEnvelope
      [⟨normalizeFrequency 1000, 0⟩, ⟨normalizeFrequency 1000, 96000⟩]
      [⟨1, 0⟩, ⟨1, 96000⟩]
      [⟨TWO_PI, false, 0⟩, ⟨0, true, 96000⟩]).1.length = 2 := by
  simp only [populateEnvelope]
  show (sweepLoop 96000 96001 _).coords.length = 2
  rw [show (96001 : ℕ) = 96000 + 1 from rfl, sweepLoop_succ,
    if_pos (by norm_num)]
  rw [show (96000 : ℕ) = 95999 + 1 from rfl, sweepLoop_succ]
  rw [if_neg ?hstop]
  case hstop =>
    simp only [sweepStep]
    norm_num
  simp only [sweepStep]
  norm_num

theorem populateEnvelope_example_anchors :
    (populateEnvelope
      [⟨normalizeFrequency 1000, 0⟩, ⟨normalizeFrequency 1000, 96000⟩]
      [⟨1, 0⟩, ⟨1, 96000⟩]
      [⟨TWO_PI, false, 0⟩, ⟨0, true, 96000⟩]).2 = [0, 1] := by
  simp only [populateEnvelope]
  show (sweepLoop 96000 96001 _).controlledPhaseIterators = [0, 1]
  rw [show (96001 : ℕ) = 96000 + 1 from rfl, sweepLoop_succ,
    if_pos (by norm_num)]
  rw [show (96000 : ℕ) = 95999 + 1 from rfl, sweepLoop_succ]
  rw [if_neg ?hstop]
  case hstop =>
    simp only [sweepStep]
    norm_num
  simp only [sweepStep]
  norm_num


theorem phaseMod_two_pi : phaseMod TWO_PI = 0 := by
  have hTP : TWO_PI ≠ 0 := ne_of_gt TWO_PI_pos
  rw [phaseMod_eq_fract, div_self hTP, Int.fract_one, mul_zero]

theorem interp_example_acc :
    ((interpolateControlledPhasePoints
      (populateEnvelope
        [⟨normalizeFrequency 1000, 0⟩, ⟨normalizeFrequency 1000, 96000⟩]
        [⟨1, 0⟩, ⟨1, 96000⟩]
        [⟨TWO_PI, false, 0⟩, ⟨0, true, 96000⟩]).1 [0, 1]
      [⟨TWO_PI, false, 0⟩, ⟨0, true, 96000⟩]).getD 0
        default).cycleAccumulator = TWO_PI := by
  simp only [interpolateControlledPhasePoints, if_true]
  rw [interpolatePairsLoop_acc_frame _ _ _ 0 _ 0 (by simp) le_rfl]
  exact acc_setCycleAccumulator_self _ _ (by rw [populateEnvelope_example_length]; norm_num)


/-- C1 (counterexample): a one-second 1000 Hz partial whose first phase
coordinate is controlled with target phase 2π (a value the constructors
admit).  After the compensation pass the anchor's accumulator is exactly 2π,
whose `phaseMod` is 0 — off the claimed target by 2π, far beyond 1e-9. -/
theorem interpolateControlledPhasePoints_two_pi_counterexample :
    ¬ (abs (phaseMod (((interpolateControlledPhasePoints
        (populateEnvelope
          (populatePhysicalFrequencyCoords (trimPartialEnvelope [1000] [] 1).1
            (trimPartialEnvelope [1000] [] 1).2 96000)
          (populatePhysicalAmplitudeCoords (trimPartialEnvelope [1] [] 1).1
            (trimPartialEnvelope [1] [] 1).2 96000)
          (populatePhysicalPhaseCoords
            [⟨0, 0, TWO_PI, false⟩, ⟨1, 96000, 0, true⟩])).1
        (populateEnvelope
          (populatePhysicalFrequencyCoords (trimPartialEnvelope [1000] [] 1).1
            (trimPartialEnvelope [1000] [] 1).2 96000)
          (populatePhysicalAmplitudeCoords (trimPartialEnvelope [1] [] 1).1
            (trimPartialEnvelope [1] [] 1).2 96000)
          (populatePhysicalPhaseCoords
            [⟨0, 0, TWO_PI, false⟩, ⟨1, 96000, 0, true⟩])).2
        (populatePhysicalPhaseCoords
          [⟨0, 0, TWO_PI, false⟩, ⟨1, 96000, 0, true⟩])).getD
        ((populateEnvelope
          (populatePhysicalFrequencyCoords (trimPartialEnvelope [1000] [] 1).1
            (trimPartialEnvelope [1000] [] 1).2 96000)
          (populatePhysicalAmplitudeCoords (trimPartialEnvelope [1] [] 1).1
            (trimPartialEnvelope [1] [] 1).2 96000)
          (populatePhysicalPhaseCoords
            [⟨0, 0, TWO_PI, false⟩, ⟨1, 96000, 0, true⟩])).2.getD 0 0)
        default).cycleAccumulator) -
      ((populatePhysicalPhaseCoords
        [⟨0, 0, TWO_PI, false⟩, ⟨1, 96000, 0, true⟩]).getD 0 default).phase)
      ≤ 1e-9) := by
  rw [trim_const_1000_example, trim_const_1_example, populatePhase_twoPi_example]
  simp only [populateFreq_const1000_example, populateAmp_const1_example]
  rw [populateEnvelope_example_anchors]
  simp only [List.getD_cons_zero]
  rw [interp_example_acc, phaseMod_two_pi]
  have h6 : (6 : ℝ) < TWO_PI := by
    unfold TWO_PI PI
    nlinarith [Real.pi_gt_three]
  rw [zero_sub, abs_neg, abs_of_pos TWO_PI_pos]
  intro h
  norm_num at h
  linarith

/-! ## Claim C3: postconditions of the fused sweep -/

instance : Inhabited PhysicalFrequencyCoordinate := ⟨⟨0, 0⟩⟩

instance : Inhabited PhysicalAmplitudeCoordinate := ⟨⟨0, 0⟩⟩

theorem chain'_headD_le_getLastD {l : List ℕ} (h : List.Chain' (· < ·) l)
    (hne : l ≠ []) : l.headD 0 ≤ l.getLastD 0 := by
  induction l with
  | nil => exact absurd rfl hne
  | cons a t ih =>
    cases t with
    | nil => simp
    | cons b u =>
      have hab : a < b := (List.chain'_cons.mp h).1
      have := ih (List.chain'_cons.mp h).2 (by simp)
      simp at this ⊢
      omega

theorem chain'_concat_lt {l : List ℕ} {x : ℕ}
    (hc : List.Chain' (· < ·) l) (hl : ∀ y ∈ l.getLast?, y < x) :
    List.Chain' (· < ·) (l ++ [x]) := by
  rw [List.chain'_append]
  refine ⟨hc, List.chain'_singleton x, ?_⟩
  intro a ha b hb
  simp at hb
  subst hb
  exact hl a ha

theorem getLast?_eq_getLastD {l : List ℕ} (hne : l ≠ []) :
    l.getLast? = some (l.getLastD 0) := by
  cases l with
  | nil => exact absurd rfl hne
  | cons a t => simp [List.getLast?_eq_getLast, List.getLastD_eq_getLast?]

theorem headD_concat {α : Type _} (l : List α) (x d : α) (h : l ≠ []) :
    (l ++ [x]).headD d = l.headD d := by
  cases l with
  | nil => exact absurd rfl h
  | cons a t => simp

/-- The loop invariant of the fused sweep, for a partial ending at sample
`endT` with `pcLen` phase coordinates. -/
def SweepInv (endT pcLen : ℕ) (s : SweepState) : Prop :=
  s.currentTimeSamples ≤ endT ∧
  (s.currentTimeSamples < s.nextFreq.timeSamples ∧
    List.Chain' (· < ·)
      ((s.nextFreq :: s.restFreq).map fun c => c.timeSamples) ∧
    ((s.nextFreq :: s.restFreq).map fun c => c.timeSamples).getLastD 0 = endT) ∧
  (s.currentTimeSamples < s.nextAmp.timeSamples ∧
    List.Chain' (· < ·)
      ((s.nextAmp :: s.restAmp).map fun c => c.timeSamples) ∧
    ((s.nextAmp :: s.restAmp).map fun c => c.timeSamples).getLastD 0 = endT) ∧
  (s.currentTimeSamples < s.curPhase.timeSamples ∧
    List.Chain' (· < ·)
      ((s.curPhase :: s.restPhase).map fun c => c.timeSamples) ∧
    ((s.curPhase :: s.restPhase).map fun c => c.timeSamples).getLastD 0 = endT) ∧
  (s.coords ≠ [] ∧
    List.Chain' (· < ·) (s.coords.map fun p => p.timeSamples) ∧
    (s.coords.map fun p => p.timeSamples).getLastD 0 = s.currentTimeSamples) ∧
  (s.controlledPhaseIterators.length + s.restPhase.length + 1 = pcLen ∧
    s.controlledPhaseIterators ≠ [] ∧
    s.controlledPhaseIterators.headD 0 = 0)

/-- What holds of the sweep state once the loop has terminated. -/
def SweepPost (endT pcLen : ℕ) (s : SweepState) : Prop :=
  s.currentTimeSamples = endT ∧
  s.coords ≠ [] ∧
  List.Chain' (· < ·) (s.coords.map fun p => p.timeSamples) ∧
  (s.coords.map fun p => p.timeSamples).getLastD 0 = endT ∧
  s.controlledPhaseIterators.length = pcLen ∧
  s.controlledPhaseIterators.headD 0 = 0 ∧
  s.controlledPhaseIterators.getLastD 0 = s.coords.length - 1

theorem sweepStep_currentTimeSamples (e : ℕ) (s : SweepState) :
    (sweepStep e s).currentTimeSamples =
    min s.nextFreq.timeSamples
      (min s.nextAmp.timeSamples s.curPhase.timeSamples) := rfl

theorem sweepStep_coords_map_time (e : ℕ) (s : SweepState) :
    (sweepStep e s).coords.map (fun p => p.timeSamples) =
    s.coords.map (fun p => p.timeSamples) ++
      [min s.nextFreq.timeSamples
        (min s.nextAmp.timeSamples s.curPhase.timeSamples)] := by
  simp [sweepStep]

theorem sweepStep_coords_length (e : ℕ) (s : SweepState) :
    (sweepStep e s).coords.length = s.coords.length + 1 := by
  simp [sweepStep]

theorem sweepStep_anchors (e : ℕ) (s : SweepState) :
    (sweepStep e s).controlledPhaseIterators =
    if min s.nextFreq.timeSamples
        (min s.nextAmp.timeSamples s.curPhase.timeSamples) =
        s.curPhase.timeSamples then
      s.controlledPhaseIterators ++ [s.coords.length]
    else s.controlledPhaseIterators := by
  simp [sweepStep]

theorem sweepStep_nextFreq (e : ℕ) (s : SweepState) :
    (sweepStep e s).nextFreq =
    if min s.nextFreq.timeSamples
        (min s.nextAmp.timeSamples s.curPhase.timeSamples) =
          s.nextFreq.timeSamples ∧
        min s.nextFreq.timeSamples
          (min s.nextAmp.timeSamples s.curPhase.timeSamples) ≠ e then
      s.restFreq.headD s.nextFreq
    else s.nextFreq := rfl

theorem sweepStep_restFreq (e : ℕ) (s : SweepState) :
    (sweepStep e s).restFreq =
    if min s.nextFreq.timeSamples
        (min s.nextAmp.timeSamples s.curPhase.timeSamples) =
          s.nextFreq.timeSamples ∧
        min s.nextFreq.timeSamples
          (min s.nextAmp.timeSamples s.curPhase.timeSamples) ≠ e then
      s.restFreq.tail
    else s.restFreq := rfl

theorem sweepStep_nextAmp (e : ℕ) (s : SweepState) :
    (sweepStep e s).nextAmp =
    if min s.nextFreq.timeSamples
        (min s.nextAmp.timeSamples s.curPhase.timeSamples) =
          s.nextAmp.timeSamples ∧
        min s.nextFreq.timeSamples
          (min s.nextAmp.timeSamples s.curPhase.timeSamples) ≠ e then
      s.restAmp.headD s.nextAmp
    else s.nextAmp := rfl

theorem sweepStep_restAmp (e : ℕ) (s : SweepState) :
    (sweepStep e s).restAmp =
    if min s.nextFreq.timeSamples
        (min s.nextAmp.timeSamples s.curPhase.timeSamples) =
          s.nextAmp.timeSamples ∧
        min s.nextFreq.timeSamples
          (min s.nextAmp.timeSamples s.curPhase.timeSamples) ≠ e then
      s.restAmp.tail
    else s.restAmp := rfl

theorem sweepStep_curPhase (e : ℕ) (s : SweepState) :
    (sweepStep e s).curPhase =
    if min s.nextFreq.timeSamples
        (min s.nextAmp.timeSamples s.curPhase.timeSamples) =
          s.curPhase.timeSamples ∧
        min s.nextFreq.timeSamples
          (min s.nextAmp.timeSamples s.curPhase.timeSamples) ≠ e then
      s.restPhase.headD s.curPhase
    else s.curPhase := rfl

theorem sweepStep_restPhase (e : ℕ) (s : SweepState) :
    (sweepStep e s).restPhase =
    if min s.nextFreq.timeSamples
        (min s.nextAmp.timeSamples s.curPhase.timeSamples) =
          s.curPhase.timeSamples ∧
        min s.nextFreq.timeSamples
          (min s.nextAmp.timeSamples s.curPhase.timeSamples) ≠ e then
      s.restPhase.tail
    else s.restPhase := rfl

theorem getLastD_irrel {α : Type _} (a : α) (l : List α) (d d' : α) :
    (a :: l).getLastD d = (a :: l).getLastD d' := by
  rw [List.getLastD_cons, List.getLastD_cons]

/-- A single-stream advance fact: when the iteration lands exactly on the
stream's next breakpoint strictly before the end sample, the stream has a
further coordinate and the advanced stream satisfies the same conditions. -/
theorem stream_advance {nt endT nextT : ℕ} {restT : List ℕ}
    (h2 : List.Chain' (· < ·) (nextT :: restT))
    (h3 : (nextT :: restT).getLastD 0 = endT)
    (hhit : nt = nextT) (hntlt : nt < endT) :
    restT ≠ [] ∧ nt < restT.headD 0 ∧ List.Chain' (· < ·) restT ∧
      restT.getLastD 0 = endT := by
  match restT with
  | [] =>
    rw [List.getLastD_cons] at h3
    simp at h3
    omega
  | r0 :: rr =>
    have hstep : nextT < r0 := (List.chain'_cons.mp h2).1
    refine ⟨by simp, by simp; omega, (List.chain'_cons.mp h2).2, ?_⟩
    rw [List.getLastD_cons] at h3
    rw [getLastD_irrel _ _ 0 nextT]
    exact h3

theorem headD_map {α β : Type _} (f : α → β) (l : List α) (d : α) (e : β)
    (h : l ≠ []) : (l.map f).headD e = f (l.headD d) := by
  cases l with
  | nil => exact absurd rfl h
  | cons a t => simp

theorem headD_cons_tail {α : Type _} {l : List α} (d : α) (h : l ≠ []) :
    l.headD d :: l.tail = l := by
  cases l with
  | nil => exact absurd rfl h
  | cons a t => rfl

theorem map_ne_nil {α β : Type _} (f : α → β) {l : List α} (h : l ≠ []) :
    l.map f ≠ [] := by
  cases l with
  | nil => exact absurd rfl h
  | cons a t => simp

theorem ne_nil_of_map_ne_nil {α β : Type _} {f : α → β} {l : List α}
    (h : l.map f ≠ []) : l ≠ [] := by
  cases l with
  | nil => simp at h
  | cons a t => simp

/-- One sweep iteration strictly advances the time and either re-establishes
the invariant (when the end sample has not been reached) or establishes the
postcondition (when it has). -/
theorem sweepStep_preserves (endT pcLen : ℕ) (s : SweepState)
    (hinv : SweepInv endT pcLen s) (hlt : s.currentTimeSamples < endT) :
    s.currentTimeSamples < (sweepStep endT s).currentTimeSamples ∧
    (((sweepStep endT s).currentTimeSamples < endT ∧
        SweepInv endT pcLen (sweepStep endT s)) ∨
      ((sweepStep endT s).currentTimeSamples = endT ∧
        SweepPost endT pcLen (sweepStep endT s))) := by
  obtain ⟨hle, ⟨hf1, hf2, hf3⟩, ⟨ha1, ha2, ha3⟩, ⟨hp1, hp2, hp3⟩,
    ⟨hc1, hc2, hc3⟩, ⟨hn1, hn2, hn3⟩⟩ := hinv
  simp only [List.map_cons] at hf2 hf3 ha2 ha3 hp2 hp3
  set nt := min s.nextFreq.timeSamples
    (min s.nextAmp.timeSamples s.curPhase.timeSamples) with hnt
  have hntgt : s.currentTimeSamples < nt := lt_min hf1 (lt_min ha1 hp1)
  have hntnp : nt ≤ s.curPhase.timeSamples :=
    le_trans (min_le_right _ _) (min_le_right _ _)
  have hntna : nt ≤ s.nextAmp.timeSamples :=
    le_trans (min_le_right _ _) (min_le_left _ _)
  have hntnf : nt ≤ s.nextFreq.timeSamples := min_le_left _ _
  have hnple : s.curPhase.timeSamples ≤ endT := by
    have h := chain'_headD_le_getLastD hp2 (by simp)
    rw [hp3] at h
    simpa using h
  have hntle : nt ≤ endT := le_trans hntnp hnple
  -- coordinate-list part, common to both cases
  have hcoordsne : (sweepStep endT s).coords ≠ [] := by
    have := sweepStep_coords_length endT s
    intro h
    rw [h] at this
    simp at this
  have hcoordschain : List.Chain' (· < ·)
      ((sweepStep endT s).coords.map fun p => p.timeSamples) := by
    rw [sweepStep_coords_map_time, ← hnt]
    refine chain'_concat_lt hc2 ?_
    intro y hy
    rw [getLast?_eq_getLastD (map_ne_nil _ hc1), Option.mem_some_iff] at hy
    subst hy
    rw [hc3]
    exact hntgt
  have hcoordslast : ((sweepStep endT s).coords.map
      fun p => p.timeSamples).getLastD 0 = nt := by
    rw [sweepStep_coords_map_time, ← hnt, List.getLastD_concat]
  refine ⟨by rw [sweepStep_currentTimeSamples, ← hnt]; exact hntgt, ?_⟩
  rcases lt_or_eq_of_le hntle with hntlt | hnteq
  · -- the loop will continue: re-establish the invariant
    left
    have hntne : nt ≠ endT := ne_of_lt hntlt
    refine ⟨by rw [sweepStep_currentTimeSamples, ← hnt]; exact hntlt, ?_⟩
    refine ⟨?_, ?_, ?_, ?_, ?_, ?_⟩
    · rw [sweepStep_currentTimeSamples, ← hnt]
      exact le_of_lt hntlt
    · -- frequency stream
      rw [sweepStep_currentTimeSamples, sweepStep_nextFreq, sweepStep_restFreq,
        ← hnt]
      by_cases hhit : nt = s.nextFreq.timeSamples
      · rw [if_pos ⟨hhit, hntne⟩, if_pos ⟨hhit, hntne⟩]
        obtain ⟨hrne', hhd, hch, hlast⟩ := stream_advance hf2 hf3 hhit hntlt
        have hrne : s.restFreq ≠ [] := ne_nil_of_map_ne_nil hrne'
        rw [headD_cons_tail s.nextFreq hrne]
        refine ⟨?_, ?_, ?_⟩
        · rw [show (s.restFreq.headD s.nextFreq).timeSamples =
            (s.restFreq.map fun c => c.timeSamples).headD 0 from
            (headD_map _ _ s.nextFreq 0 hrne).symm]
          exact hhd
        · exact hch
        · exact hlast
      · rw [if_neg (by tauto), if_neg (by tauto)]
        exact ⟨lt_of_le_of_ne hntnf hhit, by simpa using hf2, by simpa using hf3⟩
    · -- amplitude stream
      rw [sweepStep_currentTimeSamples, sweepStep_nextAmp, sweepStep_restAmp,
        ← hnt]
      by_cases hhit : nt = s.nextAmp.timeSamples
      · rw [if_pos ⟨hhit, hntne⟩, if_pos ⟨hhit, hntne⟩]
        obtain ⟨hrne', hhd, hch, hlast⟩ := stream_advance ha2 ha3 hhit hntlt
        have hrne : s.restAmp ≠ [] := ne_nil_of_map_ne_nil hrne'
        rw [headD_cons_tail s.nextAmp hrne]
        refine ⟨?_, ?_, ?_⟩
        · rw [show (s.restAmp.headD s.nextAmp).timeSamples =
            (s.restAmp.map fun c => c.timeSamples).headD 0 from
            (headD_map _ _ s.nextAmp 0 hrne).symm]
          exact hhd
        · exact hch
        · exact hlast
      · rw [if_neg (by tauto), if_neg (by tauto)]
        exact ⟨lt_of_le_of_ne hntna hhit, by simpa using ha2, by simpa using ha3⟩
    · -- phase stream
      rw [sweepStep_currentTimeSamples, sweepStep_curPhase, sweepStep_restPhase,
        ← hnt]
      by_cases hhit : nt = s.curPhase.timeSamples
      · rw [if_pos ⟨hhit, hntne⟩, if_pos ⟨hhit, hntne⟩]
        obtain ⟨hrne', hhd, hch, hlast⟩ := stream_advance hp2 hp3 hhit hntlt
        have hrne : s.restPhase ≠ [] := ne_nil_of_map_ne_nil hrne'
        rw [headD_cons_tail s.curPhase hrne]
        refine ⟨?_, ?_, ?_⟩
        · rw [show (s.restPhase.headD s.curPhase).timeSamples =
            (s.restPhase.map fun c => c.timeSamples).headD 0 from
            (headD_map _ _ s.curPhase 0 hrne).symm]
          exact hhd
        · exact hch
        · exact hlast
      · rw [if_neg (by tauto), if_neg (by tauto)]
        exact ⟨lt_of_le_of_ne hntnp hhit, by simpa using hp2, by simpa using hp3⟩
    · -- coordinates
      rw [sweepStep_currentTimeSamples, ← hnt]
      exact ⟨hcoordsne, hcoordschain, hcoordslast⟩
    · -- anchors
      rw [sweepStep_anchors, sweepStep_restPhase, ← hnt]
      by_cases hhit : nt = s.curPhase.timeSamples
      · rw [if_pos hhit, if_pos ⟨hhit, hntne⟩]
        obtain ⟨hrne', _, _, _⟩ := stream_advance hp2 hp3 hhit hntlt
        have hrne : s.restPhase ≠ [] := ne_nil_of_map_ne_nil hrne'
        refine ⟨?_, by simp, ?_⟩
        · rw [List.length_append]
          have htl : s.restPhase.tail.length = s.restPhase.length - 1 :=
            List.length_tail _
          have hrlen : 1 ≤ s.restPhase.length := List.length_pos.mpr hrne
          simp only [List.length_singleton]
          omega
        · rw [headD_concat _ _ _ hn2]
          exact hn3
      · rw [if_neg hhit, if_neg (by tauto)]
        exact ⟨hn1, hn2, hn3⟩
  · -- the loop is about to terminate: establish the postcondition
    right
    have hcur : (sweepStep endT s).currentTimeSamples = endT := by
      rw [sweepStep_currentTimeSamples, ← hnt, hnteq]
    refine ⟨hcur, hcur, hcoordsne, hcoordschain, by rw [hcoordslast, hnteq], ?_⟩
    -- at the end sample, the phase coordinate is necessarily hit and is the
    -- last one
    have hhit : nt = s.curPhase.timeSamples := by omega
    have hrestnil : s.restPhase = [] := by
      match hrp : s.restPhase with
      | [] => rfl
      | r0 :: rr =>
        exfalso
        rw [hrp] at hp2 hp3
        simp only [List.map_cons] at hp2 hp3
        have hstep : s.curPhase.timeSamples < r0.timeSamples :=
          (List.chain'_cons.mp hp2).1
        rw [List.getLastD_cons] at hp3
        have hr0le : r0.timeSamples ≤ endT := by
          have h := chain'_headD_le_getLastD (List.chain'_cons.mp hp2).2
            (by simp)
          rw [getLastD_irrel _ _ s.curPhase.timeSamples 0] at hp3
          rw [hp3] at h
          simpa using h
        omega
    rw [sweepStep_anchors, ← hnt, if_pos hhit]
    rw [hrestnil] at hn1
    simp only [List.length_nil] at hn1
    refine ⟨?_, ?_, ?_⟩
    · rw [List.length_append]
      simp only [List.length_singleton]
      omega
    · rw [headD_concat _ _ _ hn2]
      exact hn3
    · rw [List.getLastD_concat, sweepStep_coords_length]
      omega

theorem sweepLoop_of_not_lt (e fuel : ℕ) (s : SweepState)
    (h : ¬ s.currentTimeSamples < e) : sweepLoop e fuel s = s := by
  cases fuel with
  | zero => rfl
  | succ fuel => rw [sweepLoop_succ, if_neg h]

/-- The sweep loop terminates within the supplied fuel and establishes the
postcondition. -/
theorem sweepLoop_postcondition (endT pcLen : ℕ) :
    ∀ (fuel : ℕ) (s : SweepState), SweepInv endT pcLen s →
    s.currentTimeSamples < endT → endT - s.currentTimeSamples ≤ fuel →
    SweepPost endT pcLen (sweepLoop endT fuel s) := by
  intro fuel
  induction fuel with
  | zero => intro s _ h1 h2; omega
  | succ fuel ih =>
    intro s hinv hlt hfuel
    rw [sweepLoop_succ, if_pos hlt]
    obtain ⟨hadv, hcase⟩ := sweepStep_preserves endT pcLen s hinv hlt
    rcases hcase with ⟨hlt', hinv'⟩ | ⟨heq', hpost'⟩
    · exact ih (sweepStep endT s) hinv' hlt' (by omega)
    · rw [sweepLoop_of_not_lt _ _ _ (by omega)]
      exact hpost'

theorem getLastD_map_eq {α β : Type _} (f : α → β) (l : List α) (d : α)
    (e : β) (h : l ≠ []) : (l.map f).getLastD e = f (l.getLastD d) := by
  induction l using List.reverseRecOn with
  | nil => exact absurd rfl h
  | append_singleton t x _ => simp

/-- C3 (amended): for physical coordinate streams of the shape produced from
a trimmed `PartialEnvelopes` — at least two coordinates each, starting at
sample 0, ending at the partial's end sample, and **strictly ascending in
sample time** — the fused sweep terminates at the partial's end sample; the
fused list is strictly increasing in sample index; the phase-anchor list has
exactly one entry per input phase coordinate; its first anchor is the first
fused point and its last anchor is the last fused point. -/
theorem populateEnvelope_postconditions
    (fc : List PhysicalFrequencyCoordinate)
    (ac : List PhysicalAmplitudeCoordinate)
    (pc : List PhysicalPhaseCoordinate)
    (hfc2 : 2 ≤ fc.length) (hac2 : 2 ≤ ac.length) (hpc2 : 2 ≤ pc.length)
    (hf0 : (fc.headD default).timeSamples = 0)
    (ha0 : (ac.headD default).timeSamples = 0)
    (hp0 : (pc.headD default).timeSamples = 0)
    (hfchain : List.Chain' (· < ·) (fc.map fun c => c.timeSamples))
    (hachain : List.Chain' (· < ·) (ac.map fun c => c.timeSamples))
    (hpchain : List.Chain' (· < ·) (pc.map fun c => c.timeSamples))
    (hflast : (fc.map fun c => c.timeSamples).getLastD 0 =
      (pc.map fun c => c.timeSamples).getLastD 0)
    (halast : (ac.map fun c => c.timeSamples).getLastD 0 =
      (pc.map fun c => c.timeSamples).getLastD 0) :
    List.Chain' (· < ·)
      ((populateEnvelope fc ac pc).1.map fun p => p.timeSamples) ∧
    (populateEnvelope fc ac pc).1 ≠ [] ∧
    ((populateEnvelope fc ac pc).1.map fun p => p.timeSamples).getLastD 0 =
      (pc.map fun c => c.timeSamples).getLastD 0 ∧
    (populateEnvelope fc ac pc).2.length = pc.length ∧
    (populateEnvelope fc ac pc).2.headD 0 = 0 ∧
    (populateEnvelope fc ac pc).2.getLastD 0 =
      (populateEnvelope fc ac pc).1.length - 1 := by
  obtain ⟨f0, f1, fr, rfl⟩ : ∃ f0 f1 fr, fc = f0 :: f1 :: fr := by
    match fc, hfc2 with
    | a :: b :: t, _ => exact ⟨a, b, t, rfl⟩
  obtain ⟨a0, a1, ar, rfl⟩ : ∃ a0 a1 ar, ac = a0 :: a1 :: ar := by
    match ac, hac2 with
    | a :: b :: t, _ => exact ⟨a, b, t, rfl⟩
  obtain ⟨p0, p1, pr, rfl⟩ : ∃ p0 p1 pr, pc = p0 :: p1 :: pr := by
    match pc, hpc2 with
    | a :: b :: t, _ => exact ⟨a, b, t, rfl⟩
  simp only [List.headD_cons] at hf0 ha0 hp0
  -- the end sample and its positivity
  set endT := (((p0 :: p1 :: pr).map fun c => c.timeSamples).getLastD 0)
    with hendT
  have hendT' : ((p0 :: p1 :: pr).getLastD default).timeSamples = endT := by
    rw [hendT, getLastD_map_eq _ _ default 0 (by simp)]
  have hp1pos : 0 < p1.timeSamples := by
    have := List.chain'_cons.mp (by simpa using hpchain)
    rw [hp0] at this
    simpa using this.1
  have hendTpos : 0 < endT := by
    have h := @chain'_headD_le_getLastD ((p1 :: pr).map fun c => c.timeSamples)
      (by
        have := List.chain'_cons.mp (by simpa using hpchain)
        simpa using this.2) (by simp)
    have hrw : (((p1 :: pr).map fun c => c.timeSamples)).getLastD 0 = endT := by
      rw [hendT]
      simp only [List.map_cons, List.getLastD_cons]
    rw [hrw] at h
    simp at h
    omega
  -- the initial state satisfies the invariant
  simp only [populateEnvelope]
  rw [hendT']
  have hinv0 : SweepInv endT ((p0 :: p1 :: pr).length)
      { curFreq := f0, nextFreq := f1, restFreq := fr,
        curAmp := a0, nextAmp := a1, restAmp := ar,
        curPhase := p1, restPhase := pr,
        currentTimeSamples := 0,
        lastFreqPointCycleAccumulator := 0,
        currentFrequencyRate := frequencyRate f0 f1,
        currentAmplitudeRate := amplitudeRate a0 a1,
        coords := [⟨0, 0, f0.frequency, frequencyRate f0 f1, a0.amplitude,
          amplitudeRate a0 a1⟩],
        controlledPhaseIterators := [0] } := by
    refine ⟨Nat.zero_le _, ⟨?_, ?_, ?_⟩, ⟨?_, ?_, ?_⟩, ⟨?_, ?_, ?_⟩,
      ⟨by simp, ?_, ?_⟩, ⟨?_, by simp, rfl⟩⟩
    · show 0 < f1.timeSamples
      have := List.chain'_cons.mp (by simpa using hfchain)
      rw [hf0] at this
      simpa using this.1
    · exact (List.chain'_cons.mp (by simpa using hfchain)).2
    · show ((f1 :: fr).map fun c => c.timeSamples).getLastD 0 = endT
      rw [← hflast]
      simp only [List.map_cons, List.getLastD_cons]
    · show 0 < a1.timeSamples
      have := List.chain'_cons.mp (by simpa using hachain)
      rw [ha0] at this
      simpa using this.1
    · exact (List.chain'_cons.mp (by simpa using hachain)).2
    · show ((a1 :: ar).map fun c => c.timeSamples).getLastD 0 = endT
      rw [← halast]
      simp only [List.map_cons, List.getLastD_cons]
    · exact hp1pos
    · exact (List.chain'_cons.mp (by simpa using hpchain)).2
    · show ((p1 :: pr).map fun c => c.timeSamples).getLastD 0 = endT
      rw [hendT]
      simp only [List.map_cons, List.getLastD_cons]
    · show List.Chain' (· < ·)
        (([(⟨0, 0, f0.frequency, frequencyRate f0 f1, a0.amplitude,
          amplitudeRate a0 a1⟩ : PhysicalEnvelopePoint)]).map
            fun p => p.timeSamples)
      simp
    · simp
    · show ([0] : List ℕ).length + pr.length + 1 = (p0 :: p1 :: pr).length
      simp only [List.length_cons, List.length_nil]
      omega
  have hpost := sweepLoop_postcondition endT ((p0 :: p1 :: pr).length)
    (endT + fr.length + ar.length + pr.length + 1) _ hinv0
    (by simpa using hendTpos) (by omega)
  obtain ⟨hcur, hne, hchain, hlast, hplen, hhead, hlastanchor⟩ := hpost
  exact ⟨hchain, hne, by rw [hlast], hplen, hhead, hlastanchor⟩

/-- C3 (counterexample): a trimmed amplitude envelope containing a
zero-length segment (levels `[0.5, 0.7, 0.5]`, times `[0, 1]`, which the
trimmer leaves unchanged for a 1-second partial) makes the sweep emit two
fused points at sample 0 — the fused list is not strictly increasing. -/
theorem populateEnvelope_not_strict_counterexample :
    trimPartialEnvelope [0.5, 0.7, 0.5] [0, 1] 1 = ([0.5, 0.7, 0.5], [0, 1]) ∧
    ¬ List.Chain' (· < ·)
      ((populateEnvelope
        (populatePhysicalFrequencyCoords (trimPartialEnvelope [1000] [] 1).1
          (trimPartialEnvelope [1000] [] 1).2 96000)
        (populatePhysicalAmplitudeCoords [0.5, 0.7, 0.5] [0, 1] 96000)
        (populatePhysicalPhaseCoords
          [⟨0, 0, 0, false⟩, ⟨1, 96000, 0, true⟩])).1.map
        fun p => p.timeSamples) := by
  constructor
  · unfold trimPartialEnvelope
    rw [trimDropTimes]
    norm_num
    rw [trimDropLevels]
    norm_num
    unfold trimFinal
    norm_num
  · rw [trim_const_1000_example]
    simp only [populateFreq_const1000_example]
    have hamp : populatePhysicalAmplitudeCoords [0.5, 0.7, 0.5] [0, 1] 96000 =
        [⟨0.5, 0⟩, ⟨0.7, 0⟩, ⟨0.5, 96000⟩] := by
      unfold populatePhysicalAmplitudeCoords
      rw [populateAmpGo, populateAmpGo, populateAmpGo, populateAmpGo,
        secondsToSamples_zero]
      norm_num
      rw [secondsToSamples_zero]
    have hph : populatePhysicalPhaseCoords
        [⟨0, 0, 0, false⟩, ⟨1, 96000, 0, true⟩] =
        [⟨0, false, 0⟩, ⟨0, true, 96000⟩] := by
      unfold populatePhysicalPhaseCoords
      simp only [List.map]
      rw [secondsToSamples_zero, secondsToSamples_one]
    rw [hamp, hph]
    have hmap : ((populateEnvelope
        [⟨normalizeFrequency 1000, 0⟩, ⟨normalizeFrequency 1000, 96000⟩]
        [⟨0.5, 0⟩, ⟨0.7, 0⟩, ⟨0.5, 96000⟩]
        [⟨0, false, 0⟩, ⟨0, true, 96000⟩]).1.map fun p => p.timeSamples) =
        [0, 0, 96000] := by
      simp only [populateEnvelope]
      show ((sweepLoop 96000 96002 _).coords.map fun p => p.timeSamples) =
        [0, 0, 96000]
      rw [show (96002 : ℕ) = 96001 + 1 from rfl, sweepLoop_succ,
        if_pos (by norm_num)]
      rw [show (96001 : ℕ) = 96000 + 1 from rfl, sweepLoop_succ,
        if_pos ?hcont]
      case hcont =>
        simp only [sweepStep]
        norm_num
      rw [show (96000 : ℕ) = 95999 + 1 from rfl, sweepLoop_succ]
      rw [if_neg ?hstop]
      case hstop =>
        simp only [sweepStep]
        norm_num
      simp only [sweepStep]
      norm_num
    rw [hmap]
    intro h
    have := (List.chain'_cons.mp h).1
    omega

/-- Witness for C3 at the concrete constant 1000 Hz, constant amplitude,
one-second partial. -/
theorem populateEnvelope_postconditions_witness :
    (2 ≤ ([⟨normalizeFrequency 1000, 0⟩, ⟨normalizeFrequency 1000, 96000⟩] :
      List PhysicalFrequencyCoordinate).length) ∧
    (2 ≤ ([⟨1, 0⟩, ⟨1, 96000⟩] : List PhysicalAmplitudeCoordinate).length) ∧
    (2 ≤ ([⟨0, false, 0⟩, ⟨0, true, 96000⟩] :
      List PhysicalPhaseCoordinate).length) ∧
    ((populateEnvelope
      [⟨normalizeFrequency 1000, 0⟩, ⟨normalizeFrequency 1000, 96000⟩]
      [⟨1, 0⟩, ⟨1, 96000⟩]
      [⟨0, false, 0⟩, ⟨0, true, 96000⟩]).2.length =
      ([⟨0, false, 0⟩, ⟨0, true, 96000⟩] :
        List PhysicalPhaseCoordinate).length) := by
  refine ⟨by simp, by simp, by simp, ?_⟩
  have := populateEnvelope_postconditions
    [⟨normalizeFrequency 1000, 0⟩, ⟨normalizeFrequency 1000, 96000⟩]
    [⟨1, 0⟩, ⟨1, 96000⟩] [⟨0, false, 0⟩, ⟨0, true, 96000⟩]
    (by simp) (by simp) (by simp) rfl rfl rfl (by simp) (by simp) (by simp)
    rfl rfl
  exact this.2.2.2.1

/-! ## Claim C7: the first/last sample fractions of `generate`
(physical_envelope_generator.cpp:559-565) -/

/-- The sample-fraction computation at the end of
`PhysicalEnvelopeGenerator::generate`: `timePerSample = 1.0 / kSamplesPerPaxel`
and the two `fmod` quotients.  The arguments are what the source passes:
`phaseCoordinates_->coordinates.front().timeSeconds` and
`...back().timeSeconds` — the phase coordinates' times relative to the
partial's start (the absolute `startTimeSeconds` is not consulted). -/
noncomputable def generateSampleFractions
    (frontTimeSeconds backTimeSeconds : ℝ) : ℝ × ℝ :=
  (1 - fmod frontTimeSeconds (1 / (kSamplesPerPaxel : ℝ)) /
      (1 / (kSamplesPerPaxel : ℝ)),
   fmod backTimeSeconds (1 / (kSamplesPerPaxel : ℝ)) /
      (1 / (kSamplesPerPaxel : ℝ)))

/-- Modelled from the spec's words for C7: `firstSampleFraction =
1 − frac(t_start · sampleRate)` with `t_start` the partial's *absolute* start
time in seconds. -/
noncomputable def specFirstSampleFraction (startTimeSeconds : ℝ) : ℝ :=
  1 - Int.fract (startTimeSeconds * (kSampleRate : ℝ))

/-- Modelled from the spec's words for C7: `lastSampleFraction =
frac(t_end · sampleRate)` with `t_end` the partial's *absolute* end time. -/
noncomputable def specLastSampleFraction (endTimeSeconds : ℝ) : ℝ :=
  Int.fract (endTimeSeconds * (kSampleRate : ℝ))

theorem fmod_div_eq_fract {t : ℝ} (P : ℕ) (hP : 0 < P) (ht : 0 ≤ t) :
    fmod t (1 / (P : ℝ)) / (1 / (P : ℝ)) = Int.fract (t * P) := by
  have hp0 : (0 : ℝ) < (P : ℝ) := by exact_mod_cast hP
  have hdiv : t / (1 / (P : ℝ)) = t * P := by field_simp
  unfold fmod
  rw [hdiv, rtrunc_of_nonneg (by positivity)]
  have hfr : Int.fract (t * P) = t * P - ⌊t * (P : ℝ)⌋ := rfl
  have hcancel : (1 / (P : ℝ)) * (P : ℝ) = 1 := by field_simp
  rw [div_div_eq_mul_div, div_one, hfr]
  calc (t - 1 / (P : ℝ) * (⌊t * (P : ℝ)⌋ : ℝ)) * (P : ℝ)
      = t * P - (⌊t * (P : ℝ)⌋ : ℝ) * ((1 / (P : ℝ)) * (P : ℝ)) := by ring
    _ = t * P - ⌊t * (P : ℝ)⌋ := by rw [hcancel, mul_one]

/-- C7 (counterexample): for a partial whose phase coordinates span
`[0 s, 1 s]` but whose absolute start time is half a sample
(`1/192000 s`), the code's `firstSampleFraction` is `1` (it only looks at the
first phase coordinate's relative time `0`), whereas the claim's formula
`1 − frac(t_start · sampleRate)` gives `1/2`. -/
theorem generateSampleFractions_counterexample :
    (generateSampleFractions 0 1).1 ≠
      specFirstSampleFraction (1 / 192000) := by
  have h1 : (generateSampleFractions 0 1).1 = 1 := by
    unfold generateSampleFractions
    rw [fmod_div_eq_fract kSamplesPerPaxel (by norm_num [kSamplesPerPaxel,
      kSampleRate]) le_rfl]
    norm_num
  have h2 : specFirstSampleFraction (1 / 192000) = 1 / 2 := by
    unfold specFirstSampleFraction
    have : (1 / 192000 : ℝ) * (kSampleRate : ℝ) = 1 / 2 := by
      norm_num [kSampleRate]
    rw [this, Int.fract_eq_self.mpr (by norm_num)]
    norm_num
  rw [h1, h2]
  norm_num

/-- C7 (amended): the generated fractions are
`1 − frac(t_front · kSamplesPerPaxel)` and `frac(t_back · kSamplesPerPaxel)`
computed from the first and last phase coordinates' times *relative to the
partial's start* (with `kSamplesPerPaxel = kSampleRate`); in particular the
first fraction is `1` for every valid partial, since its first phase
coordinate sits at `t = 0`. -/
theorem generateSampleFractions_eq (tf tb : ℝ) (hf : 0 ≤ tf) (hb : 0 ≤ tb) :
    generateSampleFractions tf tb =
      (1 - Int.fract (tf * (kSamplesPerPaxel : ℝ)),
       Int.fract (tb * (kSamplesPerPaxel : ℝ))) ∧
    generateSampleFractions 0 tb =
      (1, Int.fract (tb * (kSamplesPerPaxel : ℝ))) := by
  have hP : 0 < kSamplesPerPaxel := by norm_num [kSamplesPerPaxel, kSampleRate]
  constructor
  · unfold generateSampleFractions
    rw [fmod_div_eq_fract kSamplesPerPaxel hP hf,
      fmod_div_eq_fract kSamplesPerPaxel hP hb]
  · unfold generateSampleFractions
    rw [fmod_div_eq_fract kSamplesPerPaxel hP le_rfl,
      fmod_div_eq_fract kSamplesPerPaxel hP hb]
    norm_num

/-- Witness for C7 at `t_front = 0`, `t_back = 1`. -/
theorem generateSampleFractions_eq_witness :
    ((0 : ℝ) ≤ 0) ∧ ((0 : ℝ) ≤ 1) ∧
    (generateSampleFractions 0 1 =
      (1 - Int.fract ((0 : ℝ) * (kSamplesPerPaxel : ℝ)),
       Int.fract ((1 : ℝ) * (kSamplesPerPaxel : ℝ))) ∧
     generateSampleFractions 0 1 =
      (1, Int.fract ((1 : ℝ) * (kSamplesPerPaxel : ℝ)))) :=
  ⟨le_rfl, by norm_num, generateSampleFractions_eq 0 1 le_rfl (by norm_num)⟩

/-! ## Claim C9: constructor validation of the logical envelope types
(envelope_types.h)

The C++ constructors validate their arguments with `assert`; an assertion
failure aborts construction and no object is produced.  Rejection is modelled
as `none`; a successful construction returns the object.  (The assertion
mechanism carries no error payload, so "identifying the offending
coordinate" has no counterpart in the code.) -/

/-- `constexpr double NATURAL_PHASE = -999999999;` from audio_types.h. -/
def NATURAL_PHASE : ℝ := -999999999

/-- The `Envelope` base type (curves carry no invariants and are omitted). -/
structure Envelope where
  levels : List ℝ
  timesSeconds : List ℝ
  timesSamples : List ℕ

/-- The `Envelope` base constructor's assert-checks: at least one level, at
most one more level than times, and no negative time. -/
noncomputable def mkEnvelope (levels times : List ℝ) : Option Envelope :=
  if 1 ≤ levels.length ∧ levels.length - 1 ≤ times.length ∧
      (∀ t ∈ times, ¬ t < 0) then
    some ⟨levels, times, times.map secondsToSamples⟩
  else none

/-- The `FrequencyEnvelope` constructor: the base checks plus the assert that
every level is strictly positive. -/
noncomputable def mkFrequencyEnvelope (levels times : List ℝ) :
    Option Envelope :=
  match mkEnvelope levels times with
  | none => none
  | some e => if ∀ l ∈ levels, 0 < l then some e else none

/-- The controlled `PhaseCoordinate(time, value)` constructor: asserts
`time ≥ 0` and `value ∈ [0, 2π]`. -/
noncomputable def mkPhaseCoordinateControlled (time value : ℝ) :
    Option PhaseCoordinate :=
  if 0 ≤ time ∧ ZERO_PI ≤ value ∧ value ≤ TWO_PI then
    some ⟨time, secondsToSamples time, value, false⟩
  else none

/-- The natural `PhaseCoordinate(time)` constructor: asserts `time > 0`. -/
noncomputable def mkPhaseCoordinateNatural (time : ℝ) :
    Option PhaseCoordinate :=
  if 0 < time then some ⟨time, secondsToSamples time, NATURAL_PHASE, true⟩
  else none

/-- The `PhaseCoordinates` aggregate. -/
structure PhaseCoordinates where
  coordinates : List PhaseCoordinate

instance : Inhabited PhaseCoordinate := ⟨⟨0, 0, 0, false⟩⟩

/-- The `PhaseCoordinates` constructor: at least two coordinates; the first
at time zero (samples and seconds) and controlled; times strictly ascending
(the `adjacent_find` of a non-ascending adjacent pair must come up empty). -/
noncomputable def mkPhaseCoordinates (coordinates : List PhaseCoordinate) :
    Option PhaseCoordinates :=
  if 2 ≤ coordinates.length ∧
      (coordinates.headD default).timeSamples = 0 ∧
      (coordinates.headD default).timeSeconds = 0 ∧
      (coordinates.headD default).natural = false ∧
      List.Chain' (· < ·) (coordinates.map fun c => c.timeSeconds) then
    some ⟨coordinates⟩
  else none

/-- C9 (amended): illegal values are rejected by a failing `assert` in the
constructor — the program aborts, carrying no error value (there is no
`InvariantViolation` type in the sources and nothing identifies the
offending coordinate), modelled here as `none` — and no object is produced,
while legal values succeed, for each of the validated constructions named by
the claim: a `FrequencyEnvelope` with a level ≤ 0, a controlled
`PhaseCoordinate` with phase outside [0, 2π], and `PhaseCoordinates` that
are non-ascending or whose first coordinate is not at t = 0 and
controlled. -/
theorem constructor_validation :
    (∀ levels times : List ℝ, (∃ l ∈ levels, l ≤ 0) →
      mkFrequencyEnvelope levels times = none) ∧
    (∀ time value : ℝ, (value < 0 ∨ TWO_PI < value) →
      mkPhaseCoordinateControlled time value = none) ∧
    (∀ cs : List PhaseCoordinate,
      (¬ List.Chain' (· < ·) (cs.map fun c => c.timeSeconds)) →
      mkPhaseCoordinates cs = none) ∧
    (∀ cs : List PhaseCoordinate,
      ((cs.headD default).timeSeconds ≠ 0 ∨ (cs.headD default).natural = true) →
      mkPhaseCoordinates cs = none) ∧
    (∀ levels times : List ℝ,
      1 ≤ levels.length → levels.length - 1 ≤ times.length →
      (∀ t ∈ times, 0 ≤ t) → (∀ l ∈ levels, 0 < l) →
      mkFrequencyEnvelope levels times =
        some ⟨levels, times, times.map secondsToSamples⟩) ∧
    (∀ time value : ℝ, 0 ≤ time → 0 ≤ value → value ≤ TWO_PI →
      mkPhaseCoordinateControlled time value =
        some ⟨time, secondsToSamples time, value, false⟩) ∧
    (∀ cs : List PhaseCoordinate, 2 ≤ cs.length →
      (cs.headD default).timeSamples = 0 →
      (cs.headD default).timeSeconds = 0 →
      (cs.headD default).natural = false →
      List.Chain' (· < ·) (cs.map fun c => c.timeSeconds) →
      mkPhaseCoordinates cs = some ⟨cs⟩) := by
  refine ⟨?_, ?_, ?_, ?_, ?_, ?_, ?_⟩
  · intro levels times ⟨l, hl, hle⟩
    unfold mkFrequencyEnvelope
    match hm : mkEnvelope levels times with
    | none => rfl
    | some e =>
      show (if ∀ l ∈ levels, 0 < l then some e else none) = none
      rw [if_neg]
      intro hall
      exact absurd (hall l hl) (not_lt.mpr hle)
  · intro time value hbad
    unfold mkPhaseCoordinateControlled
    rw [if_neg]
    unfold ZERO_PI
    rintro ⟨-, h1, h2⟩
    rcases hbad with h | h
    · norm_num at h1
      linarith
    · linarith
  · intro cs hbad
    unfold mkPhaseCoordinates
    rw [if_neg]
    rintro ⟨-, -, -, -, hch⟩
    exact hbad hch
  · intro cs hbad
    unfold mkPhaseCoordinates
    rw [if_neg]
    rintro ⟨-, -, ht, hnat, -⟩
    rcases hbad with h | h
    · exact h ht
    · rw [hnat] at h
      exact Bool.false_ne_true h
  · intro levels times h1 h2 h3 h4
    unfold mkFrequencyEnvelope mkEnvelope
    rw [if_pos ⟨h1, h2, fun t ht => not_lt.mpr (h3 t ht)⟩]
    simp only []
    rw [if_pos h4]
  · intro time value h1 h2 h3
    unfold mkPhaseCoordinateControlled
    rw [if_pos ⟨h1, by unfold ZERO_PI; norm_num; linarith, h3⟩]
  · intro cs h1 h2 h3 h4 h5
    unfold mkPhaseCoordinates
    rw [if_pos ⟨h1, h2, h3, h4, h5⟩]

/-! ## Claim C6: the per-paxel renderer (paxel_generator.cpp)

`precomputePaxel` walks the paxel's local fused points; for each stage it
fills sample specifications up to the next point's `timeSamples` (or to
`kSamplesPerPaxel` for the last stage).  The loop bound
`fillToSampleIndex - currentStage.timeSamples` is a `uint32_t` subtraction;
with descending stage times it would wrap around and overflow the paxel, so
the theorems assume ascending stage times, under which the truncated ℕ
subtraction below is exact.

`renderSinglePaxelAudio` zero-fills a buffer of `kSamplesPerPaxel` samples
(`resize`) and then `std::transform`s the specification over its prefix; the
implicit `double → int32_t` conversion of
`(std::sin(acc) * amp) * kMaxSamplePaxelInt` truncates toward zero.  A
specification longer than the buffer would write past `samples.end()`
(out of bounds); this is modelled by the truncating `take`, and excluded by
the theorems' hypotheses. -/

/-- `PaxelSampleSpecification` from paxel_types.h. -/
structure PaxelSampleSpecification where
  cycleAccumulator : ℝ
  amplitude : ℝ

/-- The inner `for` loop of `precomputePaxel` for one stage. -/
noncomputable def stageSamples (cur : PhysicalEnvelopePoint) (fillToSampleIndex : ℕ) :
    List PaxelSampleSpecification :=
  (List.range (fillToSampleIndex - cur.timeSamples)).map fun sampleIndex =>
    ⟨computeCycleAccumulator cur.cycleAccumulator cur.frequency cur.frequencyRate sampleIndex,
     cur.amplitude + cur.amplitudeRate * (sampleIndex : ℝ)⟩

/-- `precomputePaxel` from paxel_generator.cpp. -/
noncomputable def precomputePaxel : List PhysicalEnvelopePoint → List PaxelSampleSpecification
  | [] => []
  | [cur] => stageSamples cur kSamplesPerPaxel
  | cur :: next :: rest => stageSamples cur next.timeSamples ++ precomputePaxel (next :: rest)

/-- `PaxelGenerator::renderSinglePaxelAudio` from paxel_generator.cpp. -/
noncomputable def renderSinglePaxelAudio (coords : List PhysicalEnvelopePoint) : List ℤ :=
  (((precomputePaxel coords).map fun (i : PaxelSampleSpecification) =>
      rtrunc ((Real.sin i.cycleAccumulator * i.amplitude) * (kMaxSamplePaxelInt : ℝ))) ++
    List.replicate kSamplesPerPaxel 0).take kSamplesPerPaxel

/-- The stage governing local sample `s`: the nearest fused point at or
before `s`. -/
def stageAt (coords : List PhysicalEnvelopePoint) (s : ℕ) : Option PhysicalEnvelopePoint :=
  (coords.filter fun c => c.timeSamples ≤ s).getLast?

theorem stageSamples_length (cur : PhysicalEnvelopePoint) (fillTo : ℕ) :
    (stageSamples cur fillTo).length = fillTo - cur.timeSamples := by
  simp [stageSamples]

theorem stageSamples_getElem (cur : PhysicalEnvelopePoint) (fillTo i : ℕ)
    (hi : i < fillTo - cur.timeSamples) :
    (stageSamples cur fillTo)[i]? =
      some ⟨computeCycleAccumulator cur.cycleAccumulator cur.frequency cur.frequencyRate i,
            cur.amplitude + cur.amplitudeRate * (i : ℝ)⟩ := by
  simp [stageSamples, List.getElem?_map, List.getElem?_range, hi]

theorem getLast?_cons_of_ne_nil {α : Type} (a : α) (l : List α) (h : l ≠ []) :
    (a :: l).getLast? = l.getLast? := by
  cases l with
  | nil => exact absurd rfl h
  | cons b t => exact List.getLast?_cons_cons

theorem stageAt_cons_of_filter_nil (c : PhysicalEnvelopePoint)
    (rest : List PhysicalEnvelopePoint) (s : ℕ) (hc : c.timeSamples ≤ s)
    (hrest : rest.filter (fun x => x.timeSamples ≤ s) = []) :
    stageAt (c :: rest) s = some c := by
  unfold stageAt
  rw [List.filter_cons_of_pos (by simpa using hc), hrest]
  rfl

theorem stageAt_cons_of_filter_ne_nil (c : PhysicalEnvelopePoint)
    (rest : List PhysicalEnvelopePoint) (s : ℕ)
    (hrest : rest.filter (fun x => x.timeSamples ≤ s) ≠ []) :
    stageAt (c :: rest) s = stageAt rest s := by
  unfold stageAt
  rw [List.filter_cons]
  by_cases hc : c.timeSamples ≤ s
  · rw [if_pos (by simpa using hc)]
    exact getLast?_cons_of_ne_nil _ _ hrest
  · rw [if_neg (by simpa using hc)]

/-- Specification for the precompute loop on a non-empty coordinate list
with ascending stage times bounded by the paxel length: the specification
spans `kSamplesPerPaxel - cur.timeSamples` samples, and sample `i` takes its
accumulator and amplitude from the governing stage. -/
theorem precomputePaxel_spec :
    ∀ (rest : List PhysicalEnvelopePoint) (cur : PhysicalEnvelopePoint),
      List.Chain' (· < ·) ((cur :: rest).map fun c => c.timeSamples) →
      (∀ c ∈ cur :: rest, c.timeSamples ≤ kSamplesPerPaxel) →
      (precomputePaxel (cur :: rest)).length = kSamplesPerPaxel - cur.timeSamples ∧
      ∀ i : ℕ, i < kSamplesPerPaxel - cur.timeSamples →
        ∀ g ∈ stageAt (cur :: rest) (cur.timeSamples + i),
          (precomputePaxel (cur :: rest))[i]? =
            some ⟨computeCycleAccumulator g.cycleAccumulator g.frequency g.frequencyRate
                    (cur.timeSamples + i - g.timeSamples),
                  g.amplitude +
                    g.amplitudeRate * ((cur.timeSamples + i - g.timeSamples : ℕ) : ℝ)⟩ := by
  intro rest
  induction rest with
  | nil =>
    intro cur _ _
    constructor
    · simp only [precomputePaxel]
      exact stageSamples_length cur kSamplesPerPaxel
    · intro i hi g hg
      have hst : stageAt [cur] (cur.timeSamples + i) = some cur :=
        stageAt_cons_of_filter_nil cur [] _ (Nat.le_add_right _ _) rfl
      rw [hst, Option.mem_some_iff] at hg
      subst hg
      simp only [precomputePaxel]
      rw [stageSamples_getElem cur kSamplesPerPaxel i hi, Nat.add_sub_cancel_left]
  | cons next rest stageIH =>
    intro cur hasc hle
    have hlt : cur.timeSamples < next.timeSamples := by
      simp only [List.map_cons] at hasc
      exact (List.chain'_cons.mp hasc).1
    have hasc' : List.Chain' (· < ·) ((next :: rest).map fun c => c.timeSamples) := by
      simp only [List.map_cons] at hasc ⊢
      exact (List.chain'_cons.mp hasc).2
    have hle' : ∀ c ∈ next :: rest, c.timeSamples ≤ kSamplesPerPaxel := by
      intro c hc
      exact hle c (List.mem_cons_of_mem cur hc)
    have hnextP : next.timeSamples ≤ kSamplesPerPaxel :=
      hle next (List.mem_cons_of_mem cur (List.mem_cons_self next rest))
    have htail_ge : ∀ x ∈ next :: rest, next.timeSamples ≤ x.timeSamples := by
      intro x hx
      rcases List.mem_cons.mp hx with h | h
      · rw [h]
      · have hp := List.chain'_iff_pairwise.mp hasc'
        simp only [List.map_cons, List.pairwise_cons] at hp
        exact le_of_lt (hp.1 _ (List.mem_map_of_mem (fun c => c.timeSamples) h))
    obtain ⟨ihlen, ihel⟩ := stageIH next hasc' hle'
    have hlen1 : (stageSamples cur next.timeSamples).length =
        next.timeSamples - cur.timeSamples := stageSamples_length _ _
    constructor
    · simp only [precomputePaxel, List.length_append, hlen1, ihlen]
      omega
    · intro i hi g hg
      by_cases hcase : i < next.timeSamples - cur.timeSamples
      · have hs_lt : cur.timeSamples + i < next.timeSamples := by omega
        have hfil : (next :: rest).filter
            (fun x => x.timeSamples ≤ cur.timeSamples + i) = [] := by
          rw [List.filter_eq_nil_iff]
          intro x hx
          have := htail_ge x hx
          simp only [decide_eq_true_eq]
          omega
        have hst : stageAt (cur :: next :: rest) (cur.timeSamples + i) = some cur :=
          stageAt_cons_of_filter_nil cur (next :: rest) _ (Nat.le_add_right _ _) hfil
        rw [hst, Option.mem_some_iff] at hg
        subst hg
        simp only [precomputePaxel]
        rw [List.getElem?_append_left (by rw [hlen1]; exact hcase),
          stageSamples_getElem cur next.timeSamples i hcase, Nat.add_sub_cancel_left]
      · have hj : next.timeSamples - cur.timeSamples ≤ i := le_of_not_lt hcase
        have hs_eq : cur.timeSamples + i =
            next.timeSamples + (i - (next.timeSamples - cur.timeSamples)) := by omega
        have hj_lt : i - (next.timeSamples - cur.timeSamples) <
            kSamplesPerPaxel - next.timeSamples := by omega
        have hfilne : (next :: rest).filter
            (fun x => x.timeSamples ≤ cur.timeSamples + i) ≠ [] := by
          refine List.ne_nil_of_mem
            (List.mem_filter.mpr ⟨List.mem_cons_self next rest, ?_⟩)
          simp only [decide_eq_true_eq]
          omega
        have hst : stageAt (cur :: next :: rest) (cur.timeSamples + i) =
            stageAt (next :: rest) (cur.timeSamples + i) :=
          stageAt_cons_of_filter_ne_nil cur (next :: rest) _ hfilne
        rw [hst, hs_eq] at hg
        have := ihel (i - (next.timeSamples - cur.timeSamples)) hj_lt g hg
        simp only [precomputePaxel]
        rw [List.getElem?_append_right (by rw [hlen1]; exact hj), hlen1, this, ← hs_eq]

/-- C6 (amended): for a paxel whose local fused point list starts at local
sample 0 with strictly ascending stage times bounded by the paxel length,
`renderSinglePaxelAudio` returns exactly `kSamplesPerPaxel` integer samples,
and each local sample `s` takes the value
`trunc((sin(acc) * amp) * kMaxSamplePaxelInt)` — truncation toward zero, not
`round` — where `amp = cur.amplitude + cur.amplitudeRate * (s - cur.timeSamples)`
and `acc = computeCycleAccumulator(cur.cycleAccumulator, cur.frequency,
cur.frequencyRate, s - cur.timeSamples)` for the nearest fused point `cur`
at or before `s`. -/
theorem renderSinglePaxelAudio_spec (cur0 : PhysicalEnvelopePoint)
    (rest0 : List PhysicalEnvelopePoint)
    (h0 : cur0.timeSamples = 0)
    (hasc : List.Chain' (· < ·) ((cur0 :: rest0).map fun c => c.timeSamples))
    (hle : ∀ c ∈ cur0 :: rest0, c.timeSamples ≤ kSamplesPerPaxel) :
    (renderSinglePaxelAudio (cur0 :: rest0)).length = kSamplesPerPaxel ∧
    ∀ s : ℕ, s < kSamplesPerPaxel →
      ∀ g ∈ stageAt (cur0 :: rest0) s,
        (renderSinglePaxelAudio (cur0 :: rest0)).getD s 0 =
          rtrunc ((Real.sin (computeCycleAccumulator g.cycleAccumulator g.frequency
              g.frequencyRate (s - g.timeSamples)) *
            (g.amplitude + g.amplitudeRate * ((s - g.timeSamples : ℕ) : ℝ))) *
            (kMaxSamplePaxelInt : ℝ)) := by
  obtain ⟨hlen, hel⟩ := precomputePaxel_spec rest0 cur0 hasc hle
  simp only [h0, Nat.sub_zero, Nat.zero_add] at hlen hel
  constructor
  · simp only [renderSinglePaxelAudio, List.length_take, List.length_append,
      List.length_map, hlen, List.length_replicate]
    omega
  · intro s hs g hg
    have hspec := hel s hs g hg
    rw [List.getD_eq_getElem?_getD, renderSinglePaxelAudio,
      List.getElem?_take_of_lt hs,
      List.getElem?_append_left (by rw [List.length_map, hlen]; exact hs),
      List.getElem?_map, hspec]
    rfl

/-- Witness for C6 at a concrete input: a single all-silent stage at local
sample 0 satisfies the hypotheses, and the rendered paxel has exactly
`kSamplesPerPaxel` samples. -/
theorem renderSinglePaxelAudio_spec_witness :
    ((⟨0, 0, 0, 0, 0, 0⟩ : PhysicalEnvelopePoint).timeSamples = 0) ∧
    List.Chain' (· < ·)
      (([⟨0, 0, 0, 0, 0, 0⟩] : List PhysicalEnvelopePoint).map fun c => c.timeSamples) ∧
    (renderSinglePaxelAudio [(⟨0, 0, 0, 0, 0, 0⟩ : PhysicalEnvelopePoint)]).length =
      kSamplesPerPaxel := by
  refine ⟨rfl, List.chain'_singleton _, ?_⟩
  exact (renderSinglePaxelAudio_spec ⟨0, 0, 0, 0, 0, 0⟩ [] rfl (List.chain'_singleton _)
    (by intro c hc; rw [List.mem_singleton] at hc; subst hc; exact Nat.zero_le _)).1

/-- The stage used by the C6 counterexample: amplitude 0.7 at accumulator
π/2, with no frequency or rate contribution. -/
noncomputable def roundCounterexamplePoint : PhysicalEnvelopePoint :=
  ⟨0, Real.pi / 2, 0, 0, 0.7, 0⟩

/-- Counterexample to C6's `round`: at the stage above,
`sin(acc) * amp * kMaxSamplePaxelInt = 0.7 * 8388607 = 5872024.9`; the
renderer stores the truncation 5872024, while `round` of the claimed formula
is 5872025. -/
theorem renderSinglePaxelAudio_round_counterexample :
    (renderSinglePaxelAudio [roundCounterexamplePoint]).getD 0 0 ≠
      round ((Real.sin (computeCycleAccumulator roundCounterexamplePoint.cycleAccumulator
          roundCounterexamplePoint.frequency roundCounterexamplePoint.frequencyRate
          (0 - roundCounterexamplePoint.timeSamples)) *
        (roundCounterexamplePoint.amplitude + roundCounterexamplePoint.amplitudeRate *
          ((0 - roundCounterexamplePoint.timeSamples : ℕ) : ℝ))) *
        (kMaxSamplePaxelInt : ℝ)) := by
  have hacc : computeCycleAccumulator roundCounterexamplePoint.cycleAccumulator
      roundCounterexamplePoint.frequency roundCounterexamplePoint.frequencyRate
      (0 - roundCounterexamplePoint.timeSamples) = Real.pi / 2 := by
    simp only [roundCounterexamplePoint, computeCycleAccumulator]
    norm_num
  have hval : (Real.sin (Real.pi / 2) * ((0.7 : ℝ) + 0 * ((0 : ℕ) : ℝ))) *
      (kMaxSamplePaxelInt : ℝ) = 0.7 * 8388607 := by
    rw [Real.sin_pi_div_two]
    norm_num [kMaxSamplePaxelInt]
  have hleft : (renderSinglePaxelAudio [roundCounterexamplePoint]).getD 0 0 = 5872024 := by
    rw [List.getD_eq_getElem?_getD, renderSinglePaxelAudio,
      show precomputePaxel [roundCounterexamplePoint] =
        stageSamples roundCounterexamplePoint kSamplesPerPaxel from rfl]
    rw [List.getElem?_take_of_lt (by norm_num [kSamplesPerPaxel, kSampleRate])]
    rw [List.getElem?_append_left (by
      simp only [List.length_map, stageSamples_length, roundCounterexamplePoint]
      norm_num [kSamplesPerPaxel, kSampleRate])]
    rw [List.getElem?_map, stageSamples_getElem _ _ 0
      (by simp only [roundCounterexamplePoint]; norm_num [kSamplesPerPaxel, kSampleRate])]
    simp only [Option.map_some', Option.getD_some]
    rw [show computeCycleAccumulator roundCounterexamplePoint.cycleAccumulator
        roundCounterexamplePoint.frequency roundCounterexamplePoint.frequencyRate 0 =
        Real.pi / 2 by
      simp only [roundCounterexamplePoint, computeCycleAccumulator]; norm_num]
    rw [show roundCounterexamplePoint.amplitude +
        roundCounterexamplePoint.amplitudeRate * ((0 : ℕ) : ℝ) = 0.7 by
      simp only [roundCounterexamplePoint]; norm_num]
    rw [show (Real.sin (Real.pi / 2) * (0.7 : ℝ)) * (kMaxSamplePaxelInt : ℝ) =
        0.7 * 8388607 by rw [Real.sin_pi_div_two]; norm_num [kMaxSamplePaxelInt]]
    rw [rtrunc, if_neg (by norm_num)]
    rw [Int.floor_eq_iff]
    norm_num
  have hright : round ((Real.sin (computeCycleAccumulator
      roundCounterexamplePoint.cycleAccumulator roundCounterexamplePoint.frequency
      roundCounterexamplePoint.frequencyRate (0 - roundCounterexamplePoint.timeSamples)) *
      (roundCounterexamplePoint.amplitude + roundCounterexamplePoint.amplitudeRate *
        ((0 - roundCounterexamplePoint.timeSamples : ℕ) : ℝ))) *
      (kMaxSamplePaxelInt : ℝ)) = 5872025 := by
    rw [hacc]
    rw [show (Real.sin (Real.pi / 2) * (roundCounterexamplePoint.amplitude +
        roundCounterexamplePoint.amplitudeRate *
          ((0 - roundCounterexamplePoint.timeSamples : ℕ) : ℝ))) *
        (kMaxSamplePaxelInt : ℝ) = 0.7 * 8388607 by
      rw [Real.sin_pi_div_two]
      simp only [roundCounterexamplePoint]
      norm_num [kMaxSamplePaxelInt]]
    rw [round_eq, Int.floor_eq_iff]
    norm_num
  rw [hleft, hright]
  decide

/-! ## Claim C10: the paxel grid (physical_envelope_generator.cpp,
divideIntoPaxelGrid) and whole-partial rendering (paxel_generator.cpp,
renderAudio)

`divideIntoPaxelGrid` works on the fused point list in times relative to the
partial's start sample.  A silent copy of the first point is prepended when
the start sample is off the paxel grid, and a silent copy of the last point,
one sample later, is appended when the end sample is not the last sample of
its paxel window.  The outer loop then slices the list one paxel window per
iteration: the inner loop consumes the maximal prefix of points strictly
before the window's last sample; the slice is rebuilt in window-local
sample times (the first window keeps its leading point and shifts the rest
by the grid offset, later windows subtract the window start); and when the
next remaining point is not exactly at the next window's first sample an
interpolated point is inserted there.

C++ corner cases reflected in the model: the `uint32_t` time arithmetic is
truncated ℕ subtraction; dereferencing past the ends of the list (empty
window at local time zero, insertion with an empty window) is undefined in
C++ and modelled by defaults, and excluded by the theorems' hypotheses. -/

/-- `interpolate` from envelope_types.h.  Its preconditions
`pointA.timeSamples ≤ timeSamples ≤ pointB.timeSamples` are asserts; outside
them the C++ computes an extrapolation with the same formula. -/
noncomputable def interpolate (pointA pointB : PhysicalEnvelopePoint)
    (timeSamples : ℕ) : PhysicalEnvelopePoint :=
  let ratio : ℝ := ((timeSamples - pointA.timeSamples : ℕ) : ℝ) /
    ((pointB.timeSamples - pointA.timeSamples : ℕ) : ℝ)
  ⟨timeSamples,
   computeCycleAccumulator pointA.cycleAccumulator pointA.frequency pointA.frequencyRate
     (timeSamples - pointA.timeSamples),
   ratio * (pointB.frequency - pointA.frequency) + pointA.frequency,
   pointA.frequencyRate,
   ratio * (pointB.amplitude - pointA.amplitude) + pointA.amplitude,
   pointA.amplitudeRate⟩

/-- The silent copy of the first fused point prepended for an off-grid
start. -/
noncomputable def silentFront (c : PhysicalEnvelopePoint) : PhysicalEnvelopePoint :=
  { c with timeSamples := 0, amplitude := 0, amplitudeRate := 0,
           frequency := 0, frequencyRate := 0 }

/-- The silent copy of the last fused point appended one sample after the
end. -/
noncomputable def silentBack (c : PhysicalEnvelopePoint) : PhysicalEnvelopePoint :=
  { c with timeSamples := c.timeSamples + 1, amplitude := 0, amplitudeRate := 0,
           frequency := 0, frequencyRate := 0 }

/-- `firstPaxelIndex_` as stored by `divideIntoPaxelGrid`. -/
def firstPaxelIndex (startSample : ℕ) : ℕ :=
  (startSample - startSample % kSamplesPerPaxel) / kSamplesPerPaxel

/-- `lastPaxelEndTimeSamples` from `divideIntoPaxelGrid`. -/
def lastPaxelEndTimeSamples (endSample : ℕ) : ℕ :=
  endSample - endSample % kSamplesPerPaxel + (kSamplesPerPaxel - 1)

/-- `lastPaxelIndex_` as stored by `divideIntoPaxelGrid`. -/
def lastPaxelIndex (endSample : ℕ) : ℕ :=
  lastPaxelEndTimeSamples endSample / kSamplesPerPaxel

/-- The slice construction for one paxel window (the `offset == 0` /
`offset != 0` branches of the outer loop).  An empty window (excluded by
the theorems' hypotheses) reads the next point's time in C++; it yields an
empty slice when that is nonzero and is undefined otherwise, modelled as
`[]`. -/
noncomputable def gridSlice (gridOffset : ℕ) :
    List PhysicalEnvelopePoint → List PhysicalEnvelopePoint
  | [] => []
  | c :: cs =>
    if c.timeSamples = 0 then
      c :: cs.map fun p => { p with timeSamples := p.timeSamples + gridOffset }
    else
      (c :: cs).map fun p => { p with timeSamples := p.timeSamples - c.timeSamples }

/-- One iteration of the outer loop of `divideIntoPaxelGrid`: the emitted
slice and the remaining point list (with the interpolated point for the next
window's first sample inserted when needed; `previousPoint` is the last
consumed point, a default when the window is empty — undefined in C++ and
excluded by the theorems' hypotheses). -/
noncomputable def gridStep (gridOffset k : ℕ) (l : List PhysicalEnvelopePoint) :
    List PhysicalEnvelopePoint × List PhysicalEnvelopePoint :=
  let currentPaxelEndSample := (k + 1) * kSamplesPerPaxel - gridOffset - 1
  let consumed := l.takeWhile fun p => p.timeSamples < currentPaxelEndSample
  let remaining := l.dropWhile fun p => p.timeSamples < currentPaxelEndSample
  (gridSlice gridOffset consumed,
   match remaining with
   | [] => []
   | r :: rs =>
     if r.timeSamples ≠ currentPaxelEndSample + 1 then
       interpolate (consumed.getLastD default) r (currentPaxelEndSample + 1) :: r :: rs
     else r :: rs)

/-- The fueled outer loop of `divideIntoPaxelGrid`. -/
noncomputable def gridLoop (gridOffset : ℕ) :
    ℕ → ℕ → List PhysicalEnvelopePoint → List (List PhysicalEnvelopePoint)
  | 0, _, _ => []
  | _ + 1, _, [] => []
  | fuel + 1, k, p :: ps =>
    (gridStep gridOffset k (p :: ps)).1 ::
      gridLoop gridOffset fuel (k + 1) (gridStep gridOffset k (p :: ps)).2

/-- `PhysicalEnvelopeGenerator::divideIntoPaxelGrid`, as a function of the
start and end samples and the fused point list (in samples relative to the
partial's start). -/
noncomputable def divideIntoPaxelGrid (startSample endSample : ℕ)
    (coords : List PhysicalEnvelopePoint) : List (List PhysicalEnvelopePoint) :=
  let firstPaxelStartTimeSamples := startSample - startSample % kSamplesPerPaxel
  let gridOffset := startSample - firstPaxelStartTimeSamples
  let coords1 := if startSample ≠ firstPaxelStartTimeSamples then
      (match coords with
       | [] => []
       | c :: cs => silentFront c :: c :: cs)
    else coords
  let coords2 := if endSample ≠ lastPaxelEndTimeSamples endSample then
      coords1 ++ [silentBack (coords1.getLastD default)]
    else coords1
  gridLoop gridOffset (coords2.length + endSample / kSamplesPerPaxel + 2) 0 coords2

/-- `PaxelGenerator::renderAudio`: one `kSamplesPerPaxel`-sample block per
paxel, copied back to back (`renderSinglePaxelAudio` always produces exactly
`kSamplesPerPaxel` samples, so the `memcpy` concatenates the blocks). -/
noncomputable def renderAudio (paxelPoints : List (List PhysicalEnvelopePoint)) :
    List ℤ :=
  (paxelPoints.map renderSinglePaxelAudio).flatten

theorem renderSinglePaxelAudio_length (coords : List PhysicalEnvelopePoint) :
    (renderSinglePaxelAudio coords).length = kSamplesPerPaxel := by
  simp only [renderSinglePaxelAudio, List.length_take, List.length_append,
    List.length_map, List.length_replicate]
  omega

theorem renderAudio_length (paxelPoints : List (List PhysicalEnvelopePoint)) :
    (renderAudio paxelPoints).length = kSamplesPerPaxel * paxelPoints.length := by
  induction paxelPoints with
  | nil => simp [renderAudio]
  | cons p ps ih =>
    simp only [renderAudio, List.map_cons, List.flatten_cons, List.length_append,
      renderSinglePaxelAudio_length, List.length_cons] at ih ⊢
    rw [ih]
    ring

/-! ### List helpers for the grid proofs -/

theorem getLastD_irrel_of_ne_nil {α : Type _} {l : List α} (h : l ≠ []) (d d' : α) :
    l.getLastD d = l.getLastD d' := by
  cases l with
  | nil => exact absurd rfl h
  | cons a t => exact getLastD_irrel a t d d'

theorem getLastD_append_right {α : Type _} (l1 : List α) {l2 : List α} (h : l2 ≠ []) :
    ∀ d, (l1 ++ l2).getLastD d = l2.getLastD d := by
  induction l1 with
  | nil => intro d; rfl
  | cons a t ih =>
    intro d
    rw [List.cons_append, List.getLastD_cons, ih a, getLastD_irrel_of_ne_nil h a d]

theorem getLastD_mem {α : Type _} {l : List α} (h : l ≠ []) :
    ∀ d, l.getLastD d ∈ l := by
  induction l with
  | nil => exact absurd rfl h
  | cons a t ih =>
    intro d
    rw [List.getLastD_cons]
    cases t with
    | nil => simp
    | cons b u => exact List.mem_cons_of_mem a (ih (by simp) a)

theorem getD_length_sub_one {α : Type _} {l : List α} (h : l ≠ []) :
    ∀ d, l.getD (l.length - 1) d = l.getLastD d := by
  induction l with
  | nil => exact absurd rfl h
  | cons a t ih =>
    intro d
    cases t with
    | nil => rfl
    | cons b u =>
      rw [List.getLastD_cons, show (a :: b :: u).length - 1 = (b :: u).length - 1 + 1 by
        simp, List.getD_cons_succ, ih (by simp) d, getLastD_irrel_of_ne_nil (by simp) d a]

theorem chain'_headD_le_mem {l : List ℕ} (h : List.Chain' (· < ·) l) :
    ∀ x ∈ l, l.headD 0 ≤ x := by
  intro x hx
  cases l with
  | nil => simp at hx
  | cons a t =>
    rcases List.mem_cons.mp hx with h1 | h1
    · rw [h1, List.headD_cons]
    · have hp := List.chain'_iff_pairwise.mp h
      rw [List.headD_cons]
      exact le_of_lt ((List.pairwise_cons.mp hp).1 x h1)

theorem chain'_mem_le_getLastD {l : List ℕ} (h : List.Chain' (· < ·) l) :
    ∀ x ∈ l, x ≤ l.getLastD 0 := by
  induction l with
  | nil => intro x hx; simp at hx
  | cons a t ih =>
    intro x hx
    rw [List.getLastD_cons]
    cases t with
    | nil =>
      simp at hx
      simp [hx]
    | cons b u =>
      have hch := List.chain'_cons.mp h
      rw [getLastD_irrel b u a 0]
      rcases List.mem_cons.mp hx with h1 | h1
      · subst h1
        have hb := ih hch.2 b (List.mem_cons_self b u)
        have hab := hch.1
        omega
      · exact ih hch.2 x h1

theorem chain'_map_sub {l : List ℕ} (off : ℕ) (h : List.Chain' (· < ·) l)
    (hall : ∀ x ∈ l, off ≤ x) :
    List.Chain' (· < ·) (l.map fun x => x - off) := by
  induction l with
  | nil => simp
  | cons a t ih =>
    cases t with
    | nil => simp
    | cons b u =>
      simp only [List.map_cons]
      rw [List.chain'_cons]
      have hch := List.chain'_cons.mp h
      refine ⟨?_, ?_⟩
      · have ha := hall a (List.mem_cons_self a (b :: u))
        have hab := hch.1
        omega
      · have := ih hch.2 fun x hx => hall x (List.mem_cons_of_mem a hx)
        simpa using this

theorem chain'_map_add {l : List ℕ} (g : ℕ) (h : List.Chain' (· < ·) l) :
    List.Chain' (· < ·) (l.map fun x => x + g) := by
  induction l with
  | nil => simp
  | cons a t ih =>
    cases t with
    | nil => simp
    | cons b u =>
      simp only [List.map_cons]
      rw [List.chain'_cons]
      have hch := List.chain'_cons.mp h
      exact ⟨by omega, by simpa using ih hch.2⟩

theorem gridLoop_nil (gridOffset : ℕ) : ∀ fuel k,
    gridLoop gridOffset fuel k [] = [] := by
  intro fuel k
  cases fuel with
  | zero => rfl
  | succ f => rfl

theorem gridLoop_cons (gridOffset fuel k : ℕ) (p : PhysicalEnvelopePoint)
    (ps : List PhysicalEnvelopePoint) :
    gridLoop gridOffset (fuel + 1) k (p :: ps) =
      (gridStep gridOffset k (p :: ps)).1 ::
        gridLoop gridOffset fuel (k + 1) (gridStep gridOffset k (p :: ps)).2 := rfl

/-- Well-formedness of an emitted paxel slice: non-empty, starting at local
sample 0, strictly ascending, within the paxel. -/
def SliceWF (s : List PhysicalEnvelopePoint) : Prop :=
  s ≠ [] ∧ (s.headD default).timeSamples = 0 ∧
  List.Chain' (· < ·) (s.map fun p => p.timeSamples) ∧
  ∀ p ∈ s, p.timeSamples ≤ kSamplesPerPaxel

/-- Invariant of the grid outer loop from the second window on: the head of
the remaining list sits exactly at window `k`'s first sample, times are
strictly ascending, never on a window's last sample, and the final point
falls strictly inside window `m` (all in samples relative to the partial's
start; `Tend` is the final point's time, `gridOffset` the start sample's
offset into its window). -/
def GridInv (gridOffset m Tend k : ℕ) (l : List PhysicalEnvelopePoint) : Prop :=
  l ≠ [] ∧
  List.Chain' (· < ·) (l.map fun p => p.timeSamples) ∧
  (l.headD default).timeSamples = k * kSamplesPerPaxel - gridOffset ∧
  1 ≤ k ∧ k ≤ m ∧
  (∀ p ∈ l, (p.timeSamples + gridOffset) % kSamplesPerPaxel ≠ kSamplesPerPaxel - 1) ∧
  (l.map fun p => p.timeSamples).getLastD 0 = Tend ∧
  m * kSamplesPerPaxel ≤ Tend + gridOffset ∧
  Tend + gridOffset < (m + 1) * kSamplesPerPaxel - 1

theorem interpolate_timeSamples (a b : PhysicalEnvelopePoint) (t : ℕ) :
    (interpolate a b t).timeSamples = t := rfl

theorem dropWhile_head_not {α : Type _} {p : α → Bool} {l : List α}
    {r : α} {rs : List α} (h : l.dropWhile p = r :: rs) : ¬ p r = true := by
  induction l with
  | nil => simp at h
  | cons a t ih =>
    rw [List.dropWhile_cons] at h
    by_cases ha : p a = true
    · rw [if_pos ha] at h
      exact ih h
    · rw [if_neg ha] at h
      rw [(List.cons.injEq ..).mp h |>.1] at ha
      exact ha

theorem gridStep_fst (g k : ℕ) (l : List PhysicalEnvelopePoint) :
    (gridStep g k l).1 = gridSlice g (l.takeWhile fun p =>
      p.timeSamples < (k + 1) * kSamplesPerPaxel - g - 1) := rfl

theorem gridStep_snd_nil (g k : ℕ) (l : List PhysicalEnvelopePoint)
    (h : (l.dropWhile fun p => p.timeSamples < (k + 1) * kSamplesPerPaxel - g - 1) = []) :
    (gridStep g k l).2 = [] := by
  simp only [gridStep]
  rw [h]

theorem gridStep_snd_cons (g k : ℕ) (l : List PhysicalEnvelopePoint)
    (r : PhysicalEnvelopePoint) (rs : List PhysicalEnvelopePoint)
    (h : (l.dropWhile fun p => p.timeSamples < (k + 1) * kSamplesPerPaxel - g - 1) = r :: rs) :
    (gridStep g k l).2 =
      if r.timeSamples ≠ (k + 1) * kSamplesPerPaxel - g - 1 + 1 then
        interpolate ((l.takeWhile fun p =>
            p.timeSamples < (k + 1) * kSamplesPerPaxel - g - 1).getLastD default) r
          ((k + 1) * kSamplesPerPaxel - g - 1 + 1) :: r :: rs
      else r :: rs := by
  simp only [gridStep]
  rw [h]


set_option maxHeartbeats 1000000 in
/-- The grid outer loop, from the second window on: under `GridInv` it emits
exactly one slice per remaining window, every slice is well-formed, and the
final point of the final slice is the final input point at its window-local
time. -/
theorem gridLoop_spec (gridOffset m Tend : ℕ) (hgo : gridOffset < kSamplesPerPaxel) :
    ∀ fuel k l, GridInv gridOffset m Tend k l → m + 2 ≤ k + fuel →
      (gridLoop gridOffset fuel k l).length = m - k + 1 ∧
      (∀ s ∈ gridLoop gridOffset fuel k l, SliceWF s) ∧
      ((gridLoop gridOffset fuel k l).getLastD []).getLastD default =
        { l.getLastD default with
            timeSamples := Tend + gridOffset - m * kSamplesPerPaxel } := by
  have hP : kSamplesPerPaxel = 96000 := rfl
  intro fuel
  induction fuel with
  | zero =>
    intro k l hinv hfuel
    obtain ⟨-, -, -, -, hkm, -⟩ := hinv
    omega
  | succ fuel ih =>
    intro k l hinv hfuel
    obtain ⟨hne, hch, hhead, hk1, hkm, hmod, hlast, hTlo, hThi⟩ := hinv
    obtain ⟨p, ps, rfl⟩ : ∃ p ps, l = p :: ps := by
      cases l with
      | nil => exact absurd rfl hne
      | cons p ps => exact ⟨p, ps, rfl⟩
    have hheadt : p.timeSamples = k * kSamplesPerPaxel - gridOffset := by
      simpa using hhead
    -- the head of the list is strictly inside window k
    have hqp : (fun q => decide (q.timeSamples <
        (k + 1) * kSamplesPerPaxel - gridOffset - 1)) p = true := by
      rw [decide_eq_true_eq]
      rw [hP] at hheadt hgo ⊢
      omega
    -- the consumed prefix and its basic facts
    have hcons : ((p :: ps).takeWhile fun q => q.timeSamples <
        (k + 1) * kSamplesPerPaxel - gridOffset - 1) =
        p :: (ps.takeWhile fun q => q.timeSamples <
          (k + 1) * kSamplesPerPaxel - gridOffset - 1) :=
      List.takeWhile_cons_of_pos hqp
    have hdrop : ((p :: ps).dropWhile fun q => q.timeSamples <
        (k + 1) * kSamplesPerPaxel - gridOffset - 1) =
        ps.dropWhile fun q => q.timeSamples <
          (k + 1) * kSamplesPerPaxel - gridOffset - 1 :=
      List.dropWhile_cons_of_pos hqp
    have hconssub : List.Sublist ((p :: ps).takeWhile fun q => q.timeSamples <
        (k + 1) * kSamplesPerPaxel - gridOffset - 1) (p :: ps) :=
      List.takeWhile_sublist _
    have hconsch : List.Chain' (· < ·) ((((p :: ps).takeWhile fun q => q.timeSamples <
        (k + 1) * kSamplesPerPaxel - gridOffset - 1).map fun q => q.timeSamples)) :=
      hch.sublist (hconssub.map fun q => q.timeSamples)
    have hconsmemlt : ∀ x ∈ ((p :: ps).takeWhile fun q => q.timeSamples <
        (k + 1) * kSamplesPerPaxel - gridOffset - 1),
        x.timeSamples < (k + 1) * kSamplesPerPaxel - gridOffset - 1 := by
      intro x hx
      have := List.mem_takeWhile_imp hx
      simpa using this
    have hconsmemge : ∀ x ∈ ((p :: ps).takeWhile fun q => q.timeSamples <
        (k + 1) * kSamplesPerPaxel - gridOffset - 1),
        p.timeSamples ≤ x.timeSamples := by
      intro x hx
      have hxl : x ∈ p :: ps := hconssub.subset hx
      have := chain'_headD_le_mem hch x.timeSamples
        (List.mem_map_of_mem (fun q => q.timeSamples) hxl)
      simpa using this
    -- the emitted slice is well-formed
    have hpne0 : p.timeSamples ≠ 0 := by
      rw [hP] at hheadt hgo
      omega
    have hslice : (gridStep gridOffset k (p :: ps)).1 =
        ((p :: ps).takeWhile fun q => q.timeSamples <
          (k + 1) * kSamplesPerPaxel - gridOffset - 1).map
          fun q => { q with timeSamples := q.timeSamples - p.timeSamples } := by
      rw [gridStep_fst, hcons, gridSlice, if_neg hpne0, ← hcons]
    have hslicewf : SliceWF (gridStep gridOffset k (p :: ps)).1 := by
      rw [hslice]
      refine ⟨by rw [hcons]; simp, ?_, ?_, ?_⟩
      · rw [hcons]
        simp
      · have hcomp : (((p :: ps).takeWhile fun q => q.timeSamples <
            (k + 1) * kSamplesPerPaxel - gridOffset - 1).map
            (fun q => { q with timeSamples := q.timeSamples - p.timeSamples })).map
            (fun q => q.timeSamples) =
            (((p :: ps).takeWhile fun q => q.timeSamples <
              (k + 1) * kSamplesPerPaxel - gridOffset - 1).map
              fun q => q.timeSamples).map fun t => t - p.timeSamples := by
          simp [List.map_map]
        rw [hcomp]
        refine chain'_map_sub _ hconsch ?_
        intro x hx
        obtain ⟨y, hy, rfl⟩ := List.mem_map.mp hx
        exact hconsmemge y hy
      · intro x hx
        obtain ⟨y, hy, rfl⟩ := List.mem_map.mp hx
        have h1 := hconsmemlt y hy
        have h2 := hconsmemge y hy
        show y.timeSamples - p.timeSamples ≤ kSamplesPerPaxel
        rw [hP] at h1 hheadt ⊢
        omega
    -- case split on the remaining list
    cases hremc : ps.dropWhile (fun q => q.timeSamples <
        (k + 1) * kSamplesPerPaxel - gridOffset - 1) with
    | nil =>
      -- everything was consumed: this is the final window
      have hconsall : ((p :: ps).takeWhile fun q => q.timeSamples <
          (k + 1) * kSamplesPerPaxel - gridOffset - 1) = p :: ps := by
        have h := @List.takeWhile_append_dropWhile _ (fun q => decide (q.timeSamples <
          (k + 1) * kSamplesPerPaxel - gridOffset - 1)) (p :: ps)
        rw [hdrop, hremc, List.append_nil] at h
        exact h
      have hTlt : Tend < (k + 1) * kSamplesPerPaxel - gridOffset - 1 := by
        have hmemT := getLastD_mem (l := (p :: ps).map fun q => q.timeSamples) (by simp) 0
        rw [hlast] at hmemT
        obtain ⟨y, hy, hyT⟩ := List.mem_map.mp hmemT
        rw [← hconsall] at hy
        have := hconsmemlt y hy
        omega
      have hmk : m = k := by
        rw [hP] at hTlt hTlo
        omega
      have hstep2 : (gridStep gridOffset k (p :: ps)).2 = [] :=
        gridStep_snd_nil _ _ _ (by rw [hdrop, hremc])
      rw [gridLoop_cons, hstep2, gridLoop_nil]
      refine ⟨by simp [hmk], ?_, ?_⟩
      · intro s hs
        rw [List.mem_singleton] at hs
        rw [hs]
        exact hslicewf
      · show ((gridStep gridOffset k (p :: ps)).1).getLastD default = _
        rw [hslice, getLastD_map_eq _ _ default _ (by rw [hconsall]; simp), hconsall]
        have hTeq : ((p :: ps).getLastD default).timeSamples = Tend := by
          rw [← hlast, getLastD_map_eq (fun q => q.timeSamples) (p :: ps) default 0 (by simp)]
        have : ((p :: ps).getLastD default).timeSamples - p.timeSamples =
            Tend + gridOffset - m * kSamplesPerPaxel := by
          rw [hTeq, hheadt, hmk]
          rw [hP] at hTlo ⊢
          omega
        rw [this]
    | cons r rs =>
      -- points remain: they start at or after the window's last sample
      have hrlast : ((p :: ps).dropWhile fun q => q.timeSamples <
          (k + 1) * kSamplesPerPaxel - gridOffset - 1) = r :: rs := by
        rw [hdrop, hremc]
      have hrnotlt := dropWhile_head_not hrlast
      have hrge : (k + 1) * kSamplesPerPaxel - gridOffset - 1 ≤ r.timeSamples := by
        simp only [decide_eq_true_eq] at hrnotlt
        omega
      have hremsub : List.Sublist (r :: rs) (p :: ps) := by
        rw [← hrlast]
        exact List.dropWhile_sublist _
      have hrmem : r ∈ p :: ps := hremsub.subset (List.mem_cons_self r rs)
      have hrgt : (k + 1) * kSamplesPerPaxel - gridOffset - 1 + 1 ≤ r.timeSamples := by
        have hm := hmod r hrmem
        rw [hP] at hrge hm hgo ⊢
        omega
      have hremch : List.Chain' (· < ·) ((r :: rs).map fun q => q.timeSamples) :=
        hch.sublist (hremsub.map _)
      have hsplit : (p :: ps) = ((p :: ps).takeWhile fun q => q.timeSamples <
          (k + 1) * kSamplesPerPaxel - gridOffset - 1) ++ (r :: rs) := by
        rw [← hrlast]
        exact (@List.takeWhile_append_dropWhile _ (fun q => decide (q.timeSamples <
          (k + 1) * kSamplesPerPaxel - gridOffset - 1)) (p :: ps)).symm
      have hremlast : ((r :: rs).map fun q => q.timeSamples).getLastD 0 = Tend := by
        rw [← hlast]
        conv_rhs => rw [hsplit]
        rw [List.map_append, getLastD_append_right _ (by simp) 0]
      have hTger : r.timeSamples ≤ Tend := by
        have := chain'_headD_le_getLastD hremch (by simp)
        rw [hremlast] at this
        simpa using this
      have hk1m : k + 1 ≤ m := by
        rw [hP] at hrgt hThi
        omega
      have hlastpt : (p :: ps).getLastD default = (r :: rs).getLastD default := by
        conv_lhs => rw [hsplit]
        rw [getLastD_append_right _ (by simp) default]
      -- the next remaining list, with or without the inserted boundary point
      by_cases hins : r.timeSamples = (k + 1) * kSamplesPerPaxel - gridOffset - 1 + 1
      · -- the next point is exactly at the next window's first sample
        have hstep2 : (gridStep gridOffset k (p :: ps)).2 = r :: rs := by
          rw [gridStep_snd_cons _ _ _ _ _ hrlast, if_neg (by simpa using hins)]
        have hinv' : GridInv gridOffset m Tend (k + 1) (r :: rs) := by
          refine ⟨by simp, hremch, ?_, by omega, hk1m, ?_, hremlast, hTlo, hThi⟩
          · simp only [List.headD_cons]
            rw [hins]
            rw [hP] at hgo ⊢
            omega
          · intro x hx
            exact hmod x (hremsub.subset hx)
        obtain ⟨hlen', hwf', hlast'⟩ := ih (k + 1) (r :: rs) hinv' (by omega)
        rw [gridLoop_cons, hstep2]
        refine ⟨?_, ?_, ?_⟩
        · rw [List.length_cons, hlen']
          omega
        · intro s hs
          rcases List.mem_cons.mp hs with h1 | h1
          · rw [h1]; exact hslicewf
          · exact hwf' s h1
        · have hrestne : gridLoop gridOffset fuel (k + 1) (r :: rs) ≠ [] := by
            intro hnil
            rw [hnil] at hlen'
            simp at hlen'
          rw [List.getLastD_cons, getLastD_irrel_of_ne_nil hrestne _ [], hlast', hlastpt]
      · -- insert the interpolated point at the next window's first sample
        have hstep2 : (gridStep gridOffset k (p :: ps)).2 =
            interpolate (((p :: ps).takeWhile fun q => q.timeSamples <
                (k + 1) * kSamplesPerPaxel - gridOffset - 1).getLastD default) r
              ((k + 1) * kSamplesPerPaxel - gridOffset - 1 + 1) :: r :: rs := by
          rw [gridStep_snd_cons _ _ _ _ _ hrlast, if_pos (by simpa using hins)]
        have hinv' : GridInv gridOffset m Tend (k + 1)
            (interpolate (((p :: ps).takeWhile fun q => q.timeSamples <
                (k + 1) * kSamplesPerPaxel - gridOffset - 1).getLastD default) r
              ((k + 1) * kSamplesPerPaxel - gridOffset - 1 + 1) :: r :: rs) := by
          refine ⟨by simp, ?_, ?_, by omega, hk1m, ?_, ?_, hTlo, hThi⟩
          · simp only [List.map_cons, interpolate_timeSamples]
            rw [List.chain'_cons]
            have hh : (k + 1) * kSamplesPerPaxel - gridOffset - 1 + 1 < r.timeSamples := by
              rcases Nat.lt_or_ge ((k + 1) * kSamplesPerPaxel - gridOffset - 1 + 1)
                r.timeSamples with h | h
              · exact h
              · exact absurd (le_antisymm hrgt h).symm hins
            exact ⟨hh, by simpa using hremch⟩
          · simp only [List.headD_cons, interpolate_timeSamples]
            rw [hP] at hgo ⊢
            omega
          · intro x hx
            rcases List.mem_cons.mp hx with h1 | h1
            · rw [h1, interpolate_timeSamples]
              rw [hP] at hgo ⊢
              omega
            · exact hmod x (hremsub.subset h1)
          · simp only [List.map_cons, List.getLastD_cons]
            simp only [List.map_cons, List.getLastD_cons] at hremlast
            exact hremlast
        obtain ⟨hlen', hwf', hlast'⟩ := ih (k + 1) _ hinv' (by omega)
        rw [gridLoop_cons, hstep2]
        refine ⟨?_, ?_, ?_⟩
        · rw [List.length_cons, hlen']
          omega
        · intro s hs
          rcases List.mem_cons.mp hs with h1 | h1
          · rw [h1]; exact hslicewf
          · exact hwf' s h1
        · have hrestne : gridLoop gridOffset fuel (k + 1)
              (interpolate (((p :: ps).takeWhile fun q => q.timeSamples <
                  (k + 1) * kSamplesPerPaxel - gridOffset - 1).getLastD default) r
                ((k + 1) * kSamplesPerPaxel - gridOffset - 1 + 1) :: r :: rs) ≠ [] := by
            intro hnil
            rw [hnil] at hlen'
            simp at hlen'
          rw [List.getLastD_cons, getLastD_irrel_of_ne_nil hrestne _ [], hlast',
            List.getLastD_cons, getLastD_irrel r rs _ default, hlastpt]

set_option maxHeartbeats 1000000 in
/-- The grid outer loop from the first window on, for a list headed by a
point at relative time 0 (the partial's first point or its silent copy):
one slice per window, all well-formed; the first slice keeps the head and
shifts the rest by the grid offset; the final point of the final slice is
the final input point at its window-local time. -/
theorem gridLoop_spec_zero (g m Tend : ℕ) (hg1 : g < kSamplesPerPaxel - 1)
    (h0t : PhysicalEnvelopePoint) (t0 : List PhysicalEnvelopePoint)
    (hh0 : h0t.timeSamples = 0)
    (ht0ne : t0 ≠ [])
    (htch : List.Chain' (· < ·) (t0.map fun p => p.timeSamples))
    (hheadpos : 0 < (t0.map fun p => p.timeSamples).headD 0 + g)
    (hmodt : ∀ p ∈ t0, (p.timeSamples + g) % kSamplesPerPaxel ≠ kSamplesPerPaxel - 1)
    (htlast : (t0.map fun p => p.timeSamples).getLastD 0 = Tend)
    (hTlo : m * kSamplesPerPaxel ≤ Tend + g)
    (hThi : Tend + g < (m + 1) * kSamplesPerPaxel - 1)
    (fuel : ℕ) (hfuel : m + 2 ≤ fuel) :
    (gridLoop g fuel 0 (h0t :: t0)).length = m + 1 ∧
    (∀ s ∈ gridLoop g fuel 0 (h0t :: t0), SliceWF s) ∧
    (gridLoop g fuel 0 (h0t :: t0)).headD [] =
      h0t :: (t0.takeWhile fun q => q.timeSamples <
        (0 + 1) * kSamplesPerPaxel - g - 1).map
        (fun p => { p with timeSamples := p.timeSamples + g }) ∧
    ((gridLoop g fuel 0 (h0t :: t0)).getLastD []).getLastD default =
      { t0.getLastD default with timeSamples := Tend + g - m * kSamplesPerPaxel } := by
  have hP : kSamplesPerPaxel = 96000 := rfl
  obtain ⟨fuel, rfl⟩ : ∃ f, fuel = f + 1 := ⟨fuel - 1, by omega⟩
  have hqh : (fun q => decide (q.timeSamples <
      (0 + 1) * kSamplesPerPaxel - g - 1)) h0t = true := by
    rw [decide_eq_true_eq, hh0]
    rw [hP] at hg1 ⊢
    omega
  have hcons : ((h0t :: t0).takeWhile fun q => q.timeSamples <
      (0 + 1) * kSamplesPerPaxel - g - 1) =
      h0t :: (t0.takeWhile fun q => q.timeSamples <
        (0 + 1) * kSamplesPerPaxel - g - 1) :=
    List.takeWhile_cons_of_pos hqh
  have hdrop : ((h0t :: t0).dropWhile fun q => q.timeSamples <
      (0 + 1) * kSamplesPerPaxel - g - 1) =
      t0.dropWhile fun q => q.timeSamples <
        (0 + 1) * kSamplesPerPaxel - g - 1 :=
    List.dropWhile_cons_of_pos hqh
  have htwsub : List.Sublist (t0.takeWhile fun q => q.timeSamples <
      (0 + 1) * kSamplesPerPaxel - g - 1) t0 := List.takeWhile_sublist _
  have htwch : List.Chain' (· < ·) ((t0.takeWhile fun q => q.timeSamples <
      (0 + 1) * kSamplesPerPaxel - g - 1).map fun p => p.timeSamples) :=
    htch.sublist (htwsub.map fun p => p.timeSamples)
  have htwlt : ∀ x ∈ (t0.takeWhile fun q => q.timeSamples <
      (0 + 1) * kSamplesPerPaxel - g - 1),
      x.timeSamples < (0 + 1) * kSamplesPerPaxel - g - 1 := by
    intro x hx
    have := List.mem_takeWhile_imp hx
    simpa using this
  have hslice : (gridStep g 0 (h0t :: t0)).1 =
      h0t :: (t0.takeWhile fun q => q.timeSamples <
        (0 + 1) * kSamplesPerPaxel - g - 1).map
        (fun p => { p with timeSamples := p.timeSamples + g }) := by
    rw [gridStep_fst, hcons]
    simp only [gridSlice]
    rw [if_pos hh0]
  have hslicewf : SliceWF (gridStep g 0 (h0t :: t0)).1 := by
    rw [hslice]
    refine ⟨by simp, by simpa using hh0, ?_, ?_⟩
    · have hcomp : (((t0.takeWhile fun q => q.timeSamples <
          (0 + 1) * kSamplesPerPaxel - g - 1).map
          (fun p => { p with timeSamples := p.timeSamples + g })).map
          fun p => p.timeSamples) =
          ((t0.takeWhile fun q => q.timeSamples <
            (0 + 1) * kSamplesPerPaxel - g - 1).map
            fun p => p.timeSamples).map fun t => t + g := by
        simp [List.map_map]
      simp only [List.map_cons, hh0, hcomp]
      rw [List.chain'_cons']
      constructor
      · intro y hy
        cases htw : t0.takeWhile fun q => q.timeSamples <
            (0 + 1) * kSamplesPerPaxel - g - 1 with
        | nil => rw [htw] at hy; simp at hy
        | cons a as =>
          rw [htw] at hy
          simp only [List.map_cons, List.head?_cons, Option.mem_some_iff] at hy
          subst hy
          cases t0 with
          | nil => exact absurd rfl ht0ne
          | cons b t0' =>
            rw [List.takeWhile_cons] at htw
            by_cases hb : (b.timeSamples < (0 + 1) * kSamplesPerPaxel - g - 1)
            · rw [if_pos (by simpa using hb)] at htw
              have hab : a = b := (((List.cons.injEq ..).mp htw).1).symm
              subst hab
              simpa using hheadpos
            · rw [if_neg (by simpa using hb)] at htw
              simp at htw
      · exact chain'_map_add g htwch
    · intro x hx
      rcases List.mem_cons.mp hx with h1 | h1
      · rw [h1, hh0]
        exact Nat.zero_le _
      · obtain ⟨y, hy, rfl⟩ := List.mem_map.mp h1
        have := htwlt y hy
        show y.timeSamples + g ≤ kSamplesPerPaxel
        rw [hP] at this ⊢
        omega
  cases hremc : t0.dropWhile (fun q => q.timeSamples <
      (0 + 1) * kSamplesPerPaxel - g - 1) with
  | nil =>
    have htwall : (t0.takeWhile fun q => q.timeSamples <
        (0 + 1) * kSamplesPerPaxel - g - 1) = t0 := by
      have h := @List.takeWhile_append_dropWhile _ (fun q => decide (q.timeSamples <
        (0 + 1) * kSamplesPerPaxel - g - 1)) t0
      rw [hremc, List.append_nil] at h
      exact h
    have hTm : Tend ∈ t0.map fun p => p.timeSamples := by
      rw [← htlast]
      exact getLastD_mem (map_ne_nil _ ht0ne) 0
    have hTlt : Tend < (0 + 1) * kSamplesPerPaxel - g - 1 := by
      obtain ⟨y, hy, hyT⟩ := List.mem_map.mp hTm
      rw [← htwall] at hy
      have := htwlt y hy
      omega
    have hm0 : m = 0 := by
      rw [hP] at hTlt hTlo
      omega
    have hstep2 : (gridStep g 0 (h0t :: t0)).2 = [] :=
      gridStep_snd_nil _ _ _ (by rw [hdrop, hremc])
    rw [gridLoop_cons, hstep2, gridLoop_nil]
    refine ⟨by simp [hm0], ?_, ?_, ?_⟩
    · intro s hs
      rw [List.mem_singleton] at hs
      rw [hs]
      exact hslicewf
    · show (gridStep g 0 (h0t :: t0)).1 = _
      exact hslice
    · show ((gridStep g 0 (h0t :: t0)).1).getLastD default = _
      rw [hslice, List.getLastD_cons,
        getLastD_irrel_of_ne_nil (map_ne_nil _ (by rw [htwall]; exact ht0ne)) _ default,
        getLastD_map_eq _ _ default _ (by rw [htwall]; exact ht0ne), htwall]
      have hTeq : (t0.getLastD default).timeSamples = Tend := by
        rw [← htlast, getLastD_map_eq (fun p => p.timeSamples) t0 default 0 ht0ne]
      have : (t0.getLastD default).timeSamples + g =
          Tend + g - m * kSamplesPerPaxel := by
        rw [hTeq, hm0]
        omega
      rw [this]
  | cons r rs =>
    have hrlast : ((h0t :: t0).dropWhile fun q => q.timeSamples <
        (0 + 1) * kSamplesPerPaxel - g - 1) = r :: rs := by
      rw [hdrop, hremc]
    have hrnotlt := dropWhile_head_not hremc
    have hrge : (0 + 1) * kSamplesPerPaxel - g - 1 ≤ r.timeSamples := by
      simp only [decide_eq_true_eq] at hrnotlt
      omega
    have hremsub : List.Sublist (r :: rs) t0 := by
      rw [← hremc]
      exact List.dropWhile_sublist _
    have hrmem : r ∈ t0 := hremsub.subset (List.mem_cons_self r rs)
    have hrgt : (0 + 1) * kSamplesPerPaxel - g - 1 + 1 ≤ r.timeSamples := by
      have hm := hmodt r hrmem
      rw [hP] at hrge hm hg1 ⊢
      omega
    have hremch : List.Chain' (· < ·) ((r :: rs).map fun p => p.timeSamples) :=
      htch.sublist (hremsub.map fun p => p.timeSamples)
    have hsplit : t0 = (t0.takeWhile fun q => q.timeSamples <
        (0 + 1) * kSamplesPerPaxel - g - 1) ++ (r :: rs) := by
      rw [← hremc]
      exact (@List.takeWhile_append_dropWhile _ (fun q => decide (q.timeSamples <
        (0 + 1) * kSamplesPerPaxel - g - 1)) t0).symm
    have hremlast : ((r :: rs).map fun p => p.timeSamples).getLastD 0 = Tend := by
      rw [← htlast]
      conv_rhs => rw [hsplit]
      rw [List.map_append, getLastD_append_right _ (by simp) 0]
    have hTger : r.timeSamples ≤ Tend := by
      have := chain'_headD_le_getLastD hremch (by simp)
      rw [hremlast] at this
      simpa using this
    have h1m : 1 ≤ m := by
      rw [hP] at hrgt hThi hg1
      omega
    have hlastpt : t0.getLastD default = (r :: rs).getLastD default := by
      conv_lhs => rw [hsplit]
      rw [getLastD_append_right _ (by simp) default]
    have hgo : g < kSamplesPerPaxel := by
      rw [hP] at hg1 ⊢
      omega
    by_cases hins : r.timeSamples = (0 + 1) * kSamplesPerPaxel - g - 1 + 1
    · have hstep2 : (gridStep g 0 (h0t :: t0)).2 = r :: rs := by
        rw [gridStep_snd_cons _ _ _ _ _ hrlast, if_neg (by simpa using hins)]
      have hinv' : GridInv g m Tend 1 (r :: rs) := by
        refine ⟨by simp, hremch, ?_, le_refl 1, h1m, ?_, hremlast, hTlo, hThi⟩
        · simp only [List.headD_cons]
          rw [hins]
          rw [hP] at hg1 ⊢
          omega
        · intro x hx
          exact hmodt x (hremsub.subset hx)
      obtain ⟨hlen', hwf', hlast'⟩ := gridLoop_spec g m Tend hgo fuel 1 (r :: rs)
        hinv' (by omega)
      rw [gridLoop_cons, hstep2]
      refine ⟨?_, ?_, ?_, ?_⟩
      · rw [List.length_cons, hlen']
        omega
      · intro s hs
        rcases List.mem_cons.mp hs with h1 | h1
        · rw [h1]; exact hslicewf
        · exact hwf' s h1
      · show (gridStep g 0 (h0t :: t0)).1 = _
        exact hslice
      · have hrestne : gridLoop g fuel 1 (r :: rs) ≠ [] := by
          intro hnil
          rw [hnil] at hlen'
          simp at hlen'
        rw [List.getLastD_cons, getLastD_irrel_of_ne_nil hrestne _ [], hlast', hlastpt]
    · have hstep2 : (gridStep g 0 (h0t :: t0)).2 =
          interpolate (((h0t :: t0).takeWhile fun q => q.timeSamples <
              (0 + 1) * kSamplesPerPaxel - g - 1).getLastD default) r
            ((0 + 1) * kSamplesPerPaxel - g - 1 + 1) :: r :: rs := by
        rw [gridStep_snd_cons _ _ _ _ _ hrlast, if_pos (by simpa using hins)]
      have hinv' : GridInv g m Tend 1
          (interpolate (((h0t :: t0).takeWhile fun q => q.timeSamples <
              (0 + 1) * kSamplesPerPaxel - g - 1).getLastD default) r
            ((0 + 1) * kSamplesPerPaxel - g - 1 + 1) :: r :: rs) := by
        refine ⟨by simp, ?_, ?_, le_refl 1, h1m, ?_, ?_, hTlo, hThi⟩
        · simp only [List.map_cons, interpolate_timeSamples]
          rw [List.chain'_cons]
          have hh : (0 + 1) * kSamplesPerPaxel - g - 1 + 1 < r.timeSamples := by
            rcases Nat.lt_or_ge ((0 + 1) * kSamplesPerPaxel - g - 1 + 1)
              r.timeSamples with h | h
            · exact h
            · exact absurd (le_antisymm hrgt h).symm hins
          exact ⟨hh, by simpa using hremch⟩
        · simp only [List.headD_cons, interpolate_timeSamples]
          rw [hP] at hg1 ⊢
          omega
        · intro x hx
          rcases List.mem_cons.mp hx with h1 | h1
          · rw [h1, interpolate_timeSamples]
            rw [hP] at hg1 ⊢
            omega
          · exact hmodt x (hremsub.subset h1)
        · simp only [List.map_cons, List.getLastD_cons]
          simp only [List.map_cons, List.getLastD_cons] at hremlast
          exact hremlast
      obtain ⟨hlen', hwf', hlast'⟩ := gridLoop_spec g m Tend hgo fuel 1 _ hinv' (by omega)
      rw [gridLoop_cons, hstep2]
      refine ⟨?_, ?_, ?_, ?_⟩
      · rw [List.length_cons, hlen']
        omega
      · intro s hs
        rcases List.mem_cons.mp hs with h1 | h1
        · rw [h1]; exact hslicewf
        · exact hwf' s h1
      · show (gridStep g 0 (h0t :: t0)).1 = _
        exact hslice
      · have hrestne : gridLoop g fuel 1
            (interpolate (((h0t :: t0).takeWhile fun q => q.timeSamples <
                (0 + 1) * kSamplesPerPaxel - g - 1).getLastD default) r
              ((0 + 1) * kSamplesPerPaxel - g - 1 + 1) :: r :: rs) ≠ [] := by
          intro hnil
          rw [hnil] at hlen'
          simp at hlen'
        rw [List.getLastD_cons, getLastD_irrel_of_ne_nil hrestne _ [], hlast',
          List.getLastD_cons, getLastD_irrel r rs _ default, hlastpt]

theorem getD_zero_eq_headD {α : Type _} (l : List α) (d : α) :
    l.getD 0 d = l.headD d := by
  cases l with
  | nil => rfl
  | cons a t => rfl

theorem renderSingle_getD_stage (cur0 : PhysicalEnvelopePoint)
    (rest0 : List PhysicalEnvelopePoint)
    (h0 : cur0.timeSamples = 0)
    (hasc : List.Chain' (· < ·) ((cur0 :: rest0).map fun c => c.timeSamples))
    (hle : ∀ c ∈ cur0 :: rest0, c.timeSamples ≤ kSamplesPerPaxel)
    (s : ℕ) (hs : s < kSamplesPerPaxel)
    (g : PhysicalEnvelopePoint) (hg : g ∈ stageAt (cur0 :: rest0) s) :
    (renderSinglePaxelAudio (cur0 :: rest0)).getD s 0 =
      rtrunc ((Real.sin (computeCycleAccumulator g.cycleAccumulator g.frequency
          g.frequencyRate (s - g.timeSamples)) *
        (g.amplitude + g.amplitudeRate * ((s - g.timeSamples : ℕ) : ℝ))) *
        (kMaxSamplePaxelInt : ℝ)) := by
  obtain ⟨hlen, hel⟩ := precomputePaxel_spec rest0 cur0 hasc hle
  simp only [h0, Nat.sub_zero, Nat.zero_add] at hlen hel
  have hspec := hel s hs g hg
  rw [List.getD_eq_getElem?_getD, renderSinglePaxelAudio,
    List.getElem?_take_of_lt hs,
    List.getElem?_append_left (by rw [List.length_map, hlen]; exact hs),
    List.getElem?_map, hspec]
  rfl

theorem renderSingle_getD_silent (slice : List PhysicalEnvelopePoint)
    (hwf : SliceWF slice) (s : ℕ) (hs : s < kSamplesPerPaxel)
    (g : PhysicalEnvelopePoint) (hg : g ∈ stageAt slice s)
    (ha : g.amplitude = 0) (har : g.amplitudeRate = 0) :
    (renderSinglePaxelAudio slice).getD s 0 = 0 := by
  obtain ⟨hne, hh, hch, hle⟩ := hwf
  obtain ⟨c0, r0, rfl⟩ : ∃ c0 r0, slice = c0 :: r0 := by
    cases slice with
    | nil => exact absurd rfl hne
    | cons a t => exact ⟨a, t, rfl⟩
  rw [renderSingle_getD_stage c0 r0 (by simpa using hh) hch hle s hs g hg, ha, har]
  have hval : (Real.sin (computeCycleAccumulator g.cycleAccumulator g.frequency
      g.frequencyRate (s - g.timeSamples)) *
      ((0 : ℝ) + 0 * ((s - g.timeSamples : ℕ) : ℝ))) * (kMaxSamplePaxelInt : ℝ) = 0 := by
    ring
  rw [hval, rtrunc, if_neg (by norm_num)]
  exact Int.floor_zero

theorem renderAudio_getD (L : List (List PhysicalEnvelopePoint)) :
    ∀ j s : ℕ, s < kSamplesPerPaxel → j < L.length →
      (renderAudio L).getD (j * kSamplesPerPaxel + s) 0 =
        (renderSinglePaxelAudio (L.getD j [])).getD s 0 := by
  induction L with
  | nil =>
    intro j s _ hj
    simp at hj
  | cons x xs ih =>
    intro j s hs hj
    cases j with
    | zero =>
      simp only [renderAudio, List.map_cons, List.flatten_cons, Nat.zero_mul,
        Nat.zero_add, List.getD_cons_zero]
      rw [List.getD_eq_getElem?_getD,
        List.getElem?_append_left (by rw [renderSinglePaxelAudio_length]; exact hs),
        ← List.getD_eq_getElem?_getD]
    | succ j =>
      simp only [renderAudio, List.map_cons, List.flatten_cons, List.getD_cons_succ]
      have hidx : kSamplesPerPaxel ≤ (j + 1) * kSamplesPerPaxel + s := by
        have h1 : 1 * kSamplesPerPaxel ≤ (j + 1) * kSamplesPerPaxel :=
          Nat.mul_le_mul_right kSamplesPerPaxel (by omega)
        omega
      rw [List.getD_eq_getElem?_getD,
        List.getElem?_append_right (by rw [renderSinglePaxelAudio_length]; exact hidx),
        renderSinglePaxelAudio_length,
        show (j + 1) * kSamplesPerPaxel + s - kSamplesPerPaxel =
          j * kSamplesPerPaxel + s from by rw [Nat.succ_mul]; omega,
        ← List.getD_eq_getElem?_getD]
      exact ih j s hs (by simpa using hj)

theorem stageAt_getLastD (l : List PhysicalEnvelopePoint) (s : ℕ) (hne : l ≠ [])
    (hle : (l.getLastD default).timeSamples ≤ s) :
    stageAt l s = some (l.getLastD default) := by
  induction l with
  | nil => exact absurd rfl hne
  | cons a t ih =>
    cases t with
    | nil =>
      have hla : ([a] : List PhysicalEnvelopePoint).getLastD default = a := rfl
      rw [hla] at hle ⊢
      unfold stageAt
      rw [List.filter_cons_of_pos (by simpa using hle)]
      rfl
    | cons b u =>
      have hlast_eq : ((a :: b :: u).getLastD default) = ((b :: u).getLastD default) := by
        rw [List.getLastD_cons, getLastD_irrel b u a default]
      rw [hlast_eq] at hle ⊢
      have hih := ih (by simp) hle
      unfold stageAt at hih ⊢
      rw [List.filter_cons]
      by_cases hq : a.timeSamples ≤ s
      · rw [if_pos (by simpa using hq)]
        rw [getLast?_cons_of_ne_nil]
        · exact hih
        · intro hnil
          rw [hnil] at hih
          simp at hih
      · rw [if_neg (by simpa using hq)]
        exact hih

theorem headD_mem {α : Type _} {l : List α} (h : l ≠ []) (d : α) : l.headD d ∈ l := by
  cases l with
  | nil => exact absurd rfl h
  | cons a t => exact List.mem_cons_self a t

theorem silentBack_timeSamples (c : PhysicalEnvelopePoint) :
    (silentBack c).timeSamples = c.timeSamples + 1 := rfl

set_option maxHeartbeats 1600000 in
/-- C10 (amended): for a partial whose fused point list starts at relative
sample 0, is strictly ascending, never places a point on the last sample of
a paxel window, and whose end sample is at offset at most
`kSamplesPerPaxel - 3` into its window, `renderAudio` returns exactly
`kSamplesPerPaxel * (lastPaxelIndex - firstPaxelIndex + 1)` samples — a whole
number of paxel windows, not the partial's duration — and the buffer is
exactly 0 before the partial's start sample and after its end sample, via
the prepended and appended silent fused points. -/
theorem renderAudio_grid_spec (startSample endSample : ℕ)
    (c0 r1 : PhysicalEnvelopePoint) (rest : List PhysicalEnvelopePoint)
    (h0 : c0.timeSamples = 0)
    (hasc : List.Chain' (· < ·) ((c0 :: r1 :: rest).map fun p => p.timeSamples))
    (hend : endSample = startSample +
      ((c0 :: r1 :: rest).map fun p => p.timeSamples).getLastD 0)
    (hmod : ∀ p ∈ c0 :: r1 :: rest,
      (p.timeSamples + startSample % kSamplesPerPaxel) % kSamplesPerPaxel ≠
        kSamplesPerPaxel - 1)
    (hendmod : endSample % kSamplesPerPaxel < kSamplesPerPaxel - 2) :
    (divideIntoPaxelGrid startSample endSample (c0 :: r1 :: rest)).length =
      lastPaxelIndex endSample - firstPaxelIndex startSample + 1 ∧
    (renderAudio (divideIntoPaxelGrid startSample endSample (c0 :: r1 :: rest))).length =
      kSamplesPerPaxel * (lastPaxelIndex endSample - firstPaxelIndex startSample + 1) ∧
    (∀ b : ℕ, b < startSample % kSamplesPerPaxel →
      (renderAudio (divideIntoPaxelGrid startSample endSample
        (c0 :: r1 :: rest))).getD b 0 = 0) ∧
    (∀ b : ℕ, endSample + startSample % kSamplesPerPaxel - startSample < b →
      b < kSamplesPerPaxel * (lastPaxelIndex endSample - firstPaxelIndex startSample + 1) →
      (renderAudio (divideIntoPaxelGrid startSample endSample
        (c0 :: r1 :: rest))).getD b 0 = 0) := by
  have hP : kSamplesPerPaxel = 96000 := rfl
  obtain ⟨D, hD⟩ : ∃ D, ((c0 :: r1 :: rest).map fun p => p.timeSamples).getLastD 0 = D :=
    ⟨_, rfl⟩
  rw [hD] at hend
  have hr1pos : 0 < r1.timeSamples := by
    have := (List.chain'_cons.mp (by simpa using hasc)).1
    rw [h0] at this
    simpa using this
  have hDr1 : r1.timeSamples ≤ D := by
    have hch' : List.Chain' (· < ·) ((r1 :: rest).map fun p => p.timeSamples) :=
      (List.chain'_cons.mp (by simpa using hasc)).2
    have h1 := chain'_headD_le_getLastD hch' (by simp)
    have h2 : ((r1 :: rest).map fun p => p.timeSamples).getLastD 0 = D := by
      rw [← hD]
      simp only [List.map_cons, List.getLastD_cons]
    rw [h2] at h1
    simpa using h1
  have hg1 : startSample % kSamplesPerPaxel < kSamplesPerPaxel - 1 := by
    have hm0 := hmod c0 (List.mem_cons_self c0 (r1 :: rest))
    rw [h0] at hm0
    rw [hP] at hm0 ⊢
    omega
  have hfirstidx : firstPaxelIndex startSample = startSample / kSamplesPerPaxel := by
    show (startSample - startSample % kSamplesPerPaxel) / kSamplesPerPaxel = _
    rw [hP]
    omega
  have hlastidx : lastPaxelIndex endSample = endSample / kSamplesPerPaxel := by
    show (endSample - endSample % kSamplesPerPaxel + (kSamplesPerPaxel - 1)) /
      kSamplesPerPaxel = _
    rw [hP]
    omega
  have hback : endSample ≠ lastPaxelEndTimeSamples endSample := by
    show endSample ≠ endSample - endSample % kSamplesPerPaxel + (kSamplesPerPaxel - 1)
    rw [hP]
    rw [hP] at hendmod
    omega
  have hclt : ((c0 :: r1 :: rest).getLastD default).timeSamples = D := by
    rw [← hD, getLastD_map_eq (fun p => p.timeSamples) (c0 :: r1 :: rest) default 0 (by simp)]
  have hsmod : startSample % kSamplesPerPaxel < kSamplesPerPaxel := by
    rw [hP] at hg1 ⊢
    omega
  have hsbmod : (D + 1 + startSample % kSamplesPerPaxel) % kSamplesPerPaxel ≠
      kSamplesPerPaxel - 1 := by
    rw [hP] at hendmod ⊢
    omega
  have hTlo : (endSample / kSamplesPerPaxel - startSample / kSamplesPerPaxel) *
      kSamplesPerPaxel ≤ D + 1 + startSample % kSamplesPerPaxel := by
    rw [hP]
    omega
  have hThi : D + 1 + startSample % kSamplesPerPaxel <
      ((endSample / kSamplesPerPaxel - startSample / kSamplesPerPaxel) + 1) *
        kSamplesPerPaxel - 1 := by
    rw [hP] at hendmod ⊢
    omega
  by_cases hg0 : startSample % kSamplesPerPaxel = 0
  · -- the start sample is on the paxel grid: no silent front point
    have hcond1 : ¬ startSample ≠ startSample - startSample % kSamplesPerPaxel := by
      rw [hP] at hg0 ⊢
      omega
    have htch : List.Chain' (· < ·) (((r1 :: rest) ++
        [silentBack ((c0 :: r1 :: rest).getLastD default)]).map fun p => p.timeSamples) := by
      rw [List.map_append]
      simp only [List.map_cons, List.map_nil]
      refine chain'_concat_lt ((List.chain'_cons.mp (by simpa using hasc)).2) ?_
      intro y hy
      rw [getLast?_eq_getLastD (by simp), Option.mem_some_iff] at hy
      subst hy
      have h2 : (r1.timeSamples :: rest.map fun p => p.timeSamples).getLastD 0 = D := by
        rw [← hD]
        simp only [List.map_cons, List.getLastD_cons]
      rw [h2, silentBack_timeSamples, hclt]
      omega
    have htlast : (((r1 :: rest) ++
        [silentBack ((c0 :: r1 :: rest).getLastD default)]).map
          fun p => p.timeSamples).getLastD 0 = D + 1 := by
      rw [List.map_append, getLastD_append_right _ (by simp) 0]
      show (silentBack ((c0 :: r1 :: rest).getLastD default)).timeSamples = D + 1
      rw [silentBack_timeSamples, hclt]
    have hspec := gridLoop_spec_zero (startSample % kSamplesPerPaxel)
      (endSample / kSamplesPerPaxel - startSample / kSamplesPerPaxel) (D + 1) hg1
      c0 ((r1 :: rest) ++ [silentBack ((c0 :: r1 :: rest).getLastD default)])
      h0 (by simp) htch
      (by
        simp only [List.map_append, List.map_cons, List.headD_cons]
        exact Nat.add_pos_left hr1pos _)
      (by
        intro p hp
        rcases List.mem_append.mp hp with h1 | h1
        · exact hmod p (List.mem_cons_of_mem c0 h1)
        · rw [List.mem_singleton] at h1
          rw [h1, silentBack_timeSamples, hclt]
          exact hsbmod)
      htlast hTlo hThi
      (((c0 :: r1 :: rest) ++ [silentBack ((c0 :: r1 :: rest).getLastD default)]).length +
        endSample / kSamplesPerPaxel + 2)
      (by
        rw [hP]
        simp only [List.length_append, List.length_cons]
        omega)
    obtain ⟨hlen, hwf, hheadsl, hlastsl⟩ := hspec
    have hgridrw : divideIntoPaxelGrid startSample endSample (c0 :: r1 :: rest) =
        gridLoop (startSample % kSamplesPerPaxel)
          (((c0 :: r1 :: rest) ++
            [silentBack ((c0 :: r1 :: rest).getLastD default)]).length +
            endSample / kSamplesPerPaxel + 2) 0
          (c0 :: ((r1 :: rest) ++
            [silentBack ((c0 :: r1 :: rest).getLastD default)])) := by
      simp only [divideIntoPaxelGrid]
      rw [if_neg hcond1, if_pos hback]
      rw [show startSample - (startSample - startSample % kSamplesPerPaxel) =
        startSample % kSamplesPerPaxel from by rw [hP]; omega]
      rfl
    obtain ⟨G, hG⟩ : ∃ G, gridLoop (startSample % kSamplesPerPaxel)
        (((c0 :: r1 :: rest) ++
          [silentBack ((c0 :: r1 :: rest).getLastD default)]).length +
          endSample / kSamplesPerPaxel + 2) 0
        (c0 :: ((r1 :: rest) ++
          [silentBack ((c0 :: r1 :: rest).getLastD default)])) = G := ⟨_, rfl⟩
    rw [hG] at hlen hwf hheadsl hlastsl
    rw [hgridrw, hG]
    have hcount : lastPaxelIndex endSample - firstPaxelIndex startSample + 1 =
        (endSample / kSamplesPerPaxel - startSample / kSamplesPerPaxel) + 1 := by
      rw [hlastidx, hfirstidx]
    have hgridne : G ≠ [] := by
      intro hnil
      rw [hnil] at hlen
      simp at hlen
    refine ⟨by rw [hcount]; exact hlen, ?_, ?_, ?_⟩
    · rw [renderAudio_length, hcount, hlen]
    · intro b hb
      rw [hg0] at hb
      omega
    · intro b hb1 hb2
      rw [hcount] at hb2
      have hb1' : D + startSample % kSamplesPerPaxel < b := by
        rw [hP] at hb1 ⊢
        omega
      have hmlo : (endSample / kSamplesPerPaxel - startSample / kSamplesPerPaxel) *
          kSamplesPerPaxel ≤ b := by
        rw [hP] at hTlo hb1' ⊢
        omega
      have hs : b - (endSample / kSamplesPerPaxel - startSample / kSamplesPerPaxel) *
          kSamplesPerPaxel < kSamplesPerPaxel := by
        rw [hP] at hb2 hmlo ⊢
        omega
      have hbsplit : b = (endSample / kSamplesPerPaxel - startSample / kSamplesPerPaxel) *
          kSamplesPerPaxel + (b - (endSample / kSamplesPerPaxel -
            startSample / kSamplesPerPaxel) * kSamplesPerPaxel) := by
        omega
      rw [hbsplit, renderAudio_getD _ _ _ hs (by rw [hlen]; omega)]
      have hgetd := getD_length_sub_one hgridne ([] : List PhysicalEnvelopePoint)
      rw [hlen, Nat.add_sub_cancel] at hgetd
      rw [hgetd]
      have hlastt0 : ((r1 :: rest) ++
          [silentBack ((c0 :: r1 :: rest).getLastD default)]).getLastD default =
          silentBack ((c0 :: r1 :: rest).getLastD default) := by
        rw [getLastD_append_right _ (by simp) default]
        rfl
      rw [hlastt0] at hlastsl
      have hwfl := hwf _ (getLastD_mem hgridne [])
      have hstage := stageAt_getLastD (G.getLastD []) (b - (endSample / kSamplesPerPaxel -
          startSample / kSamplesPerPaxel) * kSamplesPerPaxel) hwfl.1
        (by
          rw [hlastsl]
          show D + 1 + startSample % kSamplesPerPaxel -
            (endSample / kSamplesPerPaxel - startSample / kSamplesPerPaxel) *
              kSamplesPerPaxel ≤ _
          rw [hP] at hb1' hmlo ⊢
          omega)
      refine renderSingle_getD_silent _ hwfl _ hs ((G.getLastD []).getLastD default)
        (by rw [hstage]; rfl) ?_ ?_
      · rw [hlastsl]
        rfl
      · rw [hlastsl]
        rfl
  · -- the start sample is off the paxel grid: a silent front point is added
    have hcond1 : startSample ≠ startSample - startSample % kSamplesPerPaxel := by
      rw [hP]
      rw [hP] at hg0
      omega
    have htch : List.Chain' (· < ·) (((c0 :: r1 :: rest) ++
        [silentBack ((c0 :: r1 :: rest).getLastD default)]).map fun p => p.timeSamples) := by
      rw [List.map_append]
      simp only [List.map_cons, List.map_nil]
      refine chain'_concat_lt (by simpa using hasc) ?_
      intro y hy
      rw [getLast?_eq_getLastD (by simp), Option.mem_some_iff] at hy
      subst hy
      have h2 : (c0.timeSamples :: r1.timeSamples ::
          rest.map fun p => p.timeSamples).getLastD 0 = D := by
        rw [← hD]
        simp only [List.map_cons]
      rw [h2, silentBack_timeSamples, hclt]
      omega
    have htlast : (((c0 :: r1 :: rest) ++
        [silentBack ((c0 :: r1 :: rest).getLastD default)]).map
          fun p => p.timeSamples).getLastD 0 = D + 1 := by
      rw [List.map_append, getLastD_append_right _ (by simp) 0]
      show (silentBack ((c0 :: r1 :: rest).getLastD default)).timeSamples = D + 1
      rw [silentBack_timeSamples, hclt]
    have hspec := gridLoop_spec_zero (startSample % kSamplesPerPaxel)
      (endSample / kSamplesPerPaxel - startSample / kSamplesPerPaxel) (D + 1) hg1
      (silentFront c0)
      ((c0 :: r1 :: rest) ++ [silentBack ((c0 :: r1 :: rest).getLastD default)])
      rfl (by simp) htch
      (by
        rw [List.map_append]
        simp only [List.map_cons, List.map_nil]
        rw [headD_concat _ _ _ (by simp), List.headD_cons, h0]
        exact Nat.pos_of_ne_zero fun hc => hg0 (by omega))
      (by
        intro p hp
        rcases List.mem_append.mp hp with h1 | h1
        · exact hmod p h1
        · rw [List.mem_singleton] at h1
          rw [h1, silentBack_timeSamples, hclt]
          exact hsbmod)
      htlast hTlo hThi
      (((silentFront c0 :: c0 :: r1 :: rest) ++
        [silentBack ((c0 :: r1 :: rest).getLastD default)]).length +
        endSample / kSamplesPerPaxel + 2)
      (by
        rw [hP]
        simp only [List.length_append, List.length_cons]
        omega)
    obtain ⟨hlen, hwf, hheadsl, hlastsl⟩ := hspec
    have hgridrw : divideIntoPaxelGrid startSample endSample (c0 :: r1 :: rest) =
        gridLoop (startSample % kSamplesPerPaxel)
          (((silentFront c0 :: c0 :: r1 :: rest) ++
            [silentBack ((c0 :: r1 :: rest).getLastD default)]).length +
            endSample / kSamplesPerPaxel + 2) 0
          (silentFront c0 :: ((c0 :: r1 :: rest) ++
            [silentBack ((c0 :: r1 :: rest).getLastD default)])) := by
      simp only [divideIntoPaxelGrid]
      rw [if_pos hcond1, if_pos hback]
      rw [show startSample - (startSample - startSample % kSamplesPerPaxel) =
        startSample % kSamplesPerPaxel from by rw [hP]; omega]
      rfl
    obtain ⟨G, hG⟩ : ∃ G, gridLoop (startSample % kSamplesPerPaxel)
        (((silentFront c0 :: c0 :: r1 :: rest) ++
          [silentBack ((c0 :: r1 :: rest).getLastD default)]).length +
          endSample / kSamplesPerPaxel + 2) 0
        (silentFront c0 :: ((c0 :: r1 :: rest) ++
          [silentBack ((c0 :: r1 :: rest).getLastD default)])) = G := ⟨_, rfl⟩
    rw [hG] at hlen hwf hheadsl hlastsl
    rw [hgridrw, hG]
    have hcount : lastPaxelIndex endSample - firstPaxelIndex startSample + 1 =
        (endSample / kSamplesPerPaxel - startSample / kSamplesPerPaxel) + 1 := by
      rw [hlastidx, hfirstidx]
    have hgridne : G ≠ [] := by
      intro hnil
      rw [hnil] at hlen
      simp at hlen
    refine ⟨by rw [hcount]; exact hlen, ?_, ?_, ?_⟩
    · rw [renderAudio_length, hcount, hlen]
    · intro b hb
      have hsb : b < kSamplesPerPaxel := by
        rw [hP] at hb ⊢
        omega
      rw [show b = 0 * kSamplesPerPaxel + b from by omega]
      rw [renderAudio_getD _ _ _ hsb (by rw [hlen]; omega)]
      rw [getD_zero_eq_headD, hheadsl]
      have hwf0 := hwf _ (headD_mem hgridne ([] : List PhysicalEnvelopePoint))
      rw [hheadsl] at hwf0
      have hstage0 : stageAt
          (silentFront c0 ::
            (((c0 :: r1 :: rest) ++
              [silentBack ((c0 :: r1 :: rest).getLastD default)]).takeWhile
                (fun q => q.timeSamples <
                  (0 + 1) * kSamplesPerPaxel - startSample % kSamplesPerPaxel - 1)).map
              (fun p => { p with timeSamples := p.timeSamples +
                startSample % kSamplesPerPaxel }))
          b =
          some (silentFront c0) := by
        refine stageAt_cons_of_filter_nil _ _ _ (Nat.zero_le _) ?_
        rw [List.filter_eq_nil_iff]
        intro x hx
        obtain ⟨y, hy, rfl⟩ := List.mem_map.mp hx
        simp only [decide_eq_true_eq]
        show ¬ (y.timeSamples + startSample % kSamplesPerPaxel ≤ b)
        omega
      exact renderSingle_getD_silent _ hwf0 _ hsb (silentFront c0)
        (by rw [hstage0]; rfl) rfl rfl
    · intro b hb1 hb2
      rw [hcount] at hb2
      have hb1' : D + startSample % kSamplesPerPaxel < b := by
        rw [hP] at hb1 ⊢
        omega
      have hmlo : (endSample / kSamplesPerPaxel - startSample / kSamplesPerPaxel) *
          kSamplesPerPaxel ≤ b := by
        rw [hP] at hTlo hb1' ⊢
        omega
      have hs : b - (endSample / kSamplesPerPaxel - startSample / kSamplesPerPaxel) *
          kSamplesPerPaxel < kSamplesPerPaxel := by
        rw [hP] at hb2 hmlo ⊢
        omega
      have hbsplit : b = (endSample / kSamplesPerPaxel - startSample / kSamplesPerPaxel) *
          kSamplesPerPaxel + (b - (endSample / kSamplesPerPaxel -
            startSample / kSamplesPerPaxel) * kSamplesPerPaxel) := by
        omega
      rw [hbsplit, renderAudio_getD _ _ _ hs (by rw [hlen]; omega)]
      have hgetd := getD_length_sub_one hgridne ([] : List PhysicalEnvelopePoint)
      rw [hlen, Nat.add_sub_cancel] at hgetd
      rw [hgetd]
      have hlastt0 : ((c0 :: r1 :: rest) ++
          [silentBack ((c0 :: r1 :: rest).getLastD default)]).getLastD default =
          silentBack ((c0 :: r1 :: rest).getLastD default) := by
        rw [getLastD_append_right _ (by simp) default]
        rfl
      rw [hlastt0] at hlastsl
      have hwfl := hwf _ (getLastD_mem hgridne [])
      have hstage := stageAt_getLastD (G.getLastD []) (b - (endSample / kSamplesPerPaxel -
          startSample / kSamplesPerPaxel) * kSamplesPerPaxel) hwfl.1
        (by
          rw [hlastsl]
          show D + 1 + startSample % kSamplesPerPaxel -
            (endSample / kSamplesPerPaxel - startSample / kSamplesPerPaxel) *
              kSamplesPerPaxel ≤ _
          rw [hP] at hb1' hmlo ⊢
          omega)
      refine renderSingle_getD_silent _ hwfl _ hs ((G.getLastD []).getLastD default)
        (by rw [hstage]; rfl) ?_ ?_
      · rw [hlastsl]
        rfl
      · rw [hlastsl]
        rfl

/-- The two fused points of the C10 counterexample: a partial starting at
absolute sample 0 whose last point falls on sample 95999 — the last sample
of its paxel window. -/
noncomputable def gridCounterexampleP0 : PhysicalEnvelopePoint :=
  ⟨0, 0, 0.005, 0, 0.5, 0⟩

noncomputable def gridCounterexampleP1 : PhysicalEnvelopePoint :=
  ⟨95999, 100, 0.005, 0, 0.5, 0⟩

/-- Counterexample to C10: when the partial's end sample is the last sample
of its paxel window (endSample % kSamplesPerPaxel = kSamplesPerPaxel - 1),
no silent point is appended, the last fused point is never consumed by its
window's inner loop, and the grid produces an extra paxel: `renderAudio`
returns 2 * kSamplesPerPaxel samples although
lastPaxelIndex - firstPaxelIndex + 1 = 1. -/
theorem renderAudio_length_counterexample :
    gridCounterexampleP0.timeSamples = 0 ∧
    (95999 : ℕ) = 0 + (([gridCounterexampleP0, gridCounterexampleP1].map
      fun p => p.timeSamples).getLastD 0) ∧
    List.Chain' (· < ·) ([gridCounterexampleP0, gridCounterexampleP1].map
      fun p => p.timeSamples) ∧
    (renderAudio (divideIntoPaxelGrid 0 95999
      [gridCounterexampleP0, gridCounterexampleP1])).length ≠
      kSamplesPerPaxel * (lastPaxelIndex 95999 - firstPaxelIndex 0 + 1) := by
  refine ⟨rfl, rfl, ?_, ?_⟩
  · show List.Chain' (· < ·) [0, 95999]
    exact List.chain'_cons.mpr ⟨by norm_num, List.chain'_singleton _⟩
  · rw [renderAudio_length,
      show (divideIntoPaxelGrid 0 95999
        [gridCounterexampleP0, gridCounterexampleP1]).length = 2 from rfl,
      show lastPaxelIndex 95999 = 0 from rfl,
      show firstPaxelIndex 0 = 0 from rfl]
    decide


/-- The two fused points of the C10 witness: a partial from absolute sample
0 to sample 48000, mid-window. -/
noncomputable def gridWitnessP0 : PhysicalEnvelopePoint :=
  ⟨0, 0, 0.005, 0, 0.5, 0⟩

noncomputable def gridWitnessP1 : PhysicalEnvelopePoint :=
  ⟨48000, 100, 0.005, 0, 0.5, 0⟩

/-- Witness for C10 at a concrete input: a half-window partial satisfies
the hypotheses, its grid has exactly one paxel and its rendered buffer has
exactly one window of samples. -/
theorem renderAudio_grid_spec_witness :
    gridWitnessP0.timeSamples = 0 ∧
    (48000 : ℕ) % kSamplesPerPaxel < kSamplesPerPaxel - 2 ∧
    (divideIntoPaxelGrid 0 48000 [gridWitnessP0, gridWitnessP1]).length =
      lastPaxelIndex 48000 - firstPaxelIndex 0 + 1 ∧
    (renderAudio (divideIntoPaxelGrid 0 48000
      [gridWitnessP0, gridWitnessP1])).length =
      kSamplesPerPaxel * (lastPaxelIndex 48000 - firstPaxelIndex 0 + 1) := by
  refine ⟨rfl, by decide, ?_, ?_⟩
  · exact (renderAudio_grid_spec 0 48000 gridWitnessP0 gridWitnessP1 [] rfl
      (List.chain'_cons.mpr ⟨by norm_num [gridWitnessP0, gridWitnessP1],
        List.chain'_singleton _⟩) rfl
      (by
        intro p hp
        rcases List.mem_cons.mp hp with h | hp2
        · subst h; decide
        · rcases List.mem_cons.mp hp2 with h | hp3
          · subst h; decide
          · simp at hp3)
      (by decide)).1
  · exact (renderAudio_grid_spec 0 48000 gridWitnessP0 gridWitnessP1 [] rfl
      (List.chain'_cons.mpr ⟨by norm_num [gridWitnessP0, gridWitnessP1],
        List.chain'_singleton _⟩) rfl
      (by
        intro p hp
        rcases List.mem_cons.mp hp with h | hp2
        · subst h; decide
        · rcases List.mem_cons.mp hp2 with h | hp3
          · subst h; decide
          · simp at hp3)
      (by decide)).2.1

/-- Witness for C9 at concrete inputs: a frequency envelope containing a
non-positive level is rejected; the flat legal envelope `[1000]` succeeds. -/
theorem constructor_validation_witness :
    (∃ l ∈ [(-1 : ℝ)], l ≤ 0) ∧
    mkFrequencyEnvelope [(-1 : ℝ)] [] = none ∧
    ((1 : ℕ) ≤ ([(1000 : ℝ)] : List ℝ).length) ∧
    mkFrequencyEnvelope [(1000 : ℝ)] [] =
      some ⟨[(1000 : ℝ)], [], ([] : List ℝ).map secondsToSamples⟩ := by
  refine ⟨⟨-1, by simp, by norm_num⟩, ?_, by simp, ?_⟩
  · exact constructor_validation.1 [(-1 : ℝ)] [] ⟨-1, by simp, by norm_num⟩
  · exact constructor_validation.2.2.2.2.1 [(1000 : ℝ)] [] (by simp) (by simp)
      (by simp) (by intro l hl; simp at hl; rw [hl]; norm_num)

/-- Counterexample to C9's error mechanism ("rejected with a domain error
(InvariantViolation) identifying the offending coordinate"): the
constructors reject by a failing `assert` — the program aborts and no error
value of any kind is surfaced; no `InvariantViolation` type exists in the
sources.  Formally, the rejection carries no information that could identify
the offending coordinate: two `PhaseCoordinates` inputs whose non-ascending
adjacent pair sits at different positions (second/third coordinate versus
third/fourth) are rejected identically. -/
theorem constructor_validation_counterexample :
    mkPhaseCoordinates
      [⟨0, 0, 0, false⟩, ⟨2, 192000, 0, false⟩, ⟨1, 96000, 0, false⟩] = none ∧
    mkPhaseCoordinates
      [⟨0, 0, 0, false⟩, ⟨1, 96000, 0, false⟩, ⟨3, 288000, 0, false⟩,
        ⟨2, 192000, 0, false⟩] = none ∧
    mkPhaseCoordinates
      [⟨0, 0, 0, false⟩, ⟨2, 192000, 0, false⟩, ⟨1, 96000, 0, false⟩] =
      mkPhaseCoordinates
        [⟨0, 0, 0, false⟩, ⟨1, 96000, 0, false⟩, ⟨3, 288000, 0, false⟩,
          ⟨2, 192000, 0, false⟩] := by
  have h1 : mkPhaseCoordinates
      [⟨0, 0, 0, false⟩, ⟨2, 192000, 0, false⟩, ⟨1, 96000, 0, false⟩] = none := by
    unfold mkPhaseCoordinates
    rw [if_neg]
    rintro ⟨-, -, -, -, hch⟩
    simp only [List.map_cons, List.map_nil] at hch
    have h := (List.chain'_cons.mp (List.chain'_cons.mp hch).2).1
    norm_num at h
  have h2 : mkPhaseCoordinates
      [⟨0, 0, 0, false⟩, ⟨1, 96000, 0, false⟩, ⟨3, 288000, 0, false⟩,
        ⟨2, 192000, 0, false⟩] = none := by
    unfold mkPhaseCoordinates
    rw [if_neg]
    rintro ⟨-, -, -, -, hch⟩
    simp only [List.map_cons, List.map_nil] at hch
    have h := (List.chain'_cons.mp
      (List.chain'_cons.mp (List.chain'_cons.mp hch).2).2).1
    norm_num at h
  exact ⟨h1, h2, by rw [h1, h2]⟩

end RAINBOHz
